import Mathlib

/-!
# Delivery planner: shallow embedding of `service/robot.go`

The development embeds `selectOrdersForDelivery`, `greedySeedPlan`,
`GenerateDeliveryPlan` and `UpdateOrderStatus` together with the two
repository calls they use (`GetShippingOrders`, `UpdateStatuses`).

Modelling conventions.

* A Go `int` is a 64-bit two's-complement integer.  The planner is embedded
  twice.  `selectOrdersForDelivery64`, with `less64`, `greedySeedPlan64`,
  `fractionalBound64` and `dfs64`, is the planner in machine arithmetic: every
  `int` sum, difference and product is reduced by `wrap64`, and every
  `float64` conversion and operation is rounded.  `selectOrdersForDelivery`,
  with `less`, `greedySeedPlan`, `fractionalBound` and `dfs`, is the same code
  over the mathematical integers.  The two return the same when the magnitudes
  are `WithinRange` (`select64_eq_ideal`) and differ outside.  What a plan is
  worth, what it weighs and how the candidates are ordered is settled on the
  machine planner; which orders a plan may hold, what a trivial or a cancelled
  call returns and what the coordinator writes does not depend on the
  arithmetic (`select64_structure`) and is stated over the integers.
* `float64` arithmetic is a rounding function `rnd : ℚ → ℚ` applied to every
  real result.  `float64` is the rounding of IEEE 754 binary64 (to nearest,
  ties to even, 53-bit significand); it is monotone and exact on the integers
  up to `2^53` (`Float64Like`).  `rnd = id` is exact arithmetic.
* A Go slice is a `List`.  `append(curSet, order)` is `curSet ++ [order]`: a
  slice in use is never overwritten by a deeper call, because deeper calls
  only write behind its length.
* The index `i` of the search and `idx` of the bound is represented by the
  suffix `candidates[i:]` that is still to be scanned; `i == len(candidates)`
  is the empty suffix.
* The step counter of the search is a natural number: it cannot reach `2^63`
  in any run.
* The deadline signal `ctx.Done()` is a function of the step counter at which
  it is polled; `ctx.Err()` is the error carried by the context.
* The database is a list of rows with the log of the UPDATE statements issued;
  the failures of the driver are part of the store, so that every error path
  of the coordinator can be taken.  Calls on the store run one at a time.
-/

namespace Robot

/-- The fields of `model.Order` read by the planner (the columns selected by
`GetShippingOrders`). -/
structure Order where
  orderID : Int
  weight : Int
  value : Int
deriving DecidableEq, Repr

/-- The record `model.DeliveryPlan`. -/
structure DeliveryPlan where
  robotID : String
  totalWeight : Int
  totalValue : Int
  orders : List Order
deriving DecidableEq, Repr

/-- The part of `context.Context` the planner uses: `done n` is what the poll
of `ctx.Done()` answers when the step counter is `n`, `err` is `ctx.Err()`. -/
structure Context where
  done : Nat → Bool
  err : String

/-- The comparator handed to `sort.SliceStable` (robot.go 67-80), with the cross
products taken over the integers (`less64` takes them in 64 bits). -/
def less (a b : Order) : Bool :=
  if a.weight = 0 ∧ b.weight = 0 then decide (a.value > b.value)
  else if a.weight = 0 then true
  else if b.weight = 0 then false
  else decide (a.value * b.weight > b.value * a.weight)

/-- The relation "`b` is not strictly before `a`". -/
def notAfter (a b : Order) : Prop := less b a = false

instance : DecidableRel notAfter := fun a b => by
  unfold notAfter; infer_instance

/-- The call `sort.SliceStable(candidates, less)` on a copy of `orders`: a stable
sort, realised as insertion sort (an element is placed before the first
element that is not strictly before it).  On orders of non-negative weight
`less` is a strict weak ordering, for which every stable sort returns the same
list. -/
def sortCandidates (orders : List Order) : List Order :=
  orders.insertionSort notAfter

/-- The loop of `greedySeedPlan` (robot.go 175-186) over the integers. -/
def greedyLoop : List Order → Int → Int → List Order → Int × List Order
  | [], _, value, selected => (value, selected)
  | o :: os, remaining, value, selected =>
    if o.weight ≤ 0 then
      greedyLoop os remaining (value + o.value) (selected ++ [o])
    else if o.weight ≤ remaining then
      greedyLoop os (remaining - o.weight) (value + o.value) (selected ++ [o])
    else
      greedyLoop os remaining value selected

/-- The function `greedySeedPlan` (robot.go 171-188) over the integers. -/
def greedySeedPlan (orders : List Order) (capacity : Int) : Int × List Order :=
  greedyLoop orders capacity 0 []

/-- The loop of `fractionalBound` (robot.go 98-112) over `candidates[j:]`, with
`remaining` an integer. -/
def boundLoop (rnd : ℚ → ℚ) : List Order → Int → ℚ → ℚ
  | [], _, bound => bound
  | order :: rest, remaining, bound =>
    if remaining ≥ 0 then
      if order.weight ≤ 0 then
        boundLoop rnd rest remaining (rnd (bound + rnd order.value))
      else if order.weight ≤ remaining then
        boundLoop rnd rest (remaining - order.weight) (rnd (bound + rnd order.value))
      else
        rnd (bound + rnd (rnd (rnd order.value * rnd remaining) / rnd order.weight))
    else bound

/-- The closure `fractionalBound` (robot.go 92-114); `rest` is
`candidates[idx:]`. -/
def fractionalBound (rnd : ℚ → ℚ) (robotCapacity : Int) (rest : List Order)
    (curWeight : Int) : ℚ :=
  if curWeight ≥ robotCapacity then 0
  else boundLoop rnd rest (robotCapacity - curWeight) 0

/-- The variables captured and mutated by the closure `dfs`. -/
structure Search where
  bestValue : Int
  bestSet : List Order
  steps : Nat
deriving DecidableEq, Repr

/-- The constant `checkEvery` (robot.go 90). -/
def checkEvery : Nat := 16384

/-- The closure `dfs` (robot.go 117-151) over the integers; `rest` is
`candidates[i:]`.  The result pairs the returned flag (`true`: cancelled) with
the captured variables after the call. -/
def dfs (rnd : ℚ → ℚ) (ctx : Context) (robotCapacity : Int) :
    List Order → Int → Int → List Order → Search → Bool × Search
  | rest, curWeight, curValue, curSet, s =>
    if curWeight > robotCapacity then (false, s)
    else
      let s1 : Search := { s with steps := s.steps + 1 }
      if checkEvery > 0 ∧ s1.steps % checkEvery = 0 ∧ ctx.done s1.steps = true then
        (true, s1)
      else if rnd (rnd curValue + fractionalBound rnd robotCapacity rest curWeight)
          ≤ rnd s1.bestValue then
        (false, s1)
      else
        let s2 : Search :=
          if curValue > s1.bestValue then
            { s1 with bestValue := curValue, bestSet := curSet }
          else s1
        match rest with
        | [] => (false, s2)
        | order :: rest1 =>
          let r := dfs rnd ctx robotCapacity rest1 (curWeight + order.weight)
            (curValue + order.value) (curSet ++ [order]) s2
          if r.1 then (true, r.2)
          else dfs rnd ctx robotCapacity rest1 curWeight curValue curSet r.2

/-- The zero value `model.DeliveryPlan{}`. -/
def emptyPlan : DeliveryPlan :=
  { robotID := "", totalWeight := 0, totalValue := 0, orders := [] }

/-- The function `selectOrdersForDelivery` (robot.go 61-169) over the integers.
The second component is the returned error (`none` is `nil`). -/
def selectOrdersForDelivery (rnd : ℚ → ℚ) (ctx : Context) (orders : List Order)
    (robotID : String) (robotCapacity : Int) : DeliveryPlan × Option String :=
  if robotCapacity ≤ 0 ∨ orders.length = 0 then
    ({ emptyPlan with robotID := robotID }, none)
  else
    let candidates := sortCandidates orders
    let seed := greedySeedPlan candidates robotCapacity
    let s0 : Search :=
      if seed.1 > 0 then { bestValue := seed.1, bestSet := seed.2, steps := 0 }
      else { bestValue := 0, bestSet := [], steps := 0 }
    let r := dfs rnd ctx robotCapacity candidates 0 0 [] s0
    if r.1 then (emptyPlan, some ctx.err)
    else
      ({ robotID := robotID
         totalWeight := r.2.bestSet.foldl (fun acc o => acc + o.weight) 0
         totalValue := r.2.bestValue
         orders := r.2.bestSet }, none)

/-! ## The store and the coordinator -/

/-- A row of table `orders` joined with its product: the columns read by
`GetShippingOrders` and the lifecycle column `shipped_status`. -/
structure Row where
  order : Order
  shippedStatus : String
deriving DecidableEq, Repr

/-- One statement `UPDATE orders SET shipped_status = ? WHERE order_id IN (?)`. -/
structure UpdateStmt where
  newStatus : String
  orderIDs : List Int
deriving DecidableEq, Repr

/-- The database behind a `repository.Store`: the table, the UPDATE statements
issued so far, and the answers of the driver: the error (if any) with which
opening a transaction, a query, a statement and a commit fail. -/
structure Store where
  rows : List Row
  updates : List UpdateStmt
  beginErr : Option String
  selectErr : Option String
  execErr : Option String
  commitErr : Option String
deriving DecidableEq, Repr

/-- The method `OrderRepository.UpdateStatuses` (order.go 37-48).  `sqlx.In`
cannot fail on a non-empty id list; a statement that fails changes no row. -/
def UpdateStatuses (db : Store) (orderIDs : List Int) (newStatus : String) :
    Store × Option String :=
  if orderIDs.length = 0 then (db, none)
  else
    let issued : Store := { db with updates := db.updates ++ [⟨newStatus, orderIDs⟩] }
    match db.execErr with
    | some e => (issued, some e)
    | none =>
      ({ issued with
          rows := db.rows.map (fun r =>
            if r.order.orderID ∈ orderIDs then { r with shippedStatus := newStatus } else r) },
        none)

/-- The method `OrderRepository.GetShippingOrders` (order.go 51-64). -/
def GetShippingOrders (db : Store) : List Order × Option String :=
  match db.selectErr with
  | some e => ([], some e)
  | none => ((db.rows.filter (fun r => r.shippedStatus = "shipping")).map Row.order, none)

/-- Modelled from the spec: `Store.ExecTx`, whose source is not among the
files at hand.  It opens a transaction, runs `fn` on the transaction handle
and commits; when opening, `fn` or the commit fails, the transaction is rolled
back (no row changes) and the error is returned.  `captured` is the variable
of the caller that `fn` assigns. -/
def ExecTx {σ : Type} (store : Store) (captured : σ)
    (fn : Store → σ → Store × σ × Option String) : Store × σ × Option String :=
  match store.beginErr with
  | some e => (store, captured, some e)
  | none =>
    let r := fn store captured
    match r.2.2 with
    | some e => ({ store with updates := r.1.updates }, r.2.1, some e)
    | none =>
      match store.commitErr with
      | some e => ({ store with updates := r.1.updates }, r.2.1, some e)
      | none => (r.1, r.2.1, none)

/-- Modelled from the spec: `utils.WithTimeout`, whose source is not among the
files at hand.  It runs `fn` under a context that carries the deadline of the
request and returns what `fn` returns; `ctx` stands for that context. -/
def WithTimeout {α : Type} (ctx : Context) (fn : Context → α) : α := fn ctx

/-- The function literal that `GenerateDeliveryPlan` hands to `ExecTx`
(robot.go 26-47); `plan` is the captured variable that it assigns. -/
def planTx (rnd : ℚ → ℚ) (ctx : Context) (robotID : String) (capacity : Int)
    (txStore : Store) (plan : DeliveryPlan) : Store × DeliveryPlan × Option String :=
  let q := GetShippingOrders txStore
  match q.2 with
  | some e => (txStore, plan, some e)
  | none =>
    let p := selectOrdersForDelivery rnd ctx q.1 robotID capacity
    match p.2 with
    | some e => (txStore, p.1, some e)
    | none =>
      if p.1.orders.length > 0 then
        let u := UpdateStatuses txStore (p.1.orders.map Order.orderID) "delivering"
        match u.2 with
        | some e => (u.1, p.1, some e)
        | none => (u.1, p.1, none)
      else (txStore, p.1, none)

/-- The method `RobotService.GenerateDeliveryPlan` (robot.go 22-53).  The
result is the store after the call, the returned plan (`none` is the nil
pointer) and the returned error. -/
def GenerateDeliveryPlan (rnd : ℚ → ℚ) (ctx : Context) (store : Store) (robotID : String)
    (capacity : Int) : Store × Option DeliveryPlan × Option String :=
  let r := WithTimeout ctx (fun ctx =>
    ExecTx store emptyPlan (planTx rnd ctx robotID capacity))
  match r.2.2 with
  | some e => (r.1, none, some e)
  | none => (r.1, some r.2.1, none)

/-- The method `RobotService.UpdateOrderStatus` (robot.go 55-59). -/
def UpdateOrderStatus (ctx : Context) (store : Store) (orderID : Int) (newStatus : String) :
    Store × Option String :=
  WithTimeout ctx (fun _ => UpdateStatuses store [orderID] newStatus)

/-- One event in the life of the store: a call of one of the three operations
that write it, or a change of the answers of the driver. -/
inductive Call where
  | updateOrderStatus (ctx : Context) (orderID : Int) (newStatus : String)
  | updateStatuses (orderIDs : List Int) (newStatus : String)
  | generateDeliveryPlan (rnd : ℚ → ℚ) (ctx : Context) (robotID : String) (capacity : Int)
  | driver (beginErr selectErr execErr commitErr : Option String)

/-- The store after an event. -/
def applyCall (store : Store) : Call → Store
  | .updateOrderStatus ctx orderID newStatus =>
    (UpdateOrderStatus ctx store orderID newStatus).1
  | .updateStatuses orderIDs newStatus => (UpdateStatuses store orderIDs newStatus).1
  | .generateDeliveryPlan rnd ctx robotID capacity =>
    (GenerateDeliveryPlan rnd ctx store robotID capacity).1
  | .driver b q x c =>
    { store with beginErr := b, selectErr := q, execErr := x, commitErr := c }

/-- The store after a sequence of events. -/
def runCalls (store : Store) (calls : List Call) : Store := calls.foldl applyCall store

/-- The event is a status update whose new status is 'shipping'. -/
def writesShipping : Call → Prop
  | .updateOrderStatus _ _ newStatus => newStatus = "shipping"
  | .updateStatuses _ newStatus => newStatus = "shipping"
  | .generateDeliveryPlan _ _ _ _ => False
  | .driver _ _ _ _ => False

/-! ## The list queries

`ListOrders` and `ListProducts` build a count query and a data query and hand
them to the driver.  The model is the text and the arguments of the two
queries.  `strings.ToUpper` and `strings.ToLower` of the Go library are
parameters `toUpper` and `toLower`. -/

/-- The fields of `model.ListRequest` that the list queries read. -/
structure ListRequest where
  search : String
  type : String
  sortField : String
  sortOrder : String
  pageSize : Int
  offset : Int
deriving DecidableEq, Repr

/-- A query argument (`interface{}`): an integer or a string. -/
inductive Arg where
  | int (n : Int)
  | str (s : String)
deriving DecidableEq, Repr

/-- A query as it is handed to the driver: its text and its arguments. -/
structure Query where
  text : String
  args : List Arg
deriving DecidableEq, Repr

/-- The variables `countQuery` and `args` of `ListOrders` when the count query
is issued (order.go 69-88). -/
def ordersCountQuery (userID : Int) (req : ListRequest) : Query :=
  let countQuery := "\n        SELECT COUNT(*) as total\n        FROM orders o\n        JOIN products p ON o.product_id = p.product_id\n        WHERE o.user_id = ?\n    "
  let args := [Arg.int userID]
  if req.search ≠ "" then
    if req.type = "prefix" then
      { text := countQuery ++ " AND p.name LIKE ?", args := args ++ [Arg.str (req.search ++ "%")] }
    else
      { text := countQuery ++ " AND p.name LIKE ?",
        args := args ++ [Arg.str ("%" ++ req.search ++ "%")] }
  else { text := countQuery, args := args }

/-- The variable `sortField` of `ListOrders` (order.go 93-107). -/
def ordersSortField (req : ListRequest) : String :=
  if req.sortField = "name" ∨ req.sortField = "product_name" then "p.name"
  else if req.sortField = "created_at" then "o.created_at"
  else if req.sortField = "shipped_status" then "o.shipped_status"
  else if req.sortField = "arrived_at" then "o.arrived_at"
  else if req.sortField = "order_id" then "o.order_id"
  else "o.order_id"

/-- The variable `sortOrder` of `ListOrders` (order.go 109-112) and of
`ListProducts` (product.go 57-60). -/
def sortOrder (toUpper : String → String) (req : ListRequest) : String :=
  if toUpper req.sortOrder = "DESC" then "DESC" else "ASC"

/-- The ORDER BY clause that `ListOrders` appends (order.go 134-138). -/
def ordersOrderBy (toUpper : String → String) (req : ListRequest) : String :=
  if ordersSortField req = "o.order_id" then
    " ORDER BY " ++ ordersSortField req ++ " " ++ sortOrder toUpper req
  else
    " ORDER BY " ++ ordersSortField req ++ " " ++ sortOrder toUpper req
      ++ ", o.order_id " ++ sortOrder toUpper req

/-- The variables `query` and `queryArgs` of `ListOrders` when the data query
is issued (order.go 115-151). -/
def ordersDataQuery (toUpper : String → String) (userID : Int) (req : ListRequest) : Query :=
  let query := "\n        SELECT o.order_id, o.product_id, o.shipped_status, o.created_at, o.arrived_at, p.name as product_name\n        FROM orders o\n        JOIN products p ON o.product_id = p.product_id\n        WHERE o.user_id = ?\n    "
  let queryArgs := [Arg.int userID]
  let filtered : Query :=
    if req.search ≠ "" then
      if req.type = "prefix" then
        { text := query ++ " AND p.name LIKE ?",
          args := queryArgs ++ [Arg.str (req.search ++ "%")] }
      else
        { text := query ++ " AND p.name LIKE ?",
          args := queryArgs ++ [Arg.str ("%" ++ req.search ++ "%")] }
    else { text := query, args := queryArgs }
  { text := filtered.text ++ ordersOrderBy toUpper req ++ " LIMIT ? OFFSET ?",
    args := filtered.args ++ [Arg.int req.pageSize, Arg.int req.offset] }

/-- The two queries of `OrderRepository.ListOrders` (order.go 67-168): the
count query and the data query. -/
def ListOrders (toUpper : String → String) (userID : Int) (req : ListRequest) :
    Query × Query :=
  (ordersCountQuery userID req, ordersDataQuery toUpper userID req)

/-- The variables `whereClause` and `args` of `ListProducts` (product.go
23-33). -/
def productsWhere (toLower : String → String) (req : ListRequest) : Query :=
  if req.search ≠ "" then
    let pattern :=
      if toLower req.type = "prefix" then req.search ++ "%" else "%" ++ req.search ++ "%"
    { text := " WHERE (name LIKE ? OR description LIKE ?)",
      args := [Arg.str pattern, Arg.str pattern] }
  else { text := "", args := [] }

/-- The variable `sortField` of `ListProducts` (product.go 43-55). -/
def productsSortField (req : ListRequest) : String :=
  if req.sortField = "name" then "name"
  else if req.sortField = "value" then "value"
  else if req.sortField = "weight" then "weight"
  else "product_id"

/-- The ORDER BY clause that `ListProducts` appends (product.go 62-66). -/
def productsOrderBy (toUpper : String → String) (req : ListRequest) : String :=
  if productsSortField req = "product_id" then
    " ORDER BY " ++ productsSortField req ++ " " ++ sortOrder toUpper req
  else
    " ORDER BY " ++ productsSortField req ++ " " ++ sortOrder toUpper req ++ ", product_id ASC"

/-- The two queries of `ProductRepository.ListProducts` (product.go 18-76):
the count query and the data query.  The parameter `userID` is not used. -/
def ListProducts (toUpper toLower : String → String) (_userID : Int) (req : ListRequest) :
    Query × Query :=
  let baseQuery := "\n\t\tSELECT product_id, name, value, weight, image, description\n\t\tFROM products\n\t"
  let w := productsWhere toLower req
  ({ text := "SELECT COUNT(*) FROM products" ++ w.text, args := w.args },
   { text := baseQuery ++ w.text ++ productsOrderBy toUpper req ++ " LIMIT ? OFFSET ?",
     args := w.args ++ [Arg.int req.pageSize, Arg.int req.offset] })

/-- The filter that `ListOrders` puts into both of its queries: the text
from WHERE on. -/
def ordersWhereText (req : ListRequest) : String :=
  "WHERE o.user_id = ?\n    " ++ (if req.search ≠ "" then " AND p.name LIKE ?" else "")

/-- The filter arguments of `ListOrders`: none without search text, the
prefix pattern for type "prefix", the substring pattern otherwise. -/
def ordersFilterArgs (req : ListRequest) : List Arg :=
  if req.search = "" then []
  else if req.type = "prefix" then [Arg.str (req.search ++ "%")]
  else [Arg.str ("%" ++ req.search ++ "%")]

/-- The filter arguments of `ListProducts`: none without search text,
otherwise the pattern for name and again for description, the prefix pattern
when the lower-cased type is "prefix" and the substring pattern otherwise. -/
def productsFilterArgs (toLower : String → String) (req : ListRequest) : List Arg :=
  if req.search = "" then []
  else if toLower req.type = "prefix" then
    [Arg.str (req.search ++ "%"), Arg.str (req.search ++ "%")]
  else [Arg.str ("%" ++ req.search ++ "%"), Arg.str ("%" ++ req.search ++ "%")]

/-- The text `part` occurs in the text `text`. -/
def occursIn (part text : String) : Prop := part.data <:+: text.data

instance (part text : String) : Decidable (occursIn part text) := by
  unfold occursIn; infer_instance

/-! ## Specification-side definitions -/

/-- Summed weight of a collection of orders. -/
def sumW (l : List Order) : Int := (l.map Order.weight).sum

/-- Summed value of a collection of orders. -/
def sumV (l : List Order) : Int := (l.map Order.value).sum

/-- The 0/1-knapsack optimum in the words of the specification: the maximum of
the summed values over all sub-collections of `orders` whose summed weight is
at most `capacity` (by enumeration of all sub-collections). -/
def knapsackOptimum (orders : List Order) (capacity : Int) : Int :=
  ((orders.sublists.filter (fun s => decide (sumW s ≤ capacity))).map sumV).foldr max 0

/-- The fractional-knapsack relaxation in exact arithmetic, written without
accumulator: whole items while they fit, then the fraction of the first item
that does not fit. -/
def fracBound : List Order → Int → ℚ
  | [], _ => 0
  | o :: rest, remaining =>
    if o.weight ≤ 0 then (o.value : ℚ) + fracBound rest remaining
    else if o.weight ≤ remaining then (o.value : ℚ) + fracBound rest (remaining - o.weight)
    else (o.value : ℚ) * remaining / o.weight

/-- An idealised rounding: monotone, and exact on every integer.  Exact
arithmetic (`id`) is one.  `float64` is not (it rounds `2^53 + 1` to `2^53`);
it satisfies `Float64Like`, and `exactBeyond float64` is an idealised
rounding that agrees with it up to `2^53`. -/
structure Rounding (rnd : ℚ → ℚ) : Prop where
  mono : ∀ x y : ℚ, x ≤ y → rnd x ≤ rnd y
  exact : ∀ n : Int, rnd (n : ℚ) = (n : ℚ)

/-- The effect of lines 135-138 of robot.go on the captured variables. -/
def record (curValue : Int) (curSet : List Order) (s : Search) : Search :=
  if curValue > s.bestValue then { s with bestValue := curValue, bestSet := curSet } else s

/-- The captured variables when the search starts (robot.go 82-89): the greedy
seed when its value is positive, otherwise value 0 and no set. -/
def seedState (candidates : List Order) (robotCapacity : Int) : Search :=
  if (greedySeedPlan candidates robotCapacity).1 > 0 then
    { bestValue := (greedySeedPlan candidates robotCapacity).1
      bestSet := (greedySeedPlan candidates robotCapacity).2
      steps := 0 }
  else { bestValue := 0, bestSet := [], steps := 0 }

/-- The captured variables of a search: the recorded value is the value of the
recorded set, the set fits the capacity and is a subsequence of `all`. -/
def Good (robotCapacity : Int) (all : List Order) (s : Search) : Prop :=
  s.bestValue = sumV s.bestSet ∧ sumW s.bestSet ≤ robotCapacity ∧ s.bestSet.Sublist all

/-- An instance on which the search cannot prune: `n` orders of weight 2 and
value 1 each, to be planned with capacity 1.  No order fits, the fractional
bound of every non-empty suffix is 1/2, and the search walks down the whole
list. -/
def heavyOrders (n : Nat) : List Order :=
  (List.range n).map (fun (i : Nat) => { orderID := (i : Int), weight := 2, value := 1 })

/-- The zero-weight orders of a list, in their order. -/
def zeros (l : List Order) : List Order := l.filter (fun o => decide (o.weight = 0))

/-- The captured variables hold every zero-weight candidate: the recorded set
contains them all and the recorded value is at least their summed value. -/
def KeepsZeros (all : List Order) (s : Search) : Prop :=
  (zeros all).Sublist s.bestSet ∧ sumV (zeros all) ≤ s.bestValue

/-! ## The planner in machine arithmetic -/

/-- The value of a Go `int` expression on the 64-bit platforms the service is
built for: the mathematical result reduced to the two's-complement range
`-2^63 ≤ x < 2^63` (`2^63 = 9223372036854775808`). -/
def wrap64 (x : Int) : Int :=
  (x + 9223372036854775808) % 18446744073709551616 - 9223372036854775808

/-- The comparator of robot.go 67-80 in 64-bit arithmetic: the two cross
products are `int` products. -/
def less64 (a b : Order) : Bool :=
  if a.weight = 0 ∧ b.weight = 0 then decide (a.value > b.value)
  else if a.weight = 0 then true
  else if b.weight = 0 then false
  else decide (wrap64 (a.value * b.weight) > wrap64 (b.value * a.weight))

/-- The relation "`b` is not strictly before `a`" of the 64-bit comparator. -/
def notAfter64 (a b : Order) : Prop := less64 b a = false

instance : DecidableRel notAfter64 := fun a b => by
  unfold notAfter64; infer_instance

/-- The call `sort.SliceStable(candidates, less)` with the 64-bit comparator,
realised as the same insertion sort as `sortCandidates`.  Where the comparator
is a strict weak ordering on the orders, every stable sort returns this list.
`sort.SliceStable` sorts a slice of at most 20 elements by insertion (each
element moves towards the front while it is strictly before its
predecessor); on two elements that swaps exactly when the second is strictly
before the first, as here. -/
def sortCandidates64 (orders : List Order) : List Order :=
  orders.insertionSort notAfter64

/-- The loop of `greedySeedPlan` (robot.go 175-186) in 64-bit arithmetic. -/
def greedyLoop64 : List Order → Int → Int → List Order → Int × List Order
  | [], _, value, selected => (value, selected)
  | o :: os, remaining, value, selected =>
    if o.weight ≤ 0 then
      greedyLoop64 os remaining (wrap64 (value + o.value)) (selected ++ [o])
    else if o.weight ≤ remaining then
      greedyLoop64 os (wrap64 (remaining - o.weight)) (wrap64 (value + o.value))
        (selected ++ [o])
    else
      greedyLoop64 os remaining value selected

/-- The function `greedySeedPlan` (robot.go 171-188) in 64-bit arithmetic. -/
def greedySeedPlan64 (orders : List Order) (capacity : Int) : Int × List Order :=
  greedyLoop64 orders capacity 0 []

/-- The loop of `fractionalBound` (robot.go 98-112): `remaining` is an `int`,
the bound a `float64`; `rnd` rounds every conversion and every operation. -/
def boundLoop64 (rnd : ℚ → ℚ) : List Order → Int → ℚ → ℚ
  | [], _, bound => bound
  | order :: rest, remaining, bound =>
    if remaining ≥ 0 then
      if order.weight ≤ 0 then
        boundLoop64 rnd rest remaining (rnd (bound + rnd order.value))
      else if order.weight ≤ remaining then
        boundLoop64 rnd rest (wrap64 (remaining - order.weight))
          (rnd (bound + rnd order.value))
      else
        rnd (bound + rnd (rnd (rnd order.value * rnd remaining) / rnd order.weight))
    else bound

/-- The closure `fractionalBound` (robot.go 92-114) in machine arithmetic. -/
def fractionalBound64 (rnd : ℚ → ℚ) (robotCapacity : Int) (rest : List Order)
    (curWeight : Int) : ℚ :=
  if curWeight ≥ robotCapacity then 0
  else boundLoop64 rnd rest (wrap64 (robotCapacity - curWeight)) 0

/-- The closure `dfs` (robot.go 117-151) in machine arithmetic: the sums
handed to the recursive call are `int` sums, the pruning test is a `float64`
comparison. -/
def dfs64 (rnd : ℚ → ℚ) (ctx : Context) (robotCapacity : Int) :
    List Order → Int → Int → List Order → Search → Bool × Search
  | rest, curWeight, curValue, curSet, s =>
    if curWeight > robotCapacity then (false, s)
    else
      let s1 : Search := { s with steps := s.steps + 1 }
      if checkEvery > 0 ∧ s1.steps % checkEvery = 0 ∧ ctx.done s1.steps = true then
        (true, s1)
      else if rnd (rnd curValue + fractionalBound64 rnd robotCapacity rest curWeight)
          ≤ rnd s1.bestValue then
        (false, s1)
      else
        let s2 : Search :=
          if curValue > s1.bestValue then
            { s1 with bestValue := curValue, bestSet := curSet }
          else s1
        match rest with
        | [] => (false, s2)
        | order :: rest1 =>
          let r := dfs64 rnd ctx robotCapacity rest1 (wrap64 (curWeight + order.weight))
            (wrap64 (curValue + order.value)) (curSet ++ [order]) s2
          if r.1 then (true, r.2)
          else dfs64 rnd ctx robotCapacity rest1 curWeight curValue curSet r.2

/-- The function `selectOrdersForDelivery` (robot.go 61-169) in machine
arithmetic. -/
def selectOrdersForDelivery64 (rnd : ℚ → ℚ) (ctx : Context) (orders : List Order)
    (robotID : String) (robotCapacity : Int) : DeliveryPlan × Option String :=
  if robotCapacity ≤ 0 ∨ orders.length = 0 then
    ({ emptyPlan with robotID := robotID }, none)
  else
    let candidates := sortCandidates64 orders
    let seed := greedySeedPlan64 candidates robotCapacity
    let s0 : Search :=
      if seed.1 > 0 then { bestValue := seed.1, bestSet := seed.2, steps := 0 }
      else { bestValue := 0, bestSet := [], steps := 0 }
    let r := dfs64 rnd ctx robotCapacity candidates 0 0 [] s0
    if r.1 then (emptyPlan, some ctx.err)
    else
      ({ robotID := robotID
         totalWeight := r.2.bestSet.foldl (fun acc o => wrap64 (acc + o.weight)) 0
         totalValue := r.2.bestValue
         orders := r.2.bestSet }, none)

/-- The loop of `natLog2`: halve `n` until it is below 2, at most `fuel` times. -/
def log2Loop : Nat → Nat → Nat
  | 0, _ => 0
  | fuel + 1, n => if 2 ≤ n then log2Loop fuel (n / 2) + 1 else 0

/-- Floor of the binary logarithm of a natural number (0 at 0). -/
def natLog2 (n : Nat) : Nat := log2Loop n n

/-- Floor of the binary logarithm of `|x|` for `x ≠ 0`: the difference of the
logarithms of numerator and denominator, or one less. -/
def ilog2 (x : ℚ) : Int :=
  if (2 : ℚ) ^ ((natLog2 x.num.natAbs : Int) - (natLog2 x.den : Int)) ≤ |x| then
    (natLog2 x.num.natAbs : Int) - (natLog2 x.den : Int)
  else (natLog2 x.num.natAbs : Int) - (natLog2 x.den : Int) - 1

/-- Rounding to the nearest integer, ties to the even one. -/
def roundHalfEven (q : ℚ) : Int :=
  if q - ⌊q⌋ < 1 / 2 then ⌊q⌋
  else if 1 / 2 < q - ⌊q⌋ then ⌊q⌋ + 1
  else if ⌊q⌋ % 2 = 0 then ⌊q⌋ else ⌊q⌋ + 1

/-- The value of a real result as a `float64`: round to nearest, ties to
even, with a significand of 53 bits.  The exponent range is not limited; the
planner forms no value of magnitude `2^1024` or more and none below `2^-1022`
other than 0. -/
def float64 (x : ℚ) : ℚ :=
  if x = 0 then 0
  else (roundHalfEven (x / (2 : ℚ) ^ (ilog2 x - 52)) : ℚ) * (2 : ℚ) ^ (ilog2 x - 52)

/-- What the proofs use of `float64` (and what `float64` satisfies): rounding
is monotone, and an integer of magnitude at most `2^53 = 9007199254740992` is
represented exactly. -/
structure Float64Like (rnd : ℚ → ℚ) : Prop where
  mono : ∀ x y : ℚ, x ≤ y → rnd x ≤ rnd y
  exact : ∀ n : Int, -9007199254740992 ≤ n → n ≤ 9007199254740992 → rnd (n : ℚ) = (n : ℚ)

/-- The rounding `rnd` continued exactly beyond magnitude `2^53`. -/
def exactBeyond (rnd : ℚ → ℚ) (x : ℚ) : ℚ :=
  if -9007199254740992 ≤ x ∧ x ≤ 9007199254740992 then rnd x else x

/-- Magnitudes at which the machine arithmetic of the planner is the
arithmetic of the integers: every weight and the capacity are at most `2^53`,
the values sum to at most `2^53`, every product of a value with the capacity
is at most `2^53` (so that the `float64` conversions, sums and the product of
the bound are exact), and every product of a value with a weight is below
`2^63` (so that the comparator does not wrap). -/
def WithinRange (orders : List Order) (capacity : Int) : Prop :=
  capacity ≤ 9007199254740992 ∧ sumV orders ≤ 9007199254740992 ∧
    (∀ o ∈ orders, o.weight ≤ 9007199254740992) ∧
    (∀ o ∈ orders, o.value * capacity ≤ 9007199254740992) ∧
    (∀ a ∈ orders, ∀ b ∈ orders, a.value * b.weight < 9223372036854775808)

instance (orders : List Order) (capacity : Int) : Decidable (WithinRange orders capacity) := by
  unfold WithinRange; infer_instance

/-- The captured variables when the machine search starts (robot.go 82-89). -/
def seedState64 (candidates : List Order) (robotCapacity : Int) : Search :=
  if (greedySeedPlan64 candidates robotCapacity).1 > 0 then
    { bestValue := (greedySeedPlan64 candidates robotCapacity).1
      bestSet := (greedySeedPlan64 candidates robotCapacity).2
      steps := 0 }
  else { bestValue := 0, bestSet := [], steps := 0 }

/-- Summed magnitude of the weights of a collection of orders. -/
def sumAbsW (l : List Order) : Int := (l.map (fun o => |o.weight|)).sum

/-! ## Unfolding the search -/

theorem dfs_nil (rnd : ℚ → ℚ) (ctx : Context) (cap cw cv : Int) (cs : List Order) (s : Search) :
    dfs rnd ctx cap [] cw cv cs s =
      if cw > cap then (false, s)
      else if checkEvery > 0 ∧ (s.steps + 1) % checkEvery = 0 ∧ ctx.done (s.steps + 1) = true then
        (true, { s with steps := s.steps + 1 })
      else if rnd (rnd cv + fractionalBound rnd cap [] cw) ≤ rnd s.bestValue then
        (false, { s with steps := s.steps + 1 })
      else (false, record cv cs { s with steps := s.steps + 1 }) := by
  unfold dfs
  rfl

theorem dfs_cons (rnd : ℚ → ℚ) (ctx : Context) (cap cw cv : Int) (cs : List Order) (s : Search)
    (o : Order) (rest : List Order) :
    dfs rnd ctx cap (o :: rest) cw cv cs s =
      if cw > cap then (false, s)
      else if checkEvery > 0 ∧ (s.steps + 1) % checkEvery = 0 ∧ ctx.done (s.steps + 1) = true then
        (true, { s with steps := s.steps + 1 })
      else if rnd (rnd cv + fractionalBound rnd cap (o :: rest) cw) ≤ rnd s.bestValue then
        (false, { s with steps := s.steps + 1 })
      else
        if (dfs rnd ctx cap rest (cw + o.weight) (cv + o.value) (cs ++ [o])
            (record cv cs { s with steps := s.steps + 1 })).1 = true then
          (true, (dfs rnd ctx cap rest (cw + o.weight) (cv + o.value) (cs ++ [o])
            (record cv cs { s with steps := s.steps + 1 })).2)
        else dfs rnd ctx cap rest cw cv cs
          (dfs rnd ctx cap rest (cw + o.weight) (cv + o.value) (cs ++ [o])
            (record cv cs { s with steps := s.steps + 1 })).2 := by
  conv_lhs => unfold dfs
  rfl

theorem sumW_nil : sumW [] = 0 := rfl
theorem sumV_nil : sumV [] = 0 := rfl
theorem sumW_cons (o : Order) (l : List Order) : sumW (o :: l) = o.weight + sumW l := by
  simp [sumW]
theorem sumV_cons (o : Order) (l : List Order) : sumV (o :: l) = o.value + sumV l := by
  simp [sumV]
theorem sumW_append (l m : List Order) : sumW (l ++ m) = sumW l + sumW m := by
  simp [sumW]
theorem sumV_append (l m : List Order) : sumV (l ++ m) = sumV l + sumV m := by
  simp [sumV]
theorem sumW_perm {l m : List Order} (h : l.Perm m) : sumW l = sumW m :=
  (h.map Order.weight).sum_eq
theorem sumV_perm {l m : List Order} (h : l.Perm m) : sumV l = sumV m :=
  (h.map Order.value).sum_eq

theorem good_steps {cap : Int} {all : List Order} {s : Search} (n : Nat)
    (h : Good cap all s) : Good cap all { s with steps := n } := h

theorem good_record {cap : Int} {all cs : List Order} {s : Search} {cv : Int}
    (h : Good cap all s) (hv : cv = sumV cs) (hw : sumW cs ≤ cap) (hs : cs.Sublist all) :
    Good cap all (record cv cs s) := by
  unfold record
  split
  · exact ⟨hv, hw, hs⟩
  · exact h

/-- Every state left by the search is `Good` when it starts from a `Good`
state at a node whose weight and value are those of its current set. -/
theorem dfs_good (rnd : ℚ → ℚ) (ctx : Context) (cap : Int) (all : List Order) :
    ∀ (rest : List Order) (cw cv : Int) (cs : List Order) (s : Search),
      Good cap all s → (cs ++ rest).Sublist all → cw = sumW cs → cv = sumV cs →
      Good cap all (dfs rnd ctx cap rest cw cv cs s).2 := by
  intro rest
  induction rest with
  | nil =>
    intro cw cv cs s hs hsub hw hv
    rw [dfs_nil]
    split
    · exact hs
    · split
      · exact hs
      · split
        · exact hs
        · rename_i hcw _ _
          exact good_record (good_steps _ hs) hv (by omega) (by simpa using hsub)
  | cons o rest ih =>
    intro cw cv cs s hs hsub hw hv
    rw [dfs_cons]
    split
    · exact hs
    · split
      · exact hs
      · split
        · exact hs
        · rename_i hcw _ _
          have hcs : cs.Sublist all := (List.sublist_append_left cs (o :: rest)).trans hsub
          have h2 : Good cap all (record cv cs { s with steps := s.steps + 1 }) :=
            good_record (good_steps _ hs) hv (by omega) hcs
          have hin : Good cap all (dfs rnd ctx cap rest (cw + o.weight) (cv + o.value)
              (cs ++ [o]) (record cv cs { s with steps := s.steps + 1 })).2 :=
            ih _ _ _ _ h2 (by simpa using hsub) (by rw [sumW_append, hw]; simp [sumW])
              (by rw [sumV_append, hv]; simp [sumV])
          split
          · exact hin
          · refine ih _ _ _ _ hin ?_ hw hv
            exact (List.Sublist.append_left (List.sublist_cons_self o rest) cs).trans hsub

/-! ## The comparator and the sorted candidates -/

theorem notAfter_total (a b : Order) : notAfter a b ∨ notAfter b a := by
  unfold notAfter less
  split_ifs <;> simp_all <;> omega

theorem notAfter_pos_of_pos {a b : Order} (hb : 0 ≤ b.weight) (h : notAfter a b)
    (ha : 0 < a.weight) : 0 < b.weight := by
  have hb0 : b.weight ≠ 0 := by
    intro h0
    have ha0 : a.weight ≠ 0 := by omega
    simp [notAfter, less, h0, ha0] at h
  omega

theorem notAfter_density {a b : Order} (h : notAfter a b) (ha : 0 < a.weight)
    (hb : 0 < b.weight) : b.value * a.weight ≤ a.value * b.weight := by
  have ha0 : a.weight ≠ 0 := by omega
  have hb0 : b.weight ≠ 0 := by omega
  simpa [notAfter, less, ha0, hb0] using h

theorem notAfter_zero_value {a b : Order} (h : notAfter a b) (ha : a.weight = 0)
    (hb : b.weight = 0) : b.value ≤ a.value := by
  simpa [notAfter, less, ha, hb] using h

theorem notAfter_of_zero {a b : Order} (ha : a.weight = 0) (hb : 0 < b.weight) :
    notAfter a b := by
  have hb0 : b.weight ≠ 0 := by omega
  simp [notAfter, less, ha, hb0]

theorem notAfter_of_density {a b : Order} (ha : 0 < a.weight) (hb : 0 < b.weight)
    (h : b.value * a.weight ≤ a.value * b.weight) : notAfter a b := by
  have ha0 : a.weight ≠ 0 := by omega
  have hb0 : b.weight ≠ 0 := by omega
  simpa [notAfter, less, ha0, hb0] using h

theorem notAfter_of_zero_value {a b : Order} (ha : a.weight = 0) (hb : b.weight = 0)
    (h : b.value ≤ a.value) : notAfter a b := by
  simpa [notAfter, less, ha, hb] using h

theorem notAfter_trans {a b c : Order} (ha : 0 ≤ a.weight) (hb : 0 ≤ b.weight)
    (hc : 0 ≤ c.weight) (hab : notAfter a b) (hbc : notAfter b c) : notAfter a c := by
  rcases ha.lt_or_eq with ha | ha
  · have hb1 := notAfter_pos_of_pos hb hab ha
    have hc1 := notAfter_pos_of_pos hc hbc hb1
    apply notAfter_of_density ha hc1
    have h1 := notAfter_density hab ha hb1
    have h2 := notAfter_density hbc hb1 hc1
    have h3 : c.value * a.weight * b.weight ≤ a.value * c.weight * b.weight := by
      calc c.value * a.weight * b.weight = (c.value * b.weight) * a.weight := by ring
        _ ≤ (b.value * c.weight) * a.weight := mul_le_mul_of_nonneg_right h2 ha.le
        _ = (b.value * a.weight) * c.weight := by ring
        _ ≤ (a.value * b.weight) * c.weight := mul_le_mul_of_nonneg_right h1 hc1.le
        _ = a.value * c.weight * b.weight := by ring
    exact le_of_mul_le_mul_right h3 hb1
  · rcases hc.lt_or_eq with hc | hc
    · exact notAfter_of_zero ha.symm hc
    · rcases hb.lt_or_eq with hb | hb
      · exact absurd (notAfter_pos_of_pos hc.le hbc hb) (by omega)
      · apply notAfter_of_zero_value ha.symm hc.symm
        exact (notAfter_zero_value hbc hb.symm hc.symm).trans
          (notAfter_zero_value hab ha.symm hb.symm)

theorem orderedInsert_sorted (a : Order) (ha : 0 ≤ a.weight) :
    ∀ l : List Order, (∀ o ∈ l, 0 ≤ o.weight) → l.Pairwise notAfter →
      (l.orderedInsert notAfter a).Pairwise notAfter := by
  intro l
  induction l with
  | nil => intro _ _; simp
  | cons b l ih =>
    intro hl hp
    rw [List.orderedInsert]
    have hb : 0 ≤ b.weight := hl b (List.mem_cons_self _ _)
    have hl1 : ∀ o ∈ l, 0 ≤ o.weight := fun o ho => hl o (List.mem_cons_of_mem _ ho)
    rw [List.pairwise_cons] at hp
    split
    · rename_i hab
      rw [List.pairwise_cons]
      refine ⟨?_, List.pairwise_cons.mpr hp⟩
      intro x hx
      rcases List.mem_cons.mp hx with rfl | hx
      · exact hab
      · exact notAfter_trans ha hb (hl1 x hx) hab (hp.1 x hx)
    · rename_i hab
      rw [List.pairwise_cons]
      refine ⟨?_, ih hl1 hp.2⟩
      intro x hx
      rcases (List.mem_orderedInsert notAfter).mp hx with rfl | hx
      · exact (notAfter_total _ _).resolve_left hab
      · exact hp.1 x hx

theorem sortCandidates_perm (l : List Order) : (sortCandidates l).Perm l :=
  List.perm_insertionSort notAfter l

theorem sortCandidates_sorted :
    ∀ l : List Order, (∀ o ∈ l, 0 ≤ o.weight) → (sortCandidates l).Pairwise notAfter := by
  intro l
  induction l with
  | nil => intro _; simp [sortCandidates]
  | cons a l ih =>
    intro hl
    have hl1 : ∀ o ∈ l, 0 ≤ o.weight := fun o ho => hl o (List.mem_cons_of_mem _ ho)
    have h := orderedInsert_sorted a (hl a (List.mem_cons_self _ _)) (sortCandidates l)
      (fun o ho => hl1 o ((sortCandidates_perm l).mem_iff.mp ho)) (ih hl1)
    simpa [sortCandidates] using h

/-! ## The greedy seed -/

theorem zeros_append (l m : List Order) : zeros (l ++ m) = zeros l ++ zeros m := by
  simp [zeros]

theorem zeros_sublist (l : List Order) : (zeros l).Sublist l := List.filter_sublist l

theorem zeros_zeros (l : List Order) : zeros (zeros l) = zeros l := by
  simp [zeros]

theorem zeros_mono {l m : List Order} (h : l.Sublist m) : (zeros l).Sublist (zeros m) :=
  h.filter _

theorem zeros_eq_self {l : List Order} (h : ∀ o ∈ l, o.weight = 0) : zeros l = l := by
  unfold zeros
  rw [List.filter_eq_self]
  intro o ho
  simpa using h o ho

theorem zeros_eq_nil {l : List Order} (h : ∀ o ∈ l, 0 < o.weight) : zeros l = [] := by
  unfold zeros
  rw [List.filter_eq_nil_iff]
  intro o ho
  have := h o ho
  simp only [decide_eq_true_eq]
  omega

theorem greedyLoop_spec :
    ∀ (os : List Order) (remaining value : Int) (selected : List Order),
      ∃ t : List Order, t.Sublist os ∧
        greedyLoop os remaining value selected = (value + sumV t, selected ++ t) ∧
        (0 ≤ remaining → sumW t ≤ remaining) ∧ (zeros os).Sublist t := by
  intro os
  induction os with
  | nil =>
    intro r v sel
    exact ⟨[], List.Sublist.slnil, by simp [greedyLoop, sumV], by simp [sumW],
      by simp [zeros]⟩
  | cons o os ih =>
    intro r v sel
    rw [greedyLoop]
    split
    · rename_i h
      obtain ⟨t, hs, he, hw, hz⟩ := ih r (v + o.value) (sel ++ [o])
      refine ⟨o :: t, hs.cons₂ o, ?_, ?_, ?_⟩
      · rw [he, sumV_cons]; simp [add_assoc]
      · intro hr; rw [sumW_cons]; have := hw hr; omega
      · unfold zeros
        rw [List.filter_cons]
        split
        · exact hz.cons₂ o
        · exact hz.cons o
    · have hne : o.weight ≠ 0 := by omega
      have hzo : zeros (o :: os) = zeros os := by simp [zeros, hne]
      split
      · rename_i h1 h2
        obtain ⟨t, hs, he, hw, hz⟩ := ih (r - o.weight) (v + o.value) (sel ++ [o])
        refine ⟨o :: t, hs.cons₂ o, ?_, ?_, ?_⟩
        · rw [he, sumV_cons]; simp [add_assoc]
        · intro hr; rw [sumW_cons]; have := hw (by omega); omega
        · rw [hzo]; exact hz.cons o
      · obtain ⟨t, hs, he, hw, hz⟩ := ih r v sel
        exact ⟨t, hs.cons o, he, hw, by rw [hzo]; exact hz⟩

theorem greedySeedPlan_spec (os : List Order) (cap : Int) :
    (greedySeedPlan os cap).2.Sublist os ∧
      (greedySeedPlan os cap).1 = sumV (greedySeedPlan os cap).2 ∧
      (0 ≤ cap → sumW (greedySeedPlan os cap).2 ≤ cap) ∧
      (zeros os).Sublist (greedySeedPlan os cap).2 := by
  obtain ⟨t, hs, he, hw, hz⟩ := greedyLoop_spec os cap 0 []
  unfold greedySeedPlan
  rw [he]
  simpa using ⟨hs, hw, hz⟩

/-! ## The fractional bound dominates every completion -/

theorem sumW_nonneg {l : List Order} (h : ∀ o ∈ l, 0 ≤ o.weight) : 0 ≤ sumW l := by
  induction l with
  | nil => simp [sumW]
  | cons a l ih =>
    rw [sumW_cons]
    have h1 := h a (List.mem_cons_self _ _)
    have h2 := ih (fun o ho => h o (List.mem_cons_of_mem _ ho))
    omega

theorem sumV_nonneg {l : List Order} (h : ∀ o ∈ l, 0 ≤ o.value) : 0 ≤ sumV l := by
  induction l with
  | nil => simp [sumV]
  | cons a l ih =>
    rw [sumV_cons]
    have h1 := h a (List.mem_cons_self _ _)
    have h2 := ih (fun o ho => h o (List.mem_cons_of_mem _ ho))
    omega

theorem eq_nil_of_sumW_le_zero {l : List Order} (h : ∀ o ∈ l, 0 < o.weight)
    (hw : sumW l ≤ 0) : l = [] := by
  cases l with
  | nil => rfl
  | cons a l =>
    exfalso
    rw [sumW_cons] at hw
    have h1 := h a (List.mem_cons_self _ _)
    have h2 := sumW_nonneg (l := l) (fun o ho => (h o (List.mem_cons_of_mem _ ho)).le)
    omega

/-- A collection whose items all have density at most `d` has value at most
`d` times its weight. -/
theorem sumV_le_density (d : ℚ) :
    ∀ (l S : List Order), (∀ o ∈ l, (o.value : ℚ) ≤ d * o.weight) → S.Sublist l →
      (sumV S : ℚ) ≤ d * sumW S := by
  intro l S hl hS
  have hall : ∀ o ∈ S, (o.value : ℚ) ≤ d * o.weight := fun o ho => hl o (hS.subset ho)
  clear hS hl
  induction S with
  | nil => simp [sumV, sumW]
  | cons a S ih =>
    rw [sumV_cons, sumW_cons]
    have h1 := hall a (List.mem_cons_self _ _)
    have h2 := ih (fun o ho => hall o (List.mem_cons_of_mem _ ho))
    push_cast
    linarith

/-- The density of the head bounds the density of every later item of a
sorted list of positive weights. -/
theorem density_le_head {o b : Order} (ho : 0 < o.weight) (hb : 0 < b.weight)
    (h : notAfter o b) : (b.value : ℚ) ≤ (o.value : ℚ) / o.weight * b.weight := by
  have h1 := notAfter_density h ho hb
  have hw : (0 : ℚ) < o.weight := by exact_mod_cast ho
  have h2 : (b.value : ℚ) * o.weight ≤ (o.value : ℚ) * b.weight := by exact_mod_cast h1
  rw [div_mul_eq_mul_div, le_div_iff₀ hw]
  exact h2

/-- On positive weights sorted by density: any sub-collection, whatever its
weight, is worth at most the fractional bound plus the overweight priced at a
density `d` that no item exceeds. -/
theorem fracBound_dominates_pos :
    ∀ rest : List Order, (∀ o ∈ rest, 0 < o.weight) → (∀ o ∈ rest, 0 ≤ o.value) →
      rest.Pairwise notAfter →
      ∀ (d : ℚ) (remaining : Int), 0 ≤ d → 0 ≤ remaining →
        (∀ o ∈ rest, (o.value : ℚ) ≤ d * o.weight) →
        ∀ S : List Order, S.Sublist rest →
          (sumV S : ℚ) ≤ fracBound rest remaining + d * max 0 ((sumW S : ℚ) - remaining) := by
  intro rest
  induction rest with
  | nil =>
    intro _ _ _ d r hd _ _ S hS
    rw [List.sublist_nil.mp hS]
    have : (0 : ℚ) ≤ d * max 0 (((sumW [] : Int) : ℚ) - r) := mul_nonneg hd (le_max_left _ _)
    simpa [sumV, fracBound] using this
  | cons o rest ih =>
    intro hw hv hp d r hd hr hden S hS
    have hwo : 0 < o.weight := hw o (List.mem_cons_self _ _)
    have hvo : 0 ≤ o.value := hv o (List.mem_cons_self _ _)
    have hw1 : ∀ b ∈ rest, 0 < b.weight := fun b hb => hw b (List.mem_cons_of_mem _ hb)
    have hv1 : ∀ b ∈ rest, 0 ≤ b.value := fun b hb => hv b (List.mem_cons_of_mem _ hb)
    rw [List.pairwise_cons] at hp
    have hwq : (0 : ℚ) < o.weight := by exact_mod_cast hwo
    have hvq : (0 : ℚ) ≤ o.value := by exact_mod_cast hvo
    have hq0 : (0 : ℚ) ≤ (o.value : ℚ) / o.weight := div_nonneg hvq hwq.le
    have hqw : (o.value : ℚ) / o.weight * o.weight = o.value := div_mul_cancel₀ _ hwq.ne'
    have hqd : (o.value : ℚ) / o.weight ≤ d := by
      rw [div_le_iff₀ hwq]
      exact hden o (List.mem_cons_self _ _)
    have hden1 : ∀ b ∈ rest, (b.value : ℚ) ≤ d * b.weight :=
      fun b hb => hden b (List.mem_cons_of_mem _ hb)
    have hhead : ∀ b ∈ rest, (b.value : ℚ) ≤ (o.value : ℚ) / o.weight * b.weight :=
      fun b hb => density_le_head hwo (hw1 b hb) (hp.1 b hb)
    generalize hq : (o.value : ℚ) / o.weight = q at hq0 hqw hqd hhead
    rw [fracBound, if_neg (by omega)]
    split
    · rename_i hfit
      cases hS with
      | cons _ hS1 =>
        have h := ih hw1 hv1 hp.2 q (r - o.weight) hq0 (by omega) hhead _ hS1
        push_cast at h
        have hm0 : (0 : ℚ) ≤ max 0 ((sumW S : ℚ) - r) := le_max_left _ _
        rcases le_total ((sumW S : ℚ) - (r - o.weight)) 0 with hle | hle
        · rw [max_eq_left hle] at h
          nlinarith [mul_nonneg hd hm0]
        · rw [max_eq_right hle] at h
          rcases le_total ((sumW S : ℚ) - r) 0 with hle2 | hle2
          · rw [max_eq_left hle2]
            nlinarith [mul_nonneg hq0 (neg_nonneg.mpr hle2)]
          · rw [max_eq_right hle2]
            nlinarith [mul_le_mul_of_nonneg_right hqd hle2]
      | cons₂ _ hS1 =>
        rename_i S1
        have h := ih hw1 hv1 hp.2 d (r - o.weight) hd (by omega) hden1 _ hS1
        rw [sumV_cons, sumW_cons]
        push_cast at h ⊢
        have he : (o.weight : ℚ) + sumW S1 - r = sumW S1 - (r - o.weight) := by ring
        rw [he]
        linarith
    · rename_i hfit
      have hall : ∀ b ∈ o :: rest, (b.value : ℚ) ≤ q * b.weight := by
        intro b hb
        rcases List.mem_cons.mp hb with rfl | hb
        · exact hqw.ge
        · exact hhead b hb
      have h := sumV_le_density q (o :: rest) S hall hS
      have hfb : (o.value : ℚ) * r / o.weight = q * r := by
        rw [← hq]; ring
      rw [hfb]
      rcases le_total ((sumW S : ℚ) - r) 0 with hle2 | hle2
      · rw [max_eq_left hle2]
        nlinarith [mul_nonneg hq0 (neg_nonneg.mpr hle2)]
      · rw [max_eq_right hle2]
        nlinarith [mul_le_mul_of_nonneg_right hqd hle2]

/-- On a sorted list of non-negative weights and values the items behind a
positive-weight item have positive weight. -/
theorem pos_of_sorted_cons {o : Order} {rest : List Order}
    (hw : ∀ b ∈ o :: rest, 0 ≤ b.weight) (hp : (o :: rest).Pairwise notAfter)
    (ho : 0 < o.weight) : ∀ b ∈ o :: rest, 0 < b.weight := by
  intro b hb
  rcases List.mem_cons.mp hb with rfl | hb1
  · exact ho
  · exact notAfter_pos_of_pos (hw b hb) ((List.pairwise_cons.mp hp).1 b hb1) ho

/-- The fractional bound in exact arithmetic is at least the value of every
sub-collection of the sorted suffix that fits the remaining capacity. -/
theorem fracBound_dominates :
    ∀ rest : List Order, (∀ o ∈ rest, 0 ≤ o.weight) → (∀ o ∈ rest, 0 ≤ o.value) →
      rest.Pairwise notAfter →
      ∀ (remaining : Int), 0 ≤ remaining →
        ∀ S : List Order, S.Sublist rest → sumW S ≤ remaining →
          (sumV S : ℚ) ≤ fracBound rest remaining := by
  intro rest
  induction rest with
  | nil =>
    intro _ _ _ r _ S hS _
    rw [List.sublist_nil.mp hS]
    simp [sumV, fracBound]
  | cons o rest ih =>
    intro hw hv hp r hr S hS hfit
    have hwo : 0 ≤ o.weight := hw o (List.mem_cons_self _ _)
    have hvo : 0 ≤ o.value := hv o (List.mem_cons_self _ _)
    rcases hwo.lt_or_eq with hpos | hzero
    · have hallpos := pos_of_sorted_cons hw hp hpos
      have hwq : (0 : ℚ) < o.weight := by exact_mod_cast hpos
      have hvq : (0 : ℚ) ≤ o.value := by exact_mod_cast hvo
      have hden : ∀ b ∈ o :: rest, (b.value : ℚ) ≤ (o.value : ℚ) / o.weight * b.weight := by
        intro b hb
        rcases List.mem_cons.mp hb with rfl | hb1
        · exact (div_mul_cancel₀ _ hwq.ne').ge
        · exact density_le_head hpos (hallpos b hb) ((List.pairwise_cons.mp hp).1 b hb1)
      have h := fracBound_dominates_pos (o :: rest) hallpos hv hp _ r
        (div_nonneg hvq hwq.le) hr hden S hS
      have hle : (sumW S : ℚ) - r ≤ 0 := by
        have : (sumW S : ℚ) ≤ r := by exact_mod_cast hfit
        linarith
      rw [max_eq_left hle] at h
      simpa using h
    · have hw1 : ∀ b ∈ rest, 0 ≤ b.weight := fun b hb => hw b (List.mem_cons_of_mem _ hb)
      have hv1 : ∀ b ∈ rest, 0 ≤ b.value := fun b hb => hv b (List.mem_cons_of_mem _ hb)
      have hp1 := (List.pairwise_cons.mp hp).2
      have hvq : (0 : ℚ) ≤ o.value := by exact_mod_cast hvo
      rw [fracBound, if_pos (by omega)]
      cases hS with
      | cons _ hS1 =>
        have h := ih hw1 hv1 hp1 r hr _ hS1 hfit
        linarith
      | cons₂ _ hS1 =>
        rename_i S1
        rw [sumW_cons] at hfit
        have h := ih hw1 hv1 hp1 r hr _ hS1 (by omega)
        rw [sumV_cons]
        push_cast
        linarith

/-- The loop of `fractionalBound`, run with a rounding that is monotone and
exact on integers and started from an integer, never falls below an integer
that the exact relaxation reaches. -/
theorem boundLoop_ge {rnd : ℚ → ℚ} (hr : Rounding rnd) :
    ∀ (rest : List Order) (remaining I K : Int), 0 ≤ remaining →
      (K : ℚ) ≤ I + fracBound rest remaining →
      (K : ℚ) ≤ boundLoop rnd rest remaining (I : ℚ) := by
  intro rest
  induction rest with
  | nil =>
    intro r I K _ h
    simpa [boundLoop, fracBound] using h
  | cons o rest ih =>
    intro r I K hrem h
    rw [boundLoop, if_pos hrem]
    rw [fracBound] at h
    have hacc : rnd ((I : ℚ) + rnd (o.value : ℚ)) = ((I + o.value : Int) : ℚ) := by
      rw [hr.exact, ← Int.cast_add, hr.exact]
    split
    · rename_i h0
      rw [if_pos h0] at h
      rw [hacc]
      apply ih r _ K hrem
      push_cast
      linarith
    · rename_i h0
      rw [if_neg h0] at h
      split
      · rename_i h1
        rw [if_pos h1] at h
        rw [hacc]
        apply ih (r - o.weight) _ K (by omega)
        push_cast
        linarith
      · rename_i h1
        rw [if_neg h1] at h
        have hprod : rnd (rnd (o.value : ℚ) * rnd (r : ℚ)) = (o.value : ℚ) * r := by
          rw [hr.exact, hr.exact, ← Int.cast_mul, hr.exact]
        rw [hprod, hr.exact o.weight]
        have h2 : ((K - I : Int) : ℚ) ≤ (o.value : ℚ) * r / o.weight := by
          push_cast; linarith
        have h3 := hr.mono _ _ h2
        rw [hr.exact] at h3
        have h4 : ((K : Int) : ℚ) ≤ (I : ℚ) + rnd ((o.value : ℚ) * r / o.weight) := by
          push_cast at h3; linarith
        have h5 := hr.mono _ _ h4
        rwa [hr.exact] at h5

/-- The closure `fractionalBound` is admissible at every node the search can
reach: it is at least the value of every completion that fits. -/
theorem fractionalBound_ge {rnd : ℚ → ℚ} (hr : Rounding rnd) {cap cw : Int}
    {rest S : List Order} (hcap : 0 < cap)
    (hw : ∀ o ∈ rest, 0 ≤ o.weight) (hv : ∀ o ∈ rest, 0 ≤ o.value)
    (hp : rest.Pairwise notAfter) (hz : 0 < cw → ∀ o ∈ rest, 0 < o.weight)
    (hS : S.Sublist rest) (hfit : cw + sumW S ≤ cap) :
    (sumV S : ℚ) ≤ fractionalBound rnd cap rest cw := by
  unfold fractionalBound
  split
  · rename_i hge
    have hpos := hz (by omega)
    have hnil : S = [] :=
      eq_nil_of_sumW_le_zero (fun o ho => hpos o (hS.subset ho)) (by omega)
    simp [hnil, sumV]
  · rename_i hlt
    have h := fracBound_dominates rest hw hv hp (cap - cw) (by omega) S hS (by omega)
    have h2 := boundLoop_ge hr rest (cap - cw) 0 (sumV S) (by omega) (by simpa using h)
    simpa using h2

/-! ## The branch-and-bound search -/

theorem record_bestValue_ge (cv : Int) (cs : List Order) (s : Search) :
    s.bestValue ≤ (record cv cs s).bestValue ∧ cv ≤ (record cv cs s).bestValue := by
  unfold record
  split
  · constructor
    · simp only; omega
    · exact le_refl _
  · constructor
    · exact le_refl _
    · omega

/-- The recorded best value never decreases. -/
theorem dfs_bestValue_mono (rnd : ℚ → ℚ) (ctx : Context) (cap : Int) :
    ∀ (rest : List Order) (cw cv : Int) (cs : List Order) (s : Search),
      s.bestValue ≤ (dfs rnd ctx cap rest cw cv cs s).2.bestValue := by
  intro rest
  induction rest with
  | nil =>
    intro cw cv cs s
    rw [dfs_nil]
    split_ifs
    · exact le_refl _
    · exact le_refl _
    · exact le_refl _
    · exact (record_bestValue_ge cv cs _).1
  | cons o rest ih =>
    intro cw cv cs s
    rw [dfs_cons]
    have h1 := (record_bestValue_ge cv cs { s with steps := s.steps + 1 }).1
    have h2 := ih (cw + o.weight) (cv + o.value) (cs ++ [o])
      (record cv cs { s with steps := s.steps + 1 })
    split_ifs
    · exact le_refl _
    · exact le_refl _
    · exact le_refl _
    · exact h1.trans h2
    · exact (h1.trans h2).trans (ih cw cv cs _)

/-- A node is pruned only when no completion that fits beats the recorded
best value. -/
theorem prune_sound {rnd : ℚ → ℚ} (hr : Rounding rnd) {cap cw cv best : Int}
    {rest S : List Order} (hcap : 0 < cap)
    (hw : ∀ o ∈ rest, 0 ≤ o.weight) (hv : ∀ o ∈ rest, 0 ≤ o.value)
    (hp : rest.Pairwise notAfter) (hz : 0 < cw → ∀ o ∈ rest, 0 < o.weight)
    (hprune : rnd (rnd (cv : ℚ) + fractionalBound rnd cap rest cw) ≤ rnd (best : ℚ))
    (hS : S.Sublist rest) (hfit : cw + sumW S ≤ cap) : cv + sumV S ≤ best := by
  have h1 := fractionalBound_ge hr hcap hw hv hp hz hS hfit
  have h2 : ((cv + sumV S : Int) : ℚ) ≤ rnd (cv : ℚ) + fractionalBound rnd cap rest cw := by
    rw [hr.exact]; push_cast; linarith
  have h3 := hr.mono _ _ h2
  rw [hr.exact] at h3
  rw [hr.exact best] at hprune
  exact_mod_cast h3.trans hprune

/-- When the search returns without cancellation, the recorded best value is
at least the value of the node plus any completion from the remaining
candidates that fits the capacity. -/
theorem dfs_complete {rnd : ℚ → ℚ} (hr : Rounding rnd) (ctx : Context) {cap : Int}
    (hcap : 0 < cap) :
    ∀ (rest : List Order) (cw cv : Int) (cs : List Order) (s : Search),
      (∀ o ∈ rest, 0 ≤ o.weight) → (∀ o ∈ rest, 0 ≤ o.value) → rest.Pairwise notAfter →
      (0 < cw → ∀ o ∈ rest, 0 < o.weight) →
      (dfs rnd ctx cap rest cw cv cs s).1 = false →
      ∀ S : List Order, S.Sublist rest → cw + sumW S ≤ cap →
        cv + sumV S ≤ (dfs rnd ctx cap rest cw cv cs s).2.bestValue := by
  intro rest
  induction rest with
  | nil =>
    intro cw cv cs s hw hv hp hz hnc S hS hfit
    rw [dfs_nil] at hnc ⊢
    have hS0 : S = [] := List.sublist_nil.mp hS
    subst hS0
    split_ifs at hnc ⊢ with h1 h2 h3
    · simp [sumW] at hfit; omega
    · exact prune_sound hr hcap hw hv hp hz h3 hS hfit
    · have := (record_bestValue_ge cv cs { s with steps := s.steps + 1 }).2
      simpa [sumV] using this
  | cons o rest ih =>
    intro cw cv cs s hw hv hp hz hnc S hS hfit
    have hw1 : ∀ b ∈ rest, 0 ≤ b.weight := fun b hb => hw b (List.mem_cons_of_mem _ hb)
    have hv1 : ∀ b ∈ rest, 0 ≤ b.value := fun b hb => hv b (List.mem_cons_of_mem _ hb)
    have hp1 := (List.pairwise_cons.mp hp).2
    have hwo : 0 ≤ o.weight := hw o (List.mem_cons_self _ _)
    rw [dfs_cons] at hnc ⊢
    split_ifs at hnc ⊢ with h1 h2 h3 h4
    · have hS1 : 0 ≤ sumW S := sumW_nonneg (fun b hb => hw b (hS.subset hb))
      omega
    · exact prune_sound hr hcap hw hv hp hz h3 hS hfit
    · have hzin : 0 < cw + o.weight → ∀ b ∈ rest, 0 < b.weight := by
        intro hpos b hb
        rcases hwo.lt_or_eq with hpo | hzo
        · exact pos_of_sorted_cons hw hp hpo b (List.mem_cons_of_mem _ hb)
        · exact hz (by omega) b (List.mem_cons_of_mem _ hb)
      have hzex : 0 < cw → ∀ b ∈ rest, 0 < b.weight :=
        fun hpos b hb => hz hpos b (List.mem_cons_of_mem _ hb)
      have hin := ih (cw + o.weight) (cv + o.value) (cs ++ [o])
        (record cv cs { s with steps := s.steps + 1 }) hw1 hv1 hp1 hzin
        (by simpa using h4)
      have hex := ih cw cv cs _ hw1 hv1 hp1 hzex hnc
      cases hS with
      | cons _ hS1 => exact hex _ hS1 hfit
      | cons₂ _ hS1 =>
        rename_i S1
        rw [sumW_cons] at hfit
        rw [sumV_cons]
        have h5 := hin S1 hS1 (by omega)
        have h6 := dfs_bestValue_mono rnd ctx cap rest cw cv cs
          (dfs rnd ctx cap rest (cw + o.weight) (cv + o.value) (cs ++ [o])
            (record cv cs { s with steps := s.steps + 1 })).2
        omega

/-- A search that is not cancelled does not depend on the deadline signal. -/
theorem dfs_ctx_irrelevant (rnd : ℚ → ℚ) (ctx1 ctx2 : Context) (cap : Int) :
    ∀ (rest : List Order) (cw cv : Int) (cs : List Order) (s : Search),
      (dfs rnd ctx1 cap rest cw cv cs s).1 = false →
      (dfs rnd ctx2 cap rest cw cv cs s).1 = false →
      dfs rnd ctx1 cap rest cw cv cs s = dfs rnd ctx2 cap rest cw cv cs s := by
  intro rest
  induction rest with
  | nil =>
    intro cw cv cs s h1 h2
    rw [dfs_nil] at h1 h2 ⊢
    rw [dfs_nil]
    split_ifs at h1 h2 ⊢ <;> rfl
  | cons o rest ih =>
    intro cw cv cs s h1 h2
    rw [dfs_cons] at h1 h2 ⊢
    rw [dfs_cons]
    by_cases hcw : cw > cap
    · simp [hcw]
    · simp only [hcw, if_false] at h1 h2 ⊢
      by_cases hc1 : checkEvery > 0 ∧ (s.steps + 1) % checkEvery = 0 ∧
          ctx1.done (s.steps + 1) = true
      · simp [hc1] at h1
      · by_cases hc2 : checkEvery > 0 ∧ (s.steps + 1) % checkEvery = 0 ∧
            ctx2.done (s.steps + 1) = true
        · simp [hc2] at h2
        · simp only [hc1, hc2, if_false] at h1 h2 ⊢
          by_cases hpr : rnd (rnd (cv : ℚ) + fractionalBound rnd cap (o :: rest) cw)
              ≤ rnd (s.bestValue : ℚ)
          · simp [hpr]
          · simp only [hpr, if_false] at h1 h2 ⊢
            by_cases hi1 : (dfs rnd ctx1 cap rest (cw + o.weight) (cv + o.value) (cs ++ [o])
                (record cv cs { s with steps := s.steps + 1 })).1 = true
            · simp [hi1] at h1
            · by_cases hi2 : (dfs rnd ctx2 cap rest (cw + o.weight) (cv + o.value)
                  (cs ++ [o]) (record cv cs { s with steps := s.steps + 1 })).1 = true
              · simp [hi2] at h2
              · have e := ih (cw + o.weight) (cv + o.value) (cs ++ [o])
                  (record cv cs { s with steps := s.steps + 1 })
                  (by simpa using hi1) (by simpa using hi2)
                simp only [hi1, hi2, if_false] at h1 h2 ⊢
                rw [e] at h1 ⊢
                exact ih cw cv cs _ h1 h2

/-! ## The planner as a whole -/

theorem select_eq (rnd : ℚ → ℚ) (ctx : Context) (orders : List Order) (rid : String)
    (cap : Int) :
    selectOrdersForDelivery rnd ctx orders rid cap =
      if cap ≤ 0 ∨ orders.length = 0 then
        ({ robotID := rid, totalWeight := 0, totalValue := 0, orders := [] }, none)
      else if (dfs rnd ctx cap (sortCandidates orders) 0 0 []
          (seedState (sortCandidates orders) cap)).1 = true then
        (emptyPlan, some ctx.err)
      else
        ({ robotID := rid
           totalWeight := sumW (dfs rnd ctx cap (sortCandidates orders) 0 0 []
             (seedState (sortCandidates orders) cap)).2.bestSet
           totalValue := (dfs rnd ctx cap (sortCandidates orders) 0 0 []
             (seedState (sortCandidates orders) cap)).2.bestValue
           orders := (dfs rnd ctx cap (sortCandidates orders) 0 0 []
             (seedState (sortCandidates orders) cap)).2.bestSet }, none) := by
  have hfold : ∀ (l : List Order) (a : Int),
      l.foldl (fun acc o => acc + o.weight) a = a + sumW l := by
    intro l
    induction l with
    | nil => intro a; simp [sumW]
    | cons b l ih => intro a; rw [List.foldl_cons, ih, sumW_cons]; ring
  unfold selectOrdersForDelivery
  simp only [hfold, zero_add]
  rfl

theorem seedState_good (candidates : List Order) {cap : Int} (hcap : 0 ≤ cap) :
    Good cap candidates (seedState candidates cap) := by
  obtain ⟨h1, h2, h3, _⟩ := greedySeedPlan_spec candidates cap
  unfold seedState
  split
  · exact ⟨h2, h3 hcap, h1⟩
  · exact ⟨by simp [sumV], by simpa [sumW] using hcap, List.nil_sublist _⟩

/-- The state in which a search started by the planner ends is `Good`. -/
theorem search_good (rnd : ℚ → ℚ) (ctx : Context) (orders : List Order) {cap : Int}
    (hcap : 0 ≤ cap) :
    Good cap (sortCandidates orders) (dfs rnd ctx cap (sortCandidates orders) 0 0 []
      (seedState (sortCandidates orders) cap)).2 :=
  dfs_good rnd ctx cap (sortCandidates orders) (sortCandidates orders) 0 0 []
    (seedState (sortCandidates orders) cap) (seedState_good _ hcap) (by simp)
    (by simp [sumW]) (by simp [sumV])

theorem foldr_max_ge (L : List Int) : ∀ x ∈ L, x ≤ L.foldr max 0 := by
  induction L with
  | nil => intro x hx; simp at hx
  | cons a L ih =>
    intro x hx
    rw [List.foldr_cons]
    rcases List.mem_cons.mp hx with rfl | hx
    · exact le_max_left _ _
    · exact (ih x hx).trans (le_max_right _ _)

theorem foldr_max_le (L : List Int) (v : Int) (h0 : 0 ≤ v) (h : ∀ x ∈ L, x ≤ v) :
    L.foldr max 0 ≤ v := by
  induction L with
  | nil => simpa using h0
  | cons a L ih =>
    rw [List.foldr_cons]
    exact max_le (h a (List.mem_cons_self _ _))
      (ih (fun x hx => h x (List.mem_cons_of_mem _ hx)))

theorem knapsackOptimum_ge {orders S : List Order} {cap : Int} (hS : S.Sublist orders)
    (hfit : sumW S ≤ cap) : sumV S ≤ knapsackOptimum orders cap := by
  apply foldr_max_ge
  apply List.mem_map_of_mem
  rw [List.mem_filter]
  exact ⟨(List.mem_sublists).mpr hS, by simpa using hfit⟩

theorem knapsackOptimum_le {orders : List Order} {cap v : Int} (h0 : 0 ≤ v)
    (h : ∀ S : List Order, S.Sublist orders → sumW S ≤ cap → sumV S ≤ v) :
    knapsackOptimum orders cap ≤ v := by
  apply foldr_max_le _ _ h0
  intro x hx
  obtain ⟨S, hS, rfl⟩ := List.mem_map.mp hx
  rw [List.mem_filter] at hS
  exact h S ((List.mem_sublists).mp hS.1) (by simpa using hS.2)

/-- A completed search started by the planner has recorded a value that no
sub-collection of the input fitting the capacity exceeds. -/
theorem search_optimal {rnd : ℚ → ℚ} (hr : Rounding rnd) (ctx : Context)
    {orders : List Order} {cap : Int} (hcap : 0 < cap)
    (hw : ∀ o ∈ orders, 0 ≤ o.weight) (hv : ∀ o ∈ orders, 0 ≤ o.value)
    (hnc : (dfs rnd ctx cap (sortCandidates orders) 0 0 []
      (seedState (sortCandidates orders) cap)).1 = false)
    {S : List Order} (hS : S.Sublist orders) (hfit : sumW S ≤ cap) :
    sumV S ≤ (dfs rnd ctx cap (sortCandidates orders) 0 0 []
      (seedState (sortCandidates orders) cap)).2.bestValue := by
  have hperm := sortCandidates_perm orders
  obtain ⟨S1, hS1p, hS1s⟩ := List.exists_perm_sublist hS hperm.symm
  have hw1 : ∀ o ∈ sortCandidates orders, 0 ≤ o.weight :=
    fun o ho => hw o (hperm.mem_iff.mp ho)
  have hv1 : ∀ o ∈ sortCandidates orders, 0 ≤ o.value :=
    fun o ho => hv o (hperm.mem_iff.mp ho)
  have h := dfs_complete hr ctx hcap (sortCandidates orders) 0 0 []
    (seedState (sortCandidates orders) cap) hw1 hv1 (sortCandidates_sorted orders hw)
    (fun h0 => absurd h0 (lt_irrefl 0)) hnc S1 hS1s
    (by rw [sumW_perm hS1p]; omega)
  rw [sumV_perm hS1p] at h
  omega

/-! ## Zero-weight orders -/

theorem sumV_sublist_le {S l : List Order} (hv : ∀ o ∈ l, 0 ≤ o.value) (hS : S.Sublist l) :
    sumV S ≤ sumV l := by
  induction hS with
  | slnil => exact le_refl _
  | cons a _ ih =>
    rw [sumV_cons]
    have h1 := hv a (List.mem_cons_self _ _)
    have h2 := ih (fun o ho => hv o (List.mem_cons_of_mem _ ho))
    omega
  | cons₂ a _ ih =>
    rw [sumV_cons, sumV_cons]
    have h2 := ih (fun o ho => hv o (List.mem_cons_of_mem _ ho))
    omega

/-- A search from a node none of whose completions beats the recorded best
value leaves the recorded value and set as they are. -/
theorem dfs_no_update (rnd : ℚ → ℚ) (ctx : Context) (cap : Int) :
    ∀ (rest : List Order) (cw cv : Int) (cs : List Order) (s : Search),
      (∀ S : List Order, S.Sublist rest → cw + sumW S ≤ cap → cv + sumV S ≤ s.bestValue) →
      (dfs rnd ctx cap rest cw cv cs s).2.bestValue = s.bestValue ∧
        (dfs rnd ctx cap rest cw cv cs s).2.bestSet = s.bestSet := by
  intro rest
  induction rest with
  | nil =>
    intro cw cv cs s h
    rw [dfs_nil]
    split_ifs with h1 h2 h3
    · exact ⟨rfl, rfl⟩
    · exact ⟨rfl, rfl⟩
    · exact ⟨rfl, rfl⟩
    · have h0 := h [] (List.Sublist.refl _) (by simp [sumW]; omega)
      have hno : ¬ cv > s.bestValue := by simp [sumV] at h0; omega
      simp [record, hno]
  | cons o rest ih =>
    intro cw cv cs s h
    rw [dfs_cons]
    split_ifs with h1 h2 h3 h4
    · exact ⟨rfl, rfl⟩
    · exact ⟨rfl, rfl⟩
    · exact ⟨rfl, rfl⟩
    all_goals
      have h0 := h [] (List.nil_sublist _) (by simp [sumW]; omega)
      have hno : ¬ cv > s.bestValue := by simp [sumV] at h0; omega
      have hrec : record cv cs { s with steps := s.steps + 1 } =
          { s with steps := s.steps + 1 } := by simp [record, hno]
      rw [hrec]
      have hin := ih (cw + o.weight) (cv + o.value) (cs ++ [o]) { s with steps := s.steps + 1 }
        (by
          intro S hS hfit
          have := h (o :: S) (hS.cons₂ o) (by rw [sumW_cons]; omega)
          rw [sumV_cons] at this
          simp only; omega)
    · exact hin
    · have hex := ih cw cv cs (dfs rnd ctx cap rest (cw + o.weight) (cv + o.value) (cs ++ [o])
          { s with steps := s.steps + 1 }).2
        (by
          intro S hS hfit
          rw [hin.1]
          exact h S (hS.cons o) hfit)
      exact ⟨hex.1.trans hin.1, hex.2.trans hin.2⟩

theorem sumW_eq_zero {l : List Order} (h : ∀ o ∈ l, o.weight = 0) : sumW l = 0 := by
  induction l with
  | nil => rfl
  | cons a l ih =>
    rw [sumW_cons, h a (List.mem_cons_self _ _),
      ih (fun o ho => h o (List.mem_cons_of_mem _ ho))]
    rfl

/-- In a sorted list the orders before a zero-weight order have weight zero. -/
theorem zero_before_zero {cs rest : List Order} (hw : ∀ o ∈ cs, 0 ≤ o.weight)
    (hwr : ∀ o ∈ rest, 0 ≤ o.weight)
    (hp : (cs ++ rest).Pairwise notAfter) {b : Order} (hb : b ∈ rest) (hb0 : b.weight = 0) :
    ∀ a ∈ cs, a.weight = 0 := by
  intro a ha
  have hab := (List.pairwise_append.mp hp).2.2 a ha b hb
  rcases (hw a ha).lt_or_eq with hpos | hzero
  · have := notAfter_pos_of_pos (hwr b hb) hab hpos
    omega
  · exact hzero.symm

/-- Recording a node keeps every zero-weight candidate in the recorded set. -/
theorem keepsZeros_record {all cs rest : List Order} {cv : Int} {s : Search} (n : Nat)
    (hw : ∀ o ∈ all, 0 ≤ o.weight) (hv : ∀ o ∈ all, 0 ≤ o.value)
    (hsorted : all.Pairwise notAfter) (hsub : (cs ++ rest).Sublist all)
    (hz3 : (zeros all).Sublist (cs ++ rest)) (hcv : cv = sumV cs)
    (hs : KeepsZeros all s) : KeepsZeros all (record cv cs { s with steps := n }) := by
  unfold record
  split
  · rename_i hgt
    simp only at hgt
    have hcs : ∀ o ∈ cs, 0 ≤ o.weight :=
      fun o ho => hw o (hsub.subset (List.mem_append_left _ ho))
    have hrest : ∀ o ∈ rest, 0 ≤ o.weight :=
      fun o ho => hw o (hsub.subset (List.mem_append_right _ ho))
    by_cases hex : ∃ b ∈ rest, b.weight = 0
    · exfalso
      obtain ⟨b, hb, hb0⟩ := hex
      have hall0 := zero_before_zero hcs hrest (hsorted.sublist hsub) hb hb0
      have h1 : cs.Sublist (zeros all) := by
        have := zeros_mono ((List.sublist_append_left cs rest).trans hsub)
        rwa [zeros_eq_self hall0] at this
      have h2 := sumV_sublist_le (fun o ho => hv o ((zeros_sublist all).subset ho)) h1
      have h3 := hs.2
      omega
    · have hpos : ∀ b ∈ rest, 0 < b.weight := by
        intro b hb
        have h1 := hrest b hb
        have h2 : b.weight ≠ 0 := fun h0 => hex ⟨b, hb, h0⟩
        omega
      refine ⟨?_, ?_⟩
      · have := zeros_mono hz3
        rw [zeros_zeros, zeros_append, zeros_eq_nil hpos, List.append_nil] at this
        exact this.trans (zeros_sublist cs)
      · have h3 := hs.2
        simp only
        omega
  · exact hs

/-- A completed search keeps every zero-weight candidate in the recorded set,
when it starts from a state that holds them and from a node whose current set
has taken every zero-weight candidate passed so far. -/
theorem dfs_keeps_zeros {rnd : ℚ → ℚ} (hr : Rounding rnd) (ctx : Context) {cap : Int}
    (hcap : 0 < cap) {all : List Order}
    (hw : ∀ o ∈ all, 0 ≤ o.weight) (hv : ∀ o ∈ all, 0 ≤ o.value)
    (hsorted : all.Pairwise notAfter) :
    ∀ (rest : List Order) (cw cv : Int) (cs : List Order) (s : Search),
      (cs ++ rest).Sublist all → (zeros all).Sublist (cs ++ rest) →
      cw = sumW cs → cv = sumV cs → KeepsZeros all s →
      (dfs rnd ctx cap rest cw cv cs s).1 = false →
      KeepsZeros all (dfs rnd ctx cap rest cw cv cs s).2 := by
  intro rest
  induction rest with
  | nil =>
    intro cw cv cs s hsub hz3 hcw hcv hs hnc
    rw [dfs_nil]
    split_ifs
    · exact hs
    · exact hs
    · exact hs
    · exact keepsZeros_record _ hw hv hsorted hsub hz3 hcv hs
  | cons o rest ih =>
    intro cw cv cs s hsub hz3 hcw hcv hs hnc
    rw [dfs_cons] at hnc ⊢
    split_ifs at hnc ⊢ with h1 h2 h3 h4
    · exact hs
    · exact hs
    · have hrec := keepsZeros_record (s.steps + 1) hw hv hsorted hsub hz3 hcv hs
      have hsub2 : (cs ++ [o] ++ rest).Sublist all := by simpa using hsub
      have hz32 : (zeros all).Sublist (cs ++ [o] ++ rest) := by simpa using hz3
      have hin := ih (cw + o.weight) (cv + o.value) (cs ++ [o]) _ hsub2 hz32
        (by rw [sumW_append, hcw]; simp [sumW]) (by rw [sumV_append, hcv]; simp [sumV])
        hrec (by simpa using h4)
      have hpw := hsorted.sublist hsub
      have hcsw : ∀ a ∈ cs, 0 ≤ a.weight :=
        fun a ha => hw a (hsub.subset (List.mem_append_left _ ha))
      have horw : ∀ b ∈ o :: rest, 0 ≤ b.weight :=
        fun b hb => hw b (hsub.subset (List.mem_append_right _ hb))
      have horv : ∀ b ∈ o :: rest, 0 ≤ b.value :=
        fun b hb => hv b (hsub.subset (List.mem_append_right _ hb))
      have hwo := horw o (List.mem_cons_self _ _)
      have hvo := horv o (List.mem_cons_self _ _)
      have hpor : (o :: rest).Pairwise notAfter := (List.pairwise_append.mp hpw).2.1
      rcases hwo.lt_or_eq with hpos | hzero
      · have hsub3 : (cs ++ rest).Sublist all :=
          (List.Sublist.append_left (List.sublist_cons_self o rest) cs).trans hsub
        have hz33 : (zeros all).Sublist (cs ++ rest) := by
          have := zeros_mono hz3
          have ho : zeros (o :: rest) = zeros rest := by
            have : o.weight ≠ 0 := by omega
            simp [zeros, this]
          rw [zeros_zeros, zeros_append, ho, ← zeros_append] at this
          exact this.trans (zeros_sublist _)
        exact ih cw cv cs _ hsub3 hz33 hcw hcv hin hnc
      · have hcs0 : ∀ a ∈ cs, a.weight = 0 :=
          zero_before_zero hcsw horw hpw (List.mem_cons_self _ _) hzero.symm
        have hcw0 : cw = 0 := by rw [hcw]; exact sumW_eq_zero hcs0
        have hcomp := dfs_complete hr ctx hcap rest (cw + o.weight) (cv + o.value)
          (cs ++ [o]) (record cv cs { s with steps := s.steps + 1 })
          (fun b hb => horw b (List.mem_cons_of_mem _ hb))
          (fun b hb => horv b (List.mem_cons_of_mem _ hb))
          (List.pairwise_cons.mp hpor).2 (fun h0 => by omega) (by simpa using h4)
        have hno := dfs_no_update rnd ctx cap rest cw cv cs
          (dfs rnd ctx cap rest (cw + o.weight) (cv + o.value) (cs ++ [o])
            (record cv cs { s with steps := s.steps + 1 })).2
          (by
            intro S hS hfit
            have := hcomp S hS (by omega)
            omega)
        unfold KeepsZeros
        rw [hno.1, hno.2]
        exact hin

/-- The greedy walk over sorted candidates gains value as soon as some
candidate of positive value fits the capacity it starts with. -/
theorem greedyLoop_pos :
    ∀ (os : List Order) (remaining value : Int) (selected : List Order),
      (∀ o ∈ os, 0 ≤ o.weight) → (∀ o ∈ os, 0 ≤ o.value) → os.Pairwise notAfter →
      (∃ x ∈ os, x.weight ≤ remaining ∧ 0 < x.value) →
      value < (greedyLoop os remaining value selected).1 := by
  intro os
  induction os with
  | nil => intro r v sel _ _ _ hx; obtain ⟨x, hx, _⟩ := hx; simp at hx
  | cons o os ih =>
    intro r v sel hw hv hp hx
    have hw1 : ∀ b ∈ os, 0 ≤ b.weight := fun b hb => hw b (List.mem_cons_of_mem _ hb)
    have hv1 : ∀ b ∈ os, 0 ≤ b.value := fun b hb => hv b (List.mem_cons_of_mem _ hb)
    have hvo := hv o (List.mem_cons_self _ _)
    have hwo := hw o (List.mem_cons_self _ _)
    have hp1 := List.pairwise_cons.mp hp
    have hge : ∀ (r1 v1 : Int) (sel1 : List Order), v1 ≤ (greedyLoop os r1 v1 sel1).1 := by
      intro r1 v1 sel1
      obtain ⟨t, hs, he, _, _⟩ := greedyLoop_spec os r1 v1 sel1
      rw [he]
      have := sumV_nonneg (l := t) (fun b hb => hv1 b (hs.subset hb))
      simp only; omega
    obtain ⟨x, hxm, hxw, hxv⟩ := hx
    rw [greedyLoop]
    split
    · rcases List.mem_cons.mp hxm with rfl | hxm
      · have := hge r (v + x.value) (sel ++ [x]); omega
      · have := ih r (v + o.value) (sel ++ [o]) hw1 hv1 hp1.2 ⟨x, hxm, hxw, hxv⟩
        omega
    · rename_i hpos
      split
      · rcases List.mem_cons.mp hxm with rfl | hxm
        · have := hge (r - x.weight) (v + x.value) (sel ++ [x]); omega
        · have hxpos : 0 < x.weight :=
            notAfter_pos_of_pos (hw1 x hxm) (hp1.1 x hxm) (by omega)
          have hden := notAfter_density (hp1.1 x hxm) (by omega) hxpos
          have hov : 0 < o.value := by
            by_contra hcon
            have h0 : o.value = 0 := by omega
            rw [h0, zero_mul] at hden
            have : 0 < x.value * o.weight := mul_pos hxv (by omega)
            omega
          have := hge (r - o.weight) (v + o.value) (sel ++ [o]); omega
      · rename_i hnofit
        rcases List.mem_cons.mp hxm with rfl | hxm
        · omega
        · exact ih r v sel hw1 hv1 hp1.2 ⟨x, hxm, hxw, hxv⟩

theorem weight_le_sumW {l : List Order} (h : ∀ o ∈ l, 0 ≤ o.weight) :
    ∀ o ∈ l, o.weight ≤ sumW l := by
  induction l with
  | nil => intro o ho; simp at ho
  | cons a l ih =>
    intro o ho
    rw [sumW_cons]
    have h1 := h a (List.mem_cons_self _ _)
    have h2 := sumW_nonneg (l := l) (fun b hb => h b (List.mem_cons_of_mem _ hb))
    rcases List.mem_cons.mp ho with rfl | ho
    · omega
    · have := ih (fun b hb => h b (List.mem_cons_of_mem _ hb)) o ho
      omega

theorem sumV_nonpos {l : List Order} (h : ∀ o ∈ l, o.value ≤ 0) : sumV l ≤ 0 := by
  induction l with
  | nil => simp [sumV]
  | cons a l ih =>
    rw [sumV_cons]
    have h1 := h a (List.mem_cons_self _ _)
    have h2 := ih (fun o ho => h o (List.mem_cons_of_mem _ ho))
    omega

/-- A completed search of the planner that ends with a positive value has
recorded a set that contains every zero-weight candidate. -/
theorem search_keeps_zeros {rnd : ℚ → ℚ} (hr : Rounding rnd) (ctx : Context)
    {orders : List Order} {cap : Int} (hcap : 0 < cap)
    (hw : ∀ o ∈ orders, 0 ≤ o.weight) (hv : ∀ o ∈ orders, 0 ≤ o.value)
    (hnc : (dfs rnd ctx cap (sortCandidates orders) 0 0 []
      (seedState (sortCandidates orders) cap)).1 = false)
    (hpos : 0 < (dfs rnd ctx cap (sortCandidates orders) 0 0 []
      (seedState (sortCandidates orders) cap)).2.bestValue) :
    (zeros (sortCandidates orders)).Sublist (dfs rnd ctx cap (sortCandidates orders) 0 0 []
      (seedState (sortCandidates orders) cap)).2.bestSet := by
  have hperm := sortCandidates_perm orders
  have hw1 : ∀ o ∈ sortCandidates orders, 0 ≤ o.weight :=
    fun o ho => hw o (hperm.mem_iff.mp ho)
  have hv1 : ∀ o ∈ sortCandidates orders, 0 ≤ o.value :=
    fun o ho => hv o (hperm.mem_iff.mp ho)
  have hsorted := sortCandidates_sorted orders hw
  obtain ⟨g1, g2, g3, g4⟩ := greedySeedPlan_spec (sortCandidates orders) cap
  by_cases hseed : (greedySeedPlan (sortCandidates orders) cap).1 > 0
  · have hs0 : KeepsZeros (sortCandidates orders) (seedState (sortCandidates orders) cap) := by
      unfold seedState
      rw [if_pos hseed]
      refine ⟨g4, ?_⟩
      rw [g2]
      exact sumV_sublist_le (fun o ho => hv1 o (g1.subset ho)) g4
    exact (dfs_keeps_zeros hr ctx hcap hw1 hv1 hsorted (sortCandidates orders) 0 0 []
      (seedState (sortCandidates orders) cap) (by simp) (by simpa using zeros_sublist _)
      (by simp [sumW]) (by simp [sumV]) hs0 hnc).1
  · exfalso
    obtain ⟨k1, k2, k3⟩ := search_good rnd ctx orders hcap.le
    have hle : ∀ o ∈ (dfs rnd ctx cap (sortCandidates orders) 0 0 []
        (seedState (sortCandidates orders) cap)).2.bestSet, o.value ≤ 0 := by
      intro o ho
      by_contra hcon
      have ho1 := weight_le_sumW (fun b hb => hw1 b (k3.subset hb)) o ho
      have := greedyLoop_pos (sortCandidates orders) cap 0 [] hw1 hv1 hsorted
        ⟨o, k3.subset ho, by omega, by omega⟩
      exact hseed this
    have := sumV_nonpos hle
    omega

/-! ## The two ways in which the planner returns without error -/

theorem select_trivial (rnd : ℚ → ℚ) (ctx : Context) (orders : List Order) (rid : String)
    (cap : Int) (h : cap ≤ 0 ∨ orders.length = 0) :
    selectOrdersForDelivery rnd ctx orders rid cap =
      ({ robotID := rid, totalWeight := 0, totalValue := 0, orders := [] }, none) := by
  rw [select_eq, if_pos h]

theorem select_searched (rnd : ℚ → ℚ) (ctx : Context) (orders : List Order) (rid : String)
    (cap : Int) (h : ¬ (cap ≤ 0 ∨ orders.length = 0))
    (hnc : (selectOrdersForDelivery rnd ctx orders rid cap).2 = none) :
    (dfs rnd ctx cap (sortCandidates orders) 0 0 []
        (seedState (sortCandidates orders) cap)).1 = false ∧
      (selectOrdersForDelivery rnd ctx orders rid cap).1 =
        { robotID := rid
          totalWeight := sumW (dfs rnd ctx cap (sortCandidates orders) 0 0 []
            (seedState (sortCandidates orders) cap)).2.bestSet
          totalValue := (dfs rnd ctx cap (sortCandidates orders) 0 0 []
            (seedState (sortCandidates orders) cap)).2.bestValue
          orders := (dfs rnd ctx cap (sortCandidates orders) 0 0 []
            (seedState (sortCandidates orders) cap)).2.bestSet } := by
  rw [select_eq, if_neg h] at hnc ⊢
  split_ifs at hnc ⊢ with hc
  exact ⟨by simpa using hc, rfl⟩

theorem select_cancelled (rnd : ℚ → ℚ) (ctx : Context) (orders : List Order) (rid : String)
    (cap : Int) (hc : (selectOrdersForDelivery rnd ctx orders rid cap).2 ≠ none) :
    selectOrdersForDelivery rnd ctx orders rid cap = (emptyPlan, some ctx.err) := by
  rw [select_eq] at hc ⊢
  split_ifs at hc ⊢ with h1 h2
  · simp at hc
  · rfl
  · simp at hc

/-- The plan record returned by the planner is consistent and feasible in
every case: totals are the sums over its orders, the weight is within a
non-negative capacity and the orders are a subsequence of the candidates. -/
theorem select_good (rnd : ℚ → ℚ) (ctx : Context) (orders : List Order) (rid : String)
    (cap : Int) :
    (selectOrdersForDelivery rnd ctx orders rid cap).1.totalValue =
        sumV (selectOrdersForDelivery rnd ctx orders rid cap).1.orders ∧
      (selectOrdersForDelivery rnd ctx orders rid cap).1.totalWeight =
        sumW (selectOrdersForDelivery rnd ctx orders rid cap).1.orders ∧
      (0 ≤ cap → sumW (selectOrdersForDelivery rnd ctx orders rid cap).1.orders ≤ cap) ∧
      (selectOrdersForDelivery rnd ctx orders rid cap).1.orders.Sublist
        (sortCandidates orders) := by
  rw [select_eq]
  split_ifs with h1 h2
  · exact ⟨rfl, rfl, fun h => by simpa [sumW] using h, List.nil_sublist _⟩
  · exact ⟨rfl, rfl, fun h => by simpa [sumW, emptyPlan] using h, List.nil_sublist _⟩
  · have hcap : 0 ≤ cap := by
      have : ¬ cap ≤ 0 := fun h => h1 (Or.inl h)
      omega
    obtain ⟨k1, k2, k3⟩ := search_good rnd ctx orders hcap
    exact ⟨k1, rfl, fun _ => k2, k3⟩

/-! ## Cancellation -/

theorem dfs_over_capacity (rnd : ℚ → ℚ) (ctx : Context) {cap cw : Int} (h : cw > cap)
    (rest : List Order) (cv : Int) (cs : List Order) (s : Search) :
    dfs rnd ctx cap rest cw cv cs s = (false, s) := by
  cases rest with
  | nil => rw [dfs_nil, if_pos h]
  | cons o rest => rw [dfs_cons, if_pos h]

/-- On orders of weight 2 and value 1 with capacity 1 the search is one chain
of exclusions; under a deadline signal that has fired it is cancelled as soon
as the chain is long enough for the step counter to reach `checkEvery`. -/
theorem heavy_chain_cancelled (ctx : Context) (hdone : ∀ n, ctx.done n = true) :
    ∀ (rest : List Order) (s : Search),
      (∀ o ∈ rest, o.weight = 2 ∧ o.value = 1) → s.bestValue = 0 →
      s.steps < checkEvery → checkEvery ≤ s.steps + rest.length →
      (dfs id ctx 1 rest 0 0 [] s).1 = true := by
  intro rest
  induction rest with
  | nil =>
    intro s _ _ h1 h2
    simp only [List.length_nil, add_zero] at h2
    omega
  | cons o rest ih =>
    intro s hall hbest h1 h2
    obtain ⟨how, hov⟩ := hall o (List.mem_cons_self _ _)
    rw [dfs_cons, if_neg (by decide)]
    by_cases hpoll : checkEvery > 0 ∧ (s.steps + 1) % checkEvery = 0 ∧
        ctx.done (s.steps + 1) = true
    · rw [if_pos hpoll]
    · rw [if_neg hpoll]
      have hmod : (s.steps + 1) % checkEvery ≠ 0 := by
        intro h0
        exact hpoll ⟨by decide, h0, hdone _⟩
      have hlt : s.steps + 1 < checkEvery := by
        rcases Nat.lt_or_ge (s.steps + 1) checkEvery with h | h
        · exact h
        · exfalso
          have : s.steps + 1 = checkEvery := by omega
          rw [this, Nat.mod_self] at hmod
          exact hmod rfl
      have hbound : fractionalBound id 1 (o :: rest) 0 = 1 / 2 := by
        unfold fractionalBound
        rw [if_neg (by decide)]
        rw [boundLoop, if_pos (by decide), if_neg (by omega), if_neg (by omega)]
        simp only [id, how, hov]
        norm_num
      have hprune : ¬ (id (id ((0 : Int) : ℚ) + fractionalBound id 1 (o :: rest) 0)
          ≤ id (s.bestValue : ℚ)) := by
        rw [hbound, hbest]
        simp only [id]
        norm_num
      rw [if_neg hprune]
      have hrec : record 0 [] { s with steps := s.steps + 1 } = { s with steps := s.steps + 1 } := by
        simp [record, hbest]
      rw [hrec, dfs_over_capacity id ctx (by omega)]
      simp only [Bool.false_eq_true, if_false]
      apply ih
      · exact fun b hb => hall b (List.mem_cons_of_mem _ hb)
      · exact hbest
      · exact hlt
      · simp only [List.length_cons] at h2 ⊢
        omega

theorem seedState_of_nothing_fits {candidates : List Order} {cap : Int} (hcap : 0 ≤ cap)
    (hw : ∀ o ∈ candidates, cap < o.weight) :
    seedState candidates cap = { bestValue := 0, bestSet := [], steps := 0 } := by
  obtain ⟨g1, g2, g3, _⟩ := greedySeedPlan_spec candidates cap
  have hnil : (greedySeedPlan candidates cap).2 = [] := by
    cases hset : (greedySeedPlan candidates cap).2 with
    | nil => rfl
    | cons a t =>
      exfalso
      rw [hset] at g1 g3
      have ha := hw a (g1.subset (List.mem_cons_self _ _))
      have h3 := g3 hcap
      have ht : ∀ b ∈ a :: t, 0 ≤ b.weight := by
        intro b hb
        have := hw b (g1.subset hb)
        omega
      have := weight_le_sumW ht a (List.mem_cons_self _ _)
      omega
  unfold seedState
  rw [if_neg]
  rw [g2, hnil]
  simp [sumV]

/-- The search of the planner on `heavyOrders n` with capacity 1 is cancelled
by a deadline signal that has fired, when `n` is at least `checkEvery`. -/
theorem heavy_search_cancelled (ctx : Context) (hdone : ∀ n, ctx.done n = true) (n : Nat)
    (hn : checkEvery ≤ n) :
    (dfs id ctx 1 (sortCandidates (heavyOrders n)) 0 0 []
      (seedState (sortCandidates (heavyOrders n)) 1)).1 = true := by
  have hperm := sortCandidates_perm (heavyOrders n)
  have hall : ∀ o ∈ sortCandidates (heavyOrders n), o.weight = 2 ∧ o.value = 1 := by
    intro o ho
    have := hperm.mem_iff.mp ho
    unfold heavyOrders at this
    obtain ⟨i, _, rfl⟩ := List.mem_map.mp this
    exact ⟨rfl, rfl⟩
  have hlen : (sortCandidates (heavyOrders n)).length = n := by
    rw [hperm.length_eq, heavyOrders, List.length_map, List.length_range]
  rw [seedState_of_nothing_fits (by decide) (fun o ho => by rw [(hall o ho).1]; decide)]
  apply heavy_chain_cancelled ctx hdone _ _ hall rfl (by decide)
  rw [hlen]
  simpa using hn

theorem select_of_cancelled_search (rnd : ℚ → ℚ) (ctx : Context) (orders : List Order)
    (rid : String) (cap : Int) (hcap : 0 < cap) (hne : orders ≠ [])
    (hc : (dfs rnd ctx cap (sortCandidates orders) 0 0 []
      (seedState (sortCandidates orders) cap)).1 = true) :
    selectOrdersForDelivery rnd ctx orders rid cap = (emptyPlan, some ctx.err) := by
  have htriv : ¬ (cap ≤ 0 ∨ orders.length = 0) := by
    intro h
    rcases h with h | h
    · omega
    · exact hne (List.length_eq_zero.mp h)
  rw [select_eq, if_neg htriv, if_pos hc]

/-! ## The coordinator -/

theorem UpdateStatuses_nil (db : Store) (newStatus : String) :
    UpdateStatuses db [] newStatus = (db, none) := rfl

theorem UpdateStatuses_failed {db : Store} {ids : List Int} {e : String} (newStatus : String)
    (hne : ids ≠ []) (hx : db.execErr = some e) :
    UpdateStatuses db ids newStatus
      = ({ db with updates := db.updates ++ [⟨newStatus, ids⟩] }, some e) := by
  have hlen : ¬ ids.length = 0 := fun h => hne (List.length_eq_zero.mp h)
  unfold UpdateStatuses
  rw [if_neg hlen]
  simp only [hx]

theorem UpdateStatuses_done {db : Store} {ids : List Int} (newStatus : String)
    (hne : ids ≠ []) (hx : db.execErr = none) :
    UpdateStatuses db ids newStatus
      = ({ db with
            updates := db.updates ++ [⟨newStatus, ids⟩]
            rows := db.rows.map (fun r =>
              if r.order.orderID ∈ ids then { r with shippedStatus := newStatus } else r) },
          none) := by
  have hlen : ¬ ids.length = 0 := fun h => hne (List.length_eq_zero.mp h)
  unfold UpdateStatuses
  rw [if_neg hlen]
  simp only [hx]

theorem ExecTx_ok {σ : Type} {store s1 : Store} {c c1 : σ}
    {fn : Store → σ → Store × σ × Option String} (h : ExecTx store c fn = (s1, c1, none)) :
    store.beginErr = none ∧ store.commitErr = none ∧ fn store c = (s1, c1, none) := by
  unfold ExecTx at h
  split at h
  · simp at h
  · rename_i hb
    simp only at h
    split at h
    · simp at h
    · rename_i hf
      split at h
      · simp at h
      · rename_i hc
        simp only [Prod.mk.injEq, and_true] at h
        refine ⟨hb, hc, ?_⟩
        apply Prod.ext h.1
        exact Prod.ext h.2 hf

theorem ExecTx_failed {σ : Type} {store s1 : Store} {c c1 : σ} {e : String}
    {fn : Store → σ → Store × σ × Option String} (h : ExecTx store c fn = (s1, c1, some e)) :
    s1.rows = store.rows := by
  unfold ExecTx at h
  split at h
  · simp only [Prod.mk.injEq] at h
    rw [← h.1]
  · simp only at h
    split at h
    · simp only [Prod.mk.injEq] at h
      rw [← h.1]
    · split at h
      · simp only [Prod.mk.injEq] at h
        rw [← h.1]
      · simp at h

theorem planTx_ok {rnd : ℚ → ℚ} {ctx : Context} {store s1 : Store} {rid : String}
    {cap : Int} {plan0 plan : DeliveryPlan}
    (h : planTx rnd ctx rid cap store plan0 = (s1, plan, none)) :
    selectOrdersForDelivery rnd ctx (GetShippingOrders store).1 rid cap = (plan, none) ∧
      s1 = (UpdateStatuses store (plan.orders.map Order.orderID) "delivering").1 ∧
      (UpdateStatuses store (plan.orders.map Order.orderID) "delivering").2 = none := by
  unfold planTx at h
  simp only at h
  split at h
  · simp at h
  · split at h
    · simp at h
    · rename_i hp
      split at h
      · split at h
        · simp at h
        · rename_i hu
          simp only [Prod.mk.injEq, and_true] at h
          obtain ⟨hs, hpl⟩ := h
          subst hpl
          exact ⟨Prod.ext rfl hp, hs.symm, hu⟩
      · rename_i hlen
        simp only [Prod.mk.injEq, and_true] at h
        obtain ⟨hs, hpl⟩ := h
        subst hpl
        have hnil : (selectOrdersForDelivery rnd ctx (GetShippingOrders store).1 rid
            cap).1.orders = [] := by
          apply List.length_eq_zero.mp
          omega
        rw [hnil]
        exact ⟨Prod.ext rfl hp, hs.symm, rfl⟩

/-- The result of `GenerateDeliveryPlan` when it returns a plan: the plan is
the planner's on the shipping orders, and the store is the one left by the
call of `UpdateStatuses` on the plan's order ids, which did not fail. -/
theorem generate_some {rnd : ℚ → ℚ} {ctx : Context} {store store1 : Store} {rid : String}
    {cap : Int} {plan : DeliveryPlan}
    (h : GenerateDeliveryPlan rnd ctx store rid cap = (store1, some plan, none)) :
    selectOrdersForDelivery rnd ctx (GetShippingOrders store).1 rid cap = (plan, none) ∧
      store1 = (UpdateStatuses store (plan.orders.map Order.orderID) "delivering").1 ∧
      (UpdateStatuses store (plan.orders.map Order.orderID) "delivering").2 = none := by
  unfold GenerateDeliveryPlan WithTimeout at h
  simp only at h
  split at h
  · simp at h
  · rename_i he
    simp only [Prod.mk.injEq, Option.some.injEq, and_true] at h
    have hx : ExecTx store emptyPlan (planTx rnd ctx rid cap) = (store1, plan, none) := by
      apply Prod.ext h.1
      exact Prod.ext h.2 he
    exact planTx_ok (ExecTx_ok hx).2.2

theorem mem_getShippingOrders {store : Store} {o : Order}
    (h : o ∈ (GetShippingOrders store).1) :
    ∃ r ∈ store.rows, r.order = o ∧ r.shippedStatus = "shipping" := by
  unfold GetShippingOrders at h
  split at h
  · simp at h
  · simp only [List.mem_map, List.mem_filter, decide_eq_true_eq] at h
    obtain ⟨r, ⟨hr, hs⟩, ho⟩ := h
    exact ⟨r, hr, ho, hs⟩

theorem generate_of_failed_select (rnd : ℚ → ℚ) (ctx : Context) (store : Store) (rid : String)
    (cap : Int) (e : String) (hb : store.beginErr = none) (hq : store.selectErr = none)
    (hsel : selectOrdersForDelivery rnd ctx (GetShippingOrders store).1 rid cap
      = (emptyPlan, some e)) :
    GenerateDeliveryPlan rnd ctx store rid cap = (store, none, some e) := by
  have hget : (GetShippingOrders store).2 = none := by
    unfold GetShippingOrders
    rw [hq]
  have hp : planTx rnd ctx rid cap store emptyPlan = (store, emptyPlan, some e) := by
    unfold planTx
    simp only [hget, hsel]
  have hx : ExecTx store emptyPlan (planTx rnd ctx rid cap) = (store, emptyPlan, some e) := by
    unfold ExecTx
    simp only [hb, hp]
    rw [← hb]
  unfold GenerateDeliveryPlan WithTimeout
  simp only [hx]

theorem getShippingOrders_all_shipping (l : List Order) (u : List UpdateStmt) :
    (GetShippingOrders ⟨l.map (fun o => ⟨o, "shipping"⟩), u, none, none, none, none⟩).1 = l := by
  unfold GetShippingOrders
  simp only
  rw [List.filter_eq_self.mpr, List.map_map]
  · exact (List.map_id _ ▸ List.map_congr_left (fun o _ => rfl) : List.map
      (Row.order ∘ fun o => (⟨o, "shipping"⟩ : Row)) l = l)
  · intro r hr
    obtain ⟨o, _, rfl⟩ := List.mem_map.mp hr
    simp

theorem rounding_id : Rounding id := ⟨fun _ _ h => h, fun _ => rfl⟩

/-! ## Further facts on the bound, the comparator and the greedy seed -/

/-- A positive summed weight comes from an order of positive weight. -/
theorem exists_pos_of_sumW_pos {l : List Order} (hw : ∀ o ∈ l, 0 ≤ o.weight)
    (h : 0 < sumW l) : ∃ a ∈ l, 0 < a.weight := by
  by_contra hcon
  have hall : ∀ o ∈ l, o.weight = 0 := by
    intro o ho
    have h1 := hw o ho
    have h2 : ¬ 0 < o.weight := fun hp => hcon ⟨o, ho, hp⟩
    omega
  rw [sumW_eq_zero hall] at h
  exact lt_irrefl 0 h

theorem less_irrefl (a : Order) : less a a = false := by
  rcases notAfter_total a a with h | h <;> exact h

theorem less_iff_not_notAfter (a b : Order) : less a b = true ↔ ¬ notAfter b a := by
  unfold notAfter
  cases less a b <;> simp

theorem less_asymm {a b : Order} (h : less a b = true) : less b a = false := by
  rcases notAfter_total a b with h1 | h1
  · exact h1
  · exact absurd h1 ((less_iff_not_notAfter a b).mp h)

theorem less_trans {a b c : Order} (ha : 0 ≤ a.weight) (hb : 0 ≤ b.weight)
    (hc : 0 ≤ c.weight) (hab : less a b = true) (hbc : less b c = true) :
    less a c = true := by
  by_contra hcon
  have hca : notAfter c a := by
    unfold notAfter
    simpa using hcon
  -- `c` not after `a` and `a` not after `b` (asymmetry) give `c` not after `b`
  have hab1 : notAfter a b := less_asymm hab
  have hcb : notAfter c b := notAfter_trans hc ha hb hca hab1
  exact (less_iff_not_notAfter b c).mp hbc hcb

theorem incomparable_trans {a b c : Order} (ha : 0 ≤ a.weight) (hb : 0 ≤ b.weight)
    (hc : 0 ≤ c.weight) (hab : less a b = false ∧ less b a = false)
    (hbc : less b c = false ∧ less c b = false) :
    less a c = false ∧ less c a = false :=
  ⟨notAfter_trans hc hb ha hbc.1 hab.1, notAfter_trans ha hb hc hab.2 hbc.2⟩

theorem record_steps (cv : Int) (cs : List Order) (s : Search) :
    (record cv cs s).steps = s.steps := by
  unfold record
  split <;> rfl

/-! ## The lifecycle of an order -/

theorem UpdateStatuses_rows (db : Store) (ids : List Int) (newStatus : String) :
    (UpdateStatuses db ids newStatus).1.rows = db.rows ∨
      (UpdateStatuses db ids newStatus).1.rows = db.rows.map (fun r =>
        if r.order.orderID ∈ ids then { r with shippedStatus := newStatus } else r) := by
  by_cases hne : ids = []
  · subst hne; exact Or.inl rfl
  · cases hx : db.execErr with
    | some e => rw [UpdateStatuses_failed newStatus hne hx]; exact Or.inl rfl
    | none => rw [UpdateStatuses_done newStatus hne hx]; exact Or.inr rfl

theorem generate_failed_rows {rnd : ℚ → ℚ} {ctx : Context} {store : Store} {rid : String}
    {cap : Int} (h : (GenerateDeliveryPlan rnd ctx store rid cap).2.2 ≠ none) :
    (GenerateDeliveryPlan rnd ctx store rid cap).1.rows = store.rows := by
  unfold GenerateDeliveryPlan WithTimeout at h ⊢
  simp only at h ⊢
  split
  · rename_i e he
    simp only
    exact ExecTx_failed (Prod.ext rfl (Prod.ext rfl he))
  · rename_i he
    rw [he] at h
    simp at h

/-- Whatever `GenerateDeliveryPlan` returns, the rows of the store are the
former rows, or the former rows with the ids of the planner's selection among
the shipping orders set to 'delivering'. -/
theorem generate_rows (rnd : ℚ → ℚ) (ctx : Context) (store : Store) (rid : String)
    (cap : Int) :
    (GenerateDeliveryPlan rnd ctx store rid cap).1.rows = store.rows ∨
      ∃ plan : DeliveryPlan,
        (∀ o ∈ plan.orders, o ∈ (GetShippingOrders store).1) ∧
        (GenerateDeliveryPlan rnd ctx store rid cap).1.rows = store.rows.map (fun r =>
          if r.order.orderID ∈ plan.orders.map Order.orderID then
            { r with shippedStatus := "delivering" } else r) := by
  cases herr : (GenerateDeliveryPlan rnd ctx store rid cap).2.2 with
  | some e =>
    exact Or.inl (generate_failed_rows (by rw [herr]; simp))
  | none =>
    cases hplan : (GenerateDeliveryPlan rnd ctx store rid cap).2.1 with
    | none =>
      exfalso
      unfold GenerateDeliveryPlan WithTimeout at herr hplan
      simp only at herr hplan
      split at hplan
      · rename_i e he
        split at herr
        · simp at herr
        · rename_i he2
          rw [he2] at he
          simp at he
      · simp at hplan
    | some plan =>
      have h : GenerateDeliveryPlan rnd ctx store rid cap
          = ((GenerateDeliveryPlan rnd ctx store rid cap).1, some plan, none) :=
        Prod.ext rfl (Prod.ext hplan herr)
      obtain ⟨hsel, hs1, _⟩ := generate_some h
      have hin : ∀ o ∈ plan.orders, o ∈ (GetShippingOrders store).1 := by
        intro o ho
        have hsub := (select_good rnd ctx (GetShippingOrders store).1 rid cap).2.2.2
        rw [hsel] at hsub
        exact (sortCandidates_perm _).mem_iff.mp (hsub.subset ho)
      rcases UpdateStatuses_rows store (plan.orders.map Order.orderID) "delivering" with hu | hu
      · exact Or.inl (by rw [hs1]; exact hu)
      · exact Or.inr ⟨plan, hin, by rw [hs1]; exact hu⟩

theorem forall2_map_of_forall {R : Row → Row → Prop} (l : List Row) (f : Row → Row)
    (h : ∀ r ∈ l, R r (f r)) : List.Forall₂ R l (l.map f) := by
  induction l with
  | nil => exact List.Forall₂.nil
  | cons a l ih =>
    exact List.Forall₂.cons (h a (List.mem_cons_self _ _))
      (ih (fun r hr => h r (List.mem_cons_of_mem _ hr)))

theorem forall2_refl_of {R : Row → Row → Prop} (l : List Row) (h : ∀ r, R r r) :
    List.Forall₂ R l l :=
  List.forall₂_same.mpr (fun r _ => h r)

theorem forall2_trans_of {R : Row → Row → Prop}
    (htrans : ∀ a b c, R a b → R b c → R a c) :
    ∀ l1 l2 l3 : List Row, List.Forall₂ R l1 l2 → List.Forall₂ R l2 l3 →
      List.Forall₂ R l1 l3 := by
  intro l1 l2 l3 h12
  induction h12 generalizing l3 with
  | nil => intro h; cases h; exact List.Forall₂.nil
  | cons hab _ ih =>
    intro h
    cases h with
    | cons hbc hrest => exact List.Forall₂.cons (htrans _ _ _ hab hbc) (ih _ hrest)

theorem forall2_mem_right {R : Row → Row → Prop} {l1 l2 : List Row}
    (h : List.Forall₂ R l1 l2) : ∀ b ∈ l2, ∃ a ∈ l1, R a b := by
  induction h with
  | nil => intro b hb; simp at hb
  | cons hab _ ih =>
    intro b hb
    rcases List.mem_cons.mp hb with rfl | hb
    · exact ⟨_, List.mem_cons_self _ _, hab⟩
    · obtain ⟨a, ha, hr⟩ := ih b hb
      exact ⟨a, List.mem_cons_of_mem _ ha, hr⟩

/-- One event that does not write 'shipping' keeps the order of every row and
returns no row to 'shipping'. -/
theorem applyCall_keeps_left (store : Store) (c : Call) (hc : ¬ writesShipping c) :
    List.Forall₂ (fun r r1 => r1.order = r.order ∧
        (r.shippedStatus ≠ "shipping" → r1.shippedStatus ≠ "shipping"))
      store.rows (applyCall store c).rows := by
  have hrefl : List.Forall₂ (fun r r1 : Row => r1.order = r.order ∧
      (r.shippedStatus ≠ "shipping" → r1.shippedStatus ≠ "shipping"))
      store.rows store.rows :=
    forall2_refl_of store.rows (fun _ => ⟨rfl, fun h => h⟩)
  have hupd : ∀ (ids : List Int) (s : String), s ≠ "shipping" →
      List.Forall₂ (fun r r1 : Row => r1.order = r.order ∧
        (r.shippedStatus ≠ "shipping" → r1.shippedStatus ≠ "shipping"))
        store.rows (store.rows.map (fun r =>
          if r.order.orderID ∈ ids then { r with shippedStatus := s } else r)) := by
    intro ids s hs
    apply forall2_map_of_forall
    intro r _
    split
    · exact ⟨rfl, fun _ => hs⟩
    · exact ⟨rfl, fun h => h⟩
  cases c with
  | updateOrderStatus ctx id s =>
    have hs : s ≠ "shipping" := hc
    show List.Forall₂ _ store.rows (UpdateStatuses store [id] s).1.rows
    rcases UpdateStatuses_rows store [id] s with h | h
    · rw [h]; exact hrefl
    · rw [h]; exact hupd [id] s hs
  | updateStatuses ids s =>
    have hs : s ≠ "shipping" := hc
    show List.Forall₂ _ store.rows (UpdateStatuses store ids s).1.rows
    rcases UpdateStatuses_rows store ids s with h | h
    · rw [h]; exact hrefl
    · rw [h]; exact hupd ids s hs
  | generateDeliveryPlan rnd ctx rid cap =>
    show List.Forall₂ _ store.rows (GenerateDeliveryPlan rnd ctx store rid cap).1.rows
    rcases generate_rows rnd ctx store rid cap with h | ⟨plan, _, h⟩
    · rw [h]; exact hrefl
    · rw [h]; exact hupd _ "delivering" (by decide)
  | driver b q x c => exact hrefl

/-- A sequence of events none of which writes 'shipping' keeps the order of
every row and returns no row to 'shipping'. -/
theorem runCalls_keeps_left (calls : List Call) :
    ∀ store : Store, (∀ c ∈ calls, ¬ writesShipping c) →
      List.Forall₂ (fun r r1 => r1.order = r.order ∧
          (r.shippedStatus ≠ "shipping" → r1.shippedStatus ≠ "shipping"))
        store.rows (runCalls store calls).rows := by
  induction calls with
  | nil =>
    intro store _
    exact forall2_refl_of store.rows (fun _ => ⟨rfl, fun h => h⟩)
  | cons c calls ih =>
    intro store hall
    have h1 := applyCall_keeps_left store c (hall c (List.mem_cons_self _ _))
    have h2 := ih (applyCall store c) (fun d hd => hall d (List.mem_cons_of_mem _ hd))
    have h3 := forall2_trans_of (R := fun r r1 : Row => r1.order = r.order ∧
      (r.shippedStatus ≠ "shipping" → r1.shippedStatus ≠ "shipping"))
      (fun a b c hab hbc => ⟨hbc.1.trans hab.1, fun h => hbc.2 (hab.2 h)⟩) _ _ _ h1 h2
    simpa [runCalls] using h3

/-- With unique order ids, `GenerateDeliveryPlan` changes a row only from
'shipping' to 'delivering'. -/
theorem generate_only_claims (rnd : ℚ → ℚ) (ctx : Context) (store : Store) (rid : String)
    (cap : Int) (hnodup : (store.rows.map (fun r => r.order.orderID)).Nodup) :
    List.Forall₂ (fun r r1 => r1 = r ∨
        (r.shippedStatus = "shipping" ∧ r1 = { r with shippedStatus := "delivering" }))
      store.rows (GenerateDeliveryPlan rnd ctx store rid cap).1.rows := by
  rcases generate_rows rnd ctx store rid cap with h | ⟨plan, hin, h⟩
  · rw [h]
    exact forall2_refl_of store.rows (fun _ => Or.inl rfl)
  · rw [h]
    apply forall2_map_of_forall
    intro r hr
    split
    · rename_i hid
      obtain ⟨o, ho, hoid⟩ := List.mem_map.mp hid
      obtain ⟨r0, hr0, hro, hship⟩ := mem_getShippingOrders (hin o ho)
      have heq : r0 = r := by
        have hinj := List.inj_on_of_nodup_map hnodup
        exact hinj hr0 hr (by rw [hro, hoid])
      rw [heq] at hship
      exact Or.inr ⟨hship, rfl⟩
    · exact Or.inl rfl

/-- Two successful plan requests served one after the other, with any events
between them that do not write 'shipping', return plans that share no order
id: the second request reads only orders still in 'shipping', and the first
has set all of its orders to 'delivering'.  (Calls on the store run one at a
time here; what two transactions that overlap in time see of each other is
decided by `Store.ExecTx` and the database.) -/
theorem plans_in_sequence_disjoint (rnd1 rnd2 : ℚ → ℚ) (ctx1 ctx2 : Context)
    (rid1 rid2 : String) (cap1 cap2 : Int) (store store1 store2 : Store)
    (plan1 plan2 : DeliveryPlan) (between : List Call)
    (hbetween : ∀ c ∈ between, ¬ writesShipping c)
    (h1 : GenerateDeliveryPlan rnd1 ctx1 store rid1 cap1 = (store1, some plan1, none))
    (h2 : GenerateDeliveryPlan rnd2 ctx2 (runCalls store1 between) rid2 cap2
      = (store2, some plan2, none)) :
    ∀ o1 ∈ plan1.orders, ∀ o2 ∈ plan2.orders, o1.orderID ≠ o2.orderID := by
  intro o1 ho1 o2 ho2 heq
  obtain ⟨hsel2, _, _⟩ := generate_some h2
  have hin2 : o2 ∈ (GetShippingOrders (runCalls store1 between)).1 := by
    have hsub := (select_good rnd2 ctx2 (GetShippingOrders (runCalls store1 between)).1
      rid2 cap2).2.2.2
    rw [hsel2] at hsub
    exact (sortCandidates_perm _).mem_iff.mp (hsub.subset ho2)
  obtain ⟨r2, hr2, hr2o, hr2s⟩ := mem_getShippingOrders hin2
  obtain ⟨r, hr, hro, hrs⟩ :=
    forall2_mem_right (runCalls_keeps_left between store1 hbetween) r2 hr2
  have hship : r.shippedStatus = "shipping" := by
    by_contra hne
    exact hrs hne hr2s
  obtain ⟨_, hs1, hu⟩ := generate_some h1
  have hne1 : plan1.orders.map Order.orderID ≠ [] := by
    intro hnil
    rw [List.map_eq_nil_iff] at hnil
    rw [hnil] at ho1
    simp at ho1
  have hrows : store1.rows = store.rows.map (fun r =>
      if r.order.orderID ∈ plan1.orders.map Order.orderID then
        { r with shippedStatus := "delivering" } else r) := by
    cases hx : store.execErr with
    | some e =>
      rw [UpdateStatuses_failed "delivering" hne1 hx] at hu
      simp at hu
    | none =>
      rw [hs1, UpdateStatuses_done "delivering" hne1 hx]
  rw [hrows, List.mem_map] at hr
  obtain ⟨r0, _, hr0⟩ := hr
  have hid : r.order.orderID ∈ plan1.orders.map Order.orderID := by
    rw [← hro, hr2o, ← heq]
    exact List.mem_map_of_mem _ ho1
  split at hr0
  · rw [← hr0] at hship
    simp at hship
  · rename_i hnot
    rw [← hr0] at hid
    exact hnot hid

/-! ## The list queries -/

theorem sortOrder_cases (toUpper : String → String) (req : ListRequest) :
    (toUpper req.sortOrder = "DESC" ∧ sortOrder toUpper req = "DESC") ∨
      (toUpper req.sortOrder ≠ "DESC" ∧ sortOrder toUpper req = "ASC") := by
  unfold sortOrder
  by_cases h : toUpper req.sortOrder = "DESC"
  · exact Or.inl ⟨h, by rw [if_pos h]⟩
  · exact Or.inr ⟨h, by rw [if_neg h]⟩

theorem ordersSortField_cases (req : ListRequest) :
    ((req.sortField = "name" ∨ req.sortField = "product_name") ∧
        ordersSortField req = "p.name") ∨
      (req.sortField = "created_at" ∧ ordersSortField req = "o.created_at") ∨
      (req.sortField = "shipped_status" ∧ ordersSortField req = "o.shipped_status") ∨
      (req.sortField = "arrived_at" ∧ ordersSortField req = "o.arrived_at") ∨
      (req.sortField ∉ ["name", "product_name", "created_at", "shipped_status", "arrived_at"] ∧
        ordersSortField req = "o.order_id") := by
  unfold ordersSortField
  by_cases h1 : req.sortField = "name" ∨ req.sortField = "product_name"
  · exact Or.inl ⟨h1, by rw [if_pos h1]⟩
  · by_cases h2 : req.sortField = "created_at"
    · exact Or.inr (Or.inl ⟨h2, by rw [if_neg h1, if_pos h2]⟩)
    · by_cases h3 : req.sortField = "shipped_status"
      · exact Or.inr (Or.inr (Or.inl ⟨h3, by rw [if_neg h1, if_neg h2, if_pos h3]⟩))
      · by_cases h4 : req.sortField = "arrived_at"
        · exact Or.inr (Or.inr (Or.inr (Or.inl
            ⟨h4, by rw [if_neg h1, if_neg h2, if_neg h3, if_pos h4]⟩)))
        · refine Or.inr (Or.inr (Or.inr (Or.inr ⟨?_, ?_⟩)))
          · simp only [List.mem_cons, List.mem_singleton, List.not_mem_nil, or_false]
            rintro (h | h | h | h | h)
            · exact h1 (Or.inl h)
            · exact h1 (Or.inr h)
            · exact h2 h
            · exact h3 h
            · exact h4 h
          · rw [if_neg h1, if_neg h2, if_neg h3, if_neg h4]
            split <;> rfl

theorem productsSortField_cases (req : ListRequest) :
    (req.sortField = "name" ∧ productsSortField req = "name") ∨
      (req.sortField = "value" ∧ productsSortField req = "value") ∨
      (req.sortField = "weight" ∧ productsSortField req = "weight") ∨
      (req.sortField ∉ ["name", "value", "weight"] ∧ productsSortField req = "product_id") := by
  unfold productsSortField
  by_cases h1 : req.sortField = "name"
  · exact Or.inl ⟨h1, by rw [if_pos h1]⟩
  · by_cases h2 : req.sortField = "value"
    · exact Or.inr (Or.inl ⟨h2, by rw [if_neg h1, if_pos h2]⟩)
    · by_cases h3 : req.sortField = "weight"
      · exact Or.inr (Or.inr (Or.inl ⟨h3, by rw [if_neg h1, if_neg h2, if_pos h3]⟩))
      · refine Or.inr (Or.inr (Or.inr ⟨?_, by rw [if_neg h1, if_neg h2, if_neg h3]⟩))
        simp only [List.mem_cons, List.mem_singleton, List.not_mem_nil, or_false]
        rintro (h | h | h)
        · exact h1 h
        · exact h2 h
        · exact h3 h

theorem ordersCountQuery_eq (userID : Int) (req : ListRequest) :
    ordersCountQuery userID req =
      { text := "\n        SELECT COUNT(*) as total\n        FROM orders o\n        JOIN products p ON o.product_id = p.product_id\n        "
          ++ ordersWhereText req,
        args := [Arg.int userID] ++ ordersFilterArgs req } := by
  unfold ordersCountQuery ordersWhereText ordersFilterArgs
  by_cases hs : req.search = ""
  · simp only [hs, ne_eq, not_true_eq_false, if_false, if_true]
    rfl
  · by_cases ht : req.type = "prefix"
    · simp only [hs, ht, ne_eq, not_false_eq_true, if_true, if_false]
      rfl
    · simp only [hs, ht, ne_eq, not_false_eq_true, if_true, if_false]
      rfl

theorem ordersDataQuery_eq (toUpper : String → String) (userID : Int) (req : ListRequest) :
    ordersDataQuery toUpper userID req =
      { text := "\n        SELECT o.order_id, o.product_id, o.shipped_status, o.created_at, o.arrived_at, p.name as product_name\n        FROM orders o\n        JOIN products p ON o.product_id = p.product_id\n        "
          ++ ordersWhereText req ++ ordersOrderBy toUpper req ++ " LIMIT ? OFFSET ?",
        args := [Arg.int userID] ++ ordersFilterArgs req
          ++ [Arg.int req.pageSize, Arg.int req.offset] } := by
  unfold ordersDataQuery ordersWhereText ordersFilterArgs
  by_cases hs : req.search = ""
  · simp only [hs, ne_eq, not_true_eq_false, if_false, if_true]
    rfl
  · by_cases ht : req.type = "prefix"
    · simp only [hs, ht, ne_eq, not_false_eq_true, if_true, if_false]
      rfl
    · simp only [hs, ht, ne_eq, not_false_eq_true, if_true, if_false]
      rfl

theorem ordersCount_no_sort (userID : Int) (req : ListRequest) :
    ¬ occursIn "ORDER BY" (ordersCountQuery userID req).text ∧
      ¬ occursIn "LIMIT" (ordersCountQuery userID req).text ∧
      ¬ occursIn "OFFSET" (ordersCountQuery userID req).text := by
  rw [ordersCountQuery_eq]
  unfold ordersWhereText
  by_cases hs : req.search = ""
  · simp only [hs, ne_eq, not_true_eq_false, if_false]
    decide!
  · simp only [hs, ne_eq, not_false_eq_true, if_true]
    decide!

theorem productsWhere_cases (toLower : String → String) (req : ListRequest) :
    (req.search = "" ∧ productsWhere toLower req = { text := "", args := [] }) ∨
      (req.search ≠ "" ∧ productsWhere toLower req =
        { text := " WHERE (name LIKE ? OR description LIKE ?)",
          args := productsFilterArgs toLower req }) := by
  unfold productsWhere productsFilterArgs
  by_cases hs : req.search = ""
  · exact Or.inl ⟨hs, by simp [hs]⟩
  · refine Or.inr ⟨hs, ?_⟩
    by_cases ht : toLower req.type = "prefix"
    · simp [hs, ht]
    · simp [hs, ht]

/-- The queries of both list functions on a request with search text "ab",
evaluated with the upper- and lower-casing of the library of Lean, which agree
with those of Go on ASCII text: the unknown sort field falls back to the
identifier column, "Desc" sorts descending, and `ListProducts` reads the type
"PREFIX" as a prefix search while `ListOrders` does not. -/
theorem list_queries_example :
    ListOrders String.toUpper 7 ⟨"ab", "PREFIX", "created_at; DROP TABLE orders", "Desc", 10, 20⟩
      = (⟨"\n        SELECT COUNT(*) as total\n        FROM orders o\n        JOIN products p ON o.product_id = p.product_id\n        WHERE o.user_id = ?\n     AND p.name LIKE ?",
          [Arg.int 7, Arg.str "%ab%"]⟩,
        ⟨"\n        SELECT o.order_id, o.product_id, o.shipped_status, o.created_at, o.arrived_at, p.name as product_name\n        FROM orders o\n        JOIN products p ON o.product_id = p.product_id\n        WHERE o.user_id = ?\n     AND p.name LIKE ? ORDER BY o.order_id DESC LIMIT ? OFFSET ?",
          [Arg.int 7, Arg.str "%ab%", Arg.int 10, Arg.int 20]⟩) ∧
    ListProducts String.toUpper String.toLower 7 ⟨"ab", "PREFIX", "value", "Desc", 10, 20⟩
      = (⟨"SELECT COUNT(*) FROM products WHERE (name LIKE ? OR description LIKE ?)",
          [Arg.str "ab%", Arg.str "ab%"]⟩,
        ⟨"\n\t\tSELECT product_id, name, value, weight, image, description\n\t\tFROM products\n\t WHERE (name LIKE ? OR description LIKE ?) ORDER BY value DESC, product_id ASC LIMIT ? OFFSET ?",
          [Arg.str "ab%", Arg.str "ab%", Arg.int 10, Arg.int 20]⟩) := by
  decide!

/-! ## Optimality of the planner over the integers -/

/-- Over the integers and with a rounding that is exact on every integer: for
candidates with non-negative weights and values and a capacity that is
positive, or is 0 while no zero-weight candidate has a positive value, a plan
returned without cancellation has `TotalValue` equal to the 0/1-knapsack
optimum over the candidates. -/
theorem integer_plan_value_optimal {rnd : ℚ → ℚ} (hr : Rounding rnd) (ctx : Context)
    (orders : List Order) (rid : String) (cap : Int)
    (hw : ∀ o ∈ orders, 0 ≤ o.weight) (hv : ∀ o ∈ orders, 0 ≤ o.value)
    (hcap : 0 < cap ∨ (cap = 0 ∧ ∀ o ∈ orders, o.weight = 0 → o.value = 0))
    (hnc : (selectOrdersForDelivery rnd ctx orders rid cap).2 = none) :
    (selectOrdersForDelivery rnd ctx orders rid cap).1.totalValue
      = knapsackOptimum orders cap := by
  have hcap0 : 0 ≤ cap := by rcases hcap with h | h <;> omega
  have hnil : sumW [] ≤ cap := by simpa [sumW] using hcap0
  have hopt0 : 0 ≤ knapsackOptimum orders cap :=
    knapsackOptimum_ge (List.nil_sublist orders) hnil
  by_cases htriv : cap ≤ 0 ∨ orders.length = 0
  · rw [select_trivial rnd ctx orders rid cap htriv]
    apply le_antisymm hopt0
    apply knapsackOptimum_le (le_refl 0)
    intro S hS hfit
    rcases hcap with hpos | ⟨_, hzero⟩
    · have hnil : orders = [] := by
        rcases htriv with h | h
        · omega
        · exact List.length_eq_zero.mp h
      subst hnil
      rw [List.sublist_nil.mp hS]
      simp [sumV]
    · apply sumV_nonpos
      intro o ho
      have hSw : ∀ b ∈ S, 0 ≤ b.weight := fun b hb => hw b (hS.subset hb)
      have h1 := weight_le_sumW hSw o ho
      have h2 := hSw o ho
      have := hzero o (hS.subset ho) (by omega)
      omega
  · have hpos : 0 < cap := by
      have : ¬ cap ≤ 0 := fun h => htriv (Or.inl h)
      omega
    obtain ⟨hdfs, hplan⟩ := select_searched rnd ctx orders rid cap htriv hnc
    rw [hplan]
    apply le_antisymm
    · obtain ⟨k1, k2, k3⟩ := search_good rnd ctx orders hcap0
      obtain ⟨S, hSp, hSs⟩ := List.exists_perm_sublist k3 (sortCandidates_perm orders)
      have hfit : sumW S ≤ cap := by rw [sumW_perm hSp]; exact k2
      have := knapsackOptimum_ge hSs hfit
      rw [sumV_perm hSp, ← k1] at this
      exact this
    · apply knapsackOptimum_le
      · simpa [sumV] using
          search_optimal hr ctx hpos hw hv hdfs (List.nil_sublist orders) hnil
      · intro S hS hfit
        exact search_optimal hr ctx hpos hw hv hdfs hS hfit

/-- Over the integers and with a rounding that is exact on every integer: no
sub-collection of the input that fits the capacity is worth more than the
plan of a search that finishes without cancellation, and the plan's orders
reach its value within the capacity. -/
theorem integer_plan_maximal {rnd : ℚ → ℚ} (hr : Rounding rnd) (ctx : Context)
    (orders : List Order) (rid : String) (cap : Int) (hcap : 1 ≤ cap) (hne : orders ≠ [])
    (hw : ∀ o ∈ orders, 0 ≤ o.weight) (hv : ∀ o ∈ orders, 0 ≤ o.value)
    (hnc : (selectOrdersForDelivery rnd ctx orders rid cap).2 = none) :
    (∀ S : List Order, S.Sublist orders → sumW S ≤ cap →
        sumV S ≤ (selectOrdersForDelivery rnd ctx orders rid cap).1.totalValue) ∧
      sumV (selectOrdersForDelivery rnd ctx orders rid cap).1.orders
        = (selectOrdersForDelivery rnd ctx orders rid cap).1.totalValue ∧
      sumW (selectOrdersForDelivery rnd ctx orders rid cap).1.orders ≤ cap ∧
      ∃ S : List Order, S.Sublist orders ∧
        S.Perm (selectOrdersForDelivery rnd ctx orders rid cap).1.orders := by
  have htriv : ¬ (cap ≤ 0 ∨ orders.length = 0) := by
    intro h
    rcases h with h | h
    · omega
    · exact hne (List.length_eq_zero.mp h)
  obtain ⟨g1, _, g3, g4⟩ := select_good rnd ctx orders rid cap
  obtain ⟨hdfs, hplan⟩ := select_searched rnd ctx orders rid cap htriv hnc
  refine ⟨?_, g1.symm, g3 (by omega), ?_⟩
  · intro S hS hfit
    rw [hplan]
    exact search_optimal hr ctx (by omega) hw hv hdfs hS hfit
  · obtain ⟨S, hSp, hSs⟩ := List.exists_perm_sublist g4 (sortCandidates_perm orders)
    exact ⟨S, hSs, hSp⟩

/-- Over the integers and with a rounding that is exact on every integer: a
plan of positive value returned without cancellation holds every zero-weight
candidate, as often as it occurs. -/
theorem integer_plan_takes_zero_weight {rnd : ℚ → ℚ} (hr : Rounding rnd) (ctx : Context)
    (orders : List Order) (rid : String) (cap : Int) (hcap : 0 < cap)
    (hw : ∀ o ∈ orders, 0 ≤ o.weight) (hv : ∀ o ∈ orders, 0 ≤ o.value)
    (hnc : (selectOrdersForDelivery rnd ctx orders rid cap).2 = none)
    (hpos : 0 < (selectOrdersForDelivery rnd ctx orders rid cap).1.totalValue) :
    ∀ o ∈ orders, o.weight = 0 →
      o ∈ (selectOrdersForDelivery rnd ctx orders rid cap).1.orders ∧
      (selectOrdersForDelivery rnd ctx orders rid cap).1.orders.count o = orders.count o := by
  have htriv : ¬ (cap ≤ 0 ∨ orders.length = 0) := by
    intro h
    rw [select_trivial rnd ctx orders rid cap h] at hpos
    simp at hpos
  obtain ⟨hdfs, hplan⟩ := select_searched rnd ctx orders rid cap htriv hnc
  obtain ⟨_, _, _, g4⟩ := select_good rnd ctx orders rid cap
  rw [hplan] at hpos g4 ⊢
  have hz := search_keeps_zeros hr ctx hcap hw hv hdfs hpos
  have hperm := sortCandidates_perm orders
  intro o ho ho0
  have hcount : ((dfs rnd ctx cap (sortCandidates orders) 0 0 []
      (seedState (sortCandidates orders) cap)).2.bestSet).count o = orders.count o := by
    apply le_antisymm
    · rw [← hperm.count_eq o]; exact g4.count_le o
    · have h1 := hz.count_le o
      have h2 : (zeros (sortCandidates orders)).count o = (sortCandidates orders).count o := by
        unfold zeros
        rw [List.count_filter (by simpa using ho0)]
      rw [h2, hperm.count_eq o] at h1
      exact h1
  refine ⟨?_, hcount⟩
  have : 0 < orders.count o := List.count_pos_iff.mpr ho
  exact List.count_pos_iff.mp (by simp only; omega)

/-! ## Machine arithmetic within its range -/

theorem wrap64_eq {x : Int} (h1 : -9223372036854775808 ≤ x) (h2 : x < 9223372036854775808) :
    wrap64 x = x := by
  unfold wrap64
  omega

theorem wrap64_range (x : Int) :
    -9223372036854775808 ≤ wrap64 x ∧ wrap64 x < 9223372036854775808 := by
  unfold wrap64
  omega

theorem less64_eq_less {a b : Order}
    (h1 : -9223372036854775808 ≤ a.value * b.weight ∧ a.value * b.weight < 9223372036854775808)
    (h2 : -9223372036854775808 ≤ b.value * a.weight ∧ b.value * a.weight < 9223372036854775808) :
    less64 a b = less a b := by
  unfold less64 less
  rw [wrap64_eq h1.1 h1.2, wrap64_eq h2.1 h2.2]

theorem orderedInsert_congr {r s : Order → Order → Prop} [DecidableRel r] [DecidableRel s]
    (a : Order) : ∀ l : List Order, (∀ b ∈ l, r a b ↔ s a b) →
      l.orderedInsert r a = l.orderedInsert s a := by
  intro l
  induction l with
  | nil => intro _; rfl
  | cons b l ih =>
    intro h
    rw [List.orderedInsert, List.orderedInsert]
    have hb := h b (List.mem_cons_self _ _)
    by_cases hr : r a b
    · rw [if_pos hr, if_pos (hb.mp hr)]
    · rw [if_neg hr, if_neg (fun hs => hr (hb.mpr hs)),
        ih (fun c hc => h c (List.mem_cons_of_mem _ hc))]

theorem insertionSort_congr {r s : Order → Order → Prop} [DecidableRel r] [DecidableRel s] :
    ∀ l : List Order, (∀ a ∈ l, ∀ b ∈ l, r a b ↔ s a b) →
      l.insertionSort r = l.insertionSort s := by
  intro l
  induction l with
  | nil => intro _; rfl
  | cons a l ih =>
    intro h
    rw [List.insertionSort, List.insertionSort,
      ih (fun b hb c hc => h b (List.mem_cons_of_mem _ hb) c (List.mem_cons_of_mem _ hc))]
    apply orderedInsert_congr
    intro b hb
    exact h a (List.mem_cons_self _ _) b
      (List.mem_cons_of_mem _ ((List.perm_insertionSort s l).mem_iff.mp hb))

/-- When no cross product leaves the 64-bit range, the machine sort is the
sort by the comparator over the integers. -/
theorem sortCandidates64_eq {orders : List Order}
    (hwv : ∀ o ∈ orders, 0 ≤ o.weight ∧ 0 ≤ o.value)
    (hprod : ∀ a ∈ orders, ∀ b ∈ orders, a.value * b.weight < 9223372036854775808) :
    sortCandidates64 orders = sortCandidates orders := by
  unfold sortCandidates64 sortCandidates
  apply insertionSort_congr
  intro a ha b hb
  unfold notAfter64 notAfter
  have h1 : 0 ≤ b.value * a.weight := Int.mul_nonneg (hwv b hb).2 (hwv a ha).1
  have h2 : 0 ≤ a.value * b.weight := Int.mul_nonneg (hwv a ha).2 (hwv b hb).1
  rw [less64_eq_less ⟨by omega, hprod b hb a ha⟩ ⟨by omega, hprod a ha b hb⟩]

theorem greedyLoop64_eq :
    ∀ (os : List Order) (rem val : Int) (sel : List Order),
      (∀ o ∈ os, 0 ≤ o.value) → 0 ≤ rem → rem < 9223372036854775808 →
      0 ≤ val → val + sumV os < 9223372036854775808 →
      greedyLoop64 os rem val sel = greedyLoop os rem val sel := by
  intro os
  induction os with
  | nil => intro rem val sel _ _ _ _ _; rfl
  | cons o os ih =>
    intro rem val sel hv h0 h1 h2 h3
    have hvo := hv o (List.mem_cons_self _ _)
    have hvs : ∀ b ∈ os, 0 ≤ b.value := fun b hb => hv b (List.mem_cons_of_mem _ hb)
    have hs := sumV_nonneg hvs
    rw [sumV_cons] at h3
    have hval : wrap64 (val + o.value) = val + o.value := wrap64_eq (by omega) (by omega)
    rw [greedyLoop64, greedyLoop, hval]
    split
    · exact ih _ _ _ hvs h0 h1 (by omega) (by omega)
    · split
      · rw [wrap64_eq (by omega) (by omega)]
        exact ih _ _ _ hvs (by omega) (by omega) (by omega) (by omega)
      · exact ih _ _ _ hvs h0 h1 h2 (by omega)

theorem greedySeedPlan64_eq {os : List Order} {cap : Int} (hv : ∀ o ∈ os, 0 ≤ o.value)
    (h0 : 0 ≤ cap) (h1 : cap < 9223372036854775808) (h2 : sumV os < 9223372036854775808) :
    greedySeedPlan64 os cap = greedySeedPlan os cap := by
  unfold greedySeedPlan64 greedySeedPlan
  exact greedyLoop64_eq os cap 0 [] hv h0 h1 (le_refl 0) (by omega)

theorem exactBeyond_rounding {rnd : ℚ → ℚ} (hr : Float64Like rnd) :
    Rounding (exactBeyond rnd) := by
  have hB : rnd 9007199254740992 = 9007199254740992 := by
    have := hr.exact 9007199254740992 (by norm_num) (by norm_num)
    simpa using this
  have hB2 : rnd (-9007199254740992) = -9007199254740992 := by
    have := hr.exact (-9007199254740992) (by norm_num) (by norm_num)
    simpa using this
  constructor
  · intro x y hxy
    unfold exactBeyond
    by_cases hx : -9007199254740992 ≤ x ∧ x ≤ 9007199254740992
    · by_cases hy : -9007199254740992 ≤ y ∧ y ≤ 9007199254740992
      · rw [if_pos hx, if_pos hy]
        exact hr.mono x y hxy
      · rw [if_pos hx, if_neg hy]
        have hy2 : 9007199254740992 < y := by
          by_contra hcon
          exact hy ⟨by linarith [hx.1], by linarith⟩
        have := hr.mono x _ hx.2
        linarith
    · by_cases hy : -9007199254740992 ≤ y ∧ y ≤ 9007199254740992
      · rw [if_neg hx, if_pos hy]
        have hx2 : x < -9007199254740992 := by
          by_contra hcon
          exact hx ⟨by linarith, by linarith [hy.2]⟩
        have := hr.mono _ y hy.1
        linarith
      · rw [if_neg hx, if_neg hy]
        exact hxy
  · intro n
    unfold exactBeyond
    split
    · rename_i h
      apply hr.exact
      · have := h.1
        exact_mod_cast this
      · have := h.2
        exact_mod_cast this
    · rfl

theorem exactBeyond_eq (rnd : ℚ → ℚ) {x : ℚ} (h0 : 0 ≤ x) (h1 : x ≤ 9007199254740992) :
    exactBeyond rnd x = rnd x := by
  unfold exactBeyond
  rw [if_pos ⟨by linarith, h1⟩]

theorem float64Like_int {rnd : ℚ → ℚ} (hr : Float64Like rnd) {n : Int} (h0 : 0 ≤ n)
    (h1 : n ≤ 9007199254740992) : rnd (n : ℚ) = (n : ℚ) :=
  hr.exact n (by omega) h1

/-- The bound of the loop lies between its accumulator and the accumulator
plus the summed value of the orders scanned, for an exact monotone rounding. -/
theorem boundLoop_range {rnd : ℚ → ℚ} (hr : Rounding rnd) :
    ∀ (rest : List Order) (remaining I : Int),
      (∀ o ∈ rest, 0 ≤ o.weight ∧ 0 ≤ o.value) →
      (I : ℚ) ≤ boundLoop rnd rest remaining (I : ℚ) ∧
        boundLoop rnd rest remaining (I : ℚ) ≤ ((I + sumV rest : Int) : ℚ) := by
  intro rest
  induction rest with
  | nil =>
    intro r I _
    simp [boundLoop, sumV]
  | cons o rest ih =>
    intro r I h
    have ho := h o (List.mem_cons_self _ _)
    have hrest : ∀ b ∈ rest, 0 ≤ b.weight ∧ 0 ≤ b.value :=
      fun b hb => h b (List.mem_cons_of_mem _ hb)
    have hsum := sumV_nonneg (fun b hb => (hrest b hb).2)
    have hacc : rnd ((I : ℚ) + rnd (o.value : ℚ)) = ((I + o.value : Int) : ℚ) := by
      rw [hr.exact, ← Int.cast_add, hr.exact]
    have hov : (0 : ℚ) ≤ (o.value : ℚ) := by exact_mod_cast ho.2
    have hsumq : (0 : ℚ) ≤ (sumV rest : ℚ) := by exact_mod_cast hsum
    rw [boundLoop, sumV_cons]
    split
    · rename_i hrem
      split
      · rw [hacc]
        obtain ⟨k1, k2⟩ := ih r (I + o.value) hrest
        refine ⟨le_trans ?_ k1, le_trans k2 ?_⟩
        · push_cast; linarith
        · push_cast; linarith
      · rename_i h0
        split
        · rw [hacc]
          obtain ⟨k1, k2⟩ := ih (r - o.weight) (I + o.value) hrest
          refine ⟨le_trans ?_ k1, le_trans k2 ?_⟩
          · push_cast; linarith
          · push_cast; linarith
        · rename_i h1
          have hw : (0 : ℚ) < (o.weight : ℚ) := by
            have : 0 < o.weight := by omega
            exact_mod_cast this
          have hrq : (0 : ℚ) ≤ (r : ℚ) := by exact_mod_cast hrem
          have hrw : (r : ℚ) ≤ (o.weight : ℚ) := by
            have : r ≤ o.weight := by omega
            exact_mod_cast this
          have hprod : rnd (rnd (o.value : ℚ) * rnd (r : ℚ)) = (o.value : ℚ) * r := by
            rw [hr.exact, hr.exact, ← Int.cast_mul, hr.exact]
          rw [hprod, hr.exact o.weight]
          have hx0 : (0 : ℚ) ≤ (o.value : ℚ) * r / o.weight :=
            div_nonneg (mul_nonneg hov hrq) (le_of_lt hw)
          have hx1 : (o.value : ℚ) * r / o.weight ≤ (o.value : ℚ) := by
            rw [div_le_iff₀ hw]
            exact mul_le_mul_of_nonneg_left hrw hov
          have hf0 := hr.mono _ _ hx0
          have hf1 := hr.mono _ _ hx1
          rw [show rnd (0 : ℚ) = 0 from by simpa using hr.exact 0] at hf0
          rw [hr.exact] at hf1
          constructor
          · have := hr.mono (I : ℚ) ((I : ℚ) + rnd ((o.value : ℚ) * r / o.weight)) (by linarith)
            rwa [hr.exact] at this
          · have := hr.mono ((I : ℚ) + rnd ((o.value : ℚ) * r / o.weight))
              ((I + o.value : Int) : ℚ) (by push_cast; linarith)
            rw [hr.exact] at this
            refine le_trans this ?_
            push_cast; linarith
    · constructor
      · exact le_refl _
      · push_cast; linarith

theorem fractionalBound_range {rnd : ℚ → ℚ} (hr : Rounding rnd) (cap cw : Int)
    (rest : List Order) (h : ∀ o ∈ rest, 0 ≤ o.weight ∧ 0 ≤ o.value) :
    0 ≤ fractionalBound rnd cap rest cw ∧
      fractionalBound rnd cap rest cw ≤ (sumV rest : ℚ) := by
  unfold fractionalBound
  split
  · have := sumV_nonneg (fun b hb => (h b hb).2)
    exact ⟨le_refl 0, by exact_mod_cast this⟩
  · have := boundLoop_range hr rest (cap - cw) 0 h
    simpa using this

/-- Within the range of exact machine arithmetic the loop of the bound
computes what it computes over the integers. -/
theorem boundLoop64_eq {rnd : ℚ → ℚ} (hr : Float64Like rnd) {cap : Int}
    (hcap : cap ≤ 9007199254740992) :
    ∀ (rest : List Order) (remaining I : Int),
      (∀ o ∈ rest, 0 ≤ o.weight ∧ o.weight ≤ 9007199254740992 ∧ 0 ≤ o.value ∧
        o.value * cap ≤ 9007199254740992) →
      0 ≤ remaining → remaining ≤ cap → 0 ≤ I → I + sumV rest ≤ 9007199254740992 →
      boundLoop64 rnd rest remaining (I : ℚ)
        = boundLoop (exactBeyond rnd) rest remaining (I : ℚ) := by
  have hR := exactBeyond_rounding hr
  intro rest
  induction rest with
  | nil => intro r I _ _ _ _ _; rfl
  | cons o rest ih =>
    intro r I h hr0 hr1 hI hsum
    obtain ⟨hw0, hw1, hv0, hvc⟩ := h o (List.mem_cons_self _ _)
    have hrest : ∀ b ∈ rest, 0 ≤ b.weight ∧ b.weight ≤ 9007199254740992 ∧ 0 ≤ b.value ∧
        b.value * cap ≤ 9007199254740992 := fun b hb => h b (List.mem_cons_of_mem _ hb)
    have hs := sumV_nonneg (fun b hb => (hrest b hb).2.2.1)
    rw [sumV_cons] at hsum
    have hacc : rnd ((I : ℚ) + rnd (o.value : ℚ)) = ((I + o.value : Int) : ℚ) := by
      rw [float64Like_int hr hv0 (by omega), ← Int.cast_add,
        float64Like_int hr (by omega) (by omega)]
    have hacc2 : exactBeyond rnd ((I : ℚ) + exactBeyond rnd (o.value : ℚ))
        = ((I + o.value : Int) : ℚ) := by
      rw [hR.exact, ← Int.cast_add, hR.exact]
    rw [boundLoop64, boundLoop, hacc, hacc2, if_pos hr0, if_pos hr0]
    split
    · exact ih r _ hrest hr0 hr1 (by omega) (by omega)
    · rename_i h0
      split
      · rename_i h1
        rw [wrap64_eq (by omega) (by omega)]
        exact ih _ _ hrest (by omega) (by omega) (by omega) (by omega)
      · rename_i h1
        have hvr : 0 ≤ o.value * r ∧ o.value * r ≤ 9007199254740992 := by
          constructor
          · exact Int.mul_nonneg hv0 hr0
          · exact le_trans (Int.mul_le_mul_of_nonneg_left hr1 hv0) hvc
        have hprod : rnd (rnd (o.value : ℚ) * rnd (r : ℚ)) = ((o.value * r : Int) : ℚ) := by
          rw [float64Like_int hr hv0 (by omega), float64Like_int hr hr0 (by omega),
            ← Int.cast_mul, float64Like_int hr hvr.1 hvr.2]
        have hprod2 : exactBeyond rnd (exactBeyond rnd (o.value : ℚ) * exactBeyond rnd (r : ℚ))
            = ((o.value * r : Int) : ℚ) := by
          rw [hR.exact, hR.exact, ← Int.cast_mul, hR.exact]
        rw [hprod, hprod2, float64Like_int hr hw0 hw1, hR.exact o.weight]
        have hw : (0 : ℚ) < (o.weight : ℚ) := by
          have : 0 < o.weight := by omega
          exact_mod_cast this
        have hw1q : (1 : ℚ) ≤ (o.weight : ℚ) := by
          have : 1 ≤ o.weight := by omega
          exact_mod_cast this
        have hvrq0 : (0 : ℚ) ≤ ((o.value * r : Int) : ℚ) := by exact_mod_cast hvr.1
        have hvrq1 : ((o.value * r : Int) : ℚ) ≤ 9007199254740992 := by exact_mod_cast hvr.2
        have hx0 : (0 : ℚ) ≤ ((o.value * r : Int) : ℚ) / o.weight :=
          div_nonneg hvrq0 (le_of_lt hw)
        have hx1 : ((o.value * r : Int) : ℚ) / o.weight ≤ 9007199254740992 := by
          rw [div_le_iff₀ hw]
          nlinarith
        have hx2 : ((o.value * r : Int) : ℚ) / o.weight ≤ (o.value : ℚ) := by
          rw [div_le_iff₀ hw]
          have hrw : (r : ℚ) ≤ (o.weight : ℚ) := by
            have : r ≤ o.weight := by omega
            exact_mod_cast this
          have hov : (0 : ℚ) ≤ (o.value : ℚ) := by exact_mod_cast hv0
          push_cast
          exact mul_le_mul_of_nonneg_left hrw hov
        rw [exactBeyond_eq rnd hx0 hx1]
        have hf0 := hr.mono _ _ hx0
        have hf1 := hr.mono _ _ hx2
        rw [show rnd (0 : ℚ) = 0 from by simpa using hr.exact 0 (by norm_num) (by norm_num)]
          at hf0
        rw [float64Like_int hr hv0 (by omega)] at hf1
        have hIq : (0 : ℚ) ≤ (I : ℚ) := by exact_mod_cast hI
        have hIv : (I : ℚ) + (o.value : ℚ) ≤ 9007199254740992 := by
          have : I + o.value ≤ 9007199254740992 := by omega
          exact_mod_cast this
        rw [exactBeyond_eq rnd (by linarith) (by linarith)]

theorem fractionalBound64_eq {rnd : ℚ → ℚ} (hr : Float64Like rnd) {cap cw : Int}
    {rest : List Order} (hcap : cap ≤ 9007199254740992) (hcw : 0 ≤ cw)
    (h : ∀ o ∈ rest, 0 ≤ o.weight ∧ o.weight ≤ 9007199254740992 ∧ 0 ≤ o.value ∧
      o.value * cap ≤ 9007199254740992)
    (hsum : sumV rest ≤ 9007199254740992) :
    fractionalBound64 rnd cap rest cw = fractionalBound (exactBeyond rnd) cap rest cw := by
  unfold fractionalBound64 fractionalBound
  split
  · rfl
  · rw [wrap64_eq (by omega) (by omega)]
    have := boundLoop64_eq hr hcap rest (cap - cw) 0 h (by omega) (by omega) (le_refl 0)
      (by omega)
    simpa using this

/-! ## Unfolding the machine search -/

theorem dfs64_nil (rnd : ℚ → ℚ) (ctx : Context) (cap cw cv : Int) (cs : List Order)
    (s : Search) :
    dfs64 rnd ctx cap [] cw cv cs s =
      if cw > cap then (false, s)
      else if checkEvery > 0 ∧ (s.steps + 1) % checkEvery = 0 ∧ ctx.done (s.steps + 1) = true then
        (true, { s with steps := s.steps + 1 })
      else if rnd (rnd cv + fractionalBound64 rnd cap [] cw) ≤ rnd s.bestValue then
        (false, { s with steps := s.steps + 1 })
      else (false, record cv cs { s with steps := s.steps + 1 }) := by
  unfold dfs64
  rfl

theorem dfs64_cons (rnd : ℚ → ℚ) (ctx : Context) (cap cw cv : Int) (cs : List Order)
    (s : Search) (o : Order) (rest : List Order) :
    dfs64 rnd ctx cap (o :: rest) cw cv cs s =
      if cw > cap then (false, s)
      else if checkEvery > 0 ∧ (s.steps + 1) % checkEvery = 0 ∧ ctx.done (s.steps + 1) = true then
        (true, { s with steps := s.steps + 1 })
      else if rnd (rnd cv + fractionalBound64 rnd cap (o :: rest) cw) ≤ rnd s.bestValue then
        (false, { s with steps := s.steps + 1 })
      else
        if (dfs64 rnd ctx cap rest (wrap64 (cw + o.weight)) (wrap64 (cv + o.value)) (cs ++ [o])
            (record cv cs { s with steps := s.steps + 1 })).1 = true then
          (true, (dfs64 rnd ctx cap rest (wrap64 (cw + o.weight)) (wrap64 (cv + o.value))
            (cs ++ [o]) (record cv cs { s with steps := s.steps + 1 })).2)
        else dfs64 rnd ctx cap rest cw cv cs
          (dfs64 rnd ctx cap rest (wrap64 (cw + o.weight)) (wrap64 (cv + o.value)) (cs ++ [o])
            (record cv cs { s with steps := s.steps + 1 })).2 := by
  conv_lhs => unfold dfs64
  rfl

theorem select64_eq (rnd : ℚ → ℚ) (ctx : Context) (orders : List Order) (rid : String)
    (cap : Int) :
    selectOrdersForDelivery64 rnd ctx orders rid cap =
      if cap ≤ 0 ∨ orders.length = 0 then
        ({ robotID := rid, totalWeight := 0, totalValue := 0, orders := [] }, none)
      else if (dfs64 rnd ctx cap (sortCandidates64 orders) 0 0 []
          (seedState64 (sortCandidates64 orders) cap)).1 = true then
        (emptyPlan, some ctx.err)
      else
        ({ robotID := rid
           totalWeight := (dfs64 rnd ctx cap (sortCandidates64 orders) 0 0 []
             (seedState64 (sortCandidates64 orders) cap)).2.bestSet.foldl
               (fun acc o => wrap64 (acc + o.weight)) 0
           totalValue := (dfs64 rnd ctx cap (sortCandidates64 orders) 0 0 []
             (seedState64 (sortCandidates64 orders) cap)).2.bestValue
           orders := (dfs64 rnd ctx cap (sortCandidates64 orders) 0 0 []
             (seedState64 (sortCandidates64 orders) cap)).2.bestSet }, none) := by
  unfold selectOrdersForDelivery64
  rfl

/-! ## The machine search within its range is the search over the integers -/

/-- The pruning test of the machine search is the test over the integers when
the sums involved are at most `2^53`. -/
theorem prune64_iff {rnd : ℚ → ℚ} (hr : Float64Like rnd) {cv best : Int} {fb : ℚ}
    (hcv : 0 ≤ cv) (hbest0 : 0 ≤ best) (hbest : best ≤ 9007199254740992)
    (hfb : 0 ≤ fb) (hsum : (cv : ℚ) + fb ≤ 9007199254740992) :
    (rnd (rnd (cv : ℚ) + fb) ≤ rnd (best : ℚ)) ↔
      (exactBeyond rnd (exactBeyond rnd (cv : ℚ) + fb) ≤ exactBeyond rnd (best : ℚ)) := by
  have hR := exactBeyond_rounding hr
  have hcvq : (0 : ℚ) ≤ (cv : ℚ) := by exact_mod_cast hcv
  have hcv1 : cv ≤ 9007199254740992 := by
    have : (cv : ℚ) ≤ 9007199254740992 := by linarith
    exact_mod_cast this
  rw [hR.exact cv, hR.exact best, float64Like_int hr hcv hcv1,
    float64Like_int hr hbest0 hbest, exactBeyond_eq rnd (by linarith) hsum]

theorem dfs64_eq {rnd : ℚ → ℚ} (hr : Float64Like rnd) (ctx : Context) {cap : Int}
    {all : List Order} (hwv : ∀ o ∈ all, 0 ≤ o.weight ∧ 0 ≤ o.value)
    (hrange : WithinRange all cap) :
    ∀ (rest : List Order) (cw cv : Int) (cs : List Order) (s : Search),
      Good cap all s → (cs ++ rest).Sublist all → cw = sumW cs → cv = sumV cs →
      dfs64 rnd ctx cap rest cw cv cs s = dfs (exactBeyond rnd) ctx cap rest cw cv cs s := by
  have hR := exactBeyond_rounding hr
  obtain ⟨hcap, hsumV, hwmax, hvcap, _⟩ := hrange
  have hv : ∀ o ∈ all, 0 ≤ o.value := fun o ho => (hwv o ho).2
  -- facts available at every node
  have node : ∀ (rest : List Order) (cw cv : Int) (cs : List Order) (s : Search),
      Good cap all s → (cs ++ rest).Sublist all → cw = sumW cs → cv = sumV cs →
      fractionalBound64 rnd cap rest cw = fractionalBound (exactBeyond rnd) cap rest cw ∧
      ((rnd (rnd (cv : ℚ) + fractionalBound (exactBeyond rnd) cap rest cw)
          ≤ rnd (s.bestValue : ℚ)) ↔
        (exactBeyond rnd (exactBeyond rnd (cv : ℚ)
          + fractionalBound (exactBeyond rnd) cap rest cw) ≤ exactBeyond rnd (s.bestValue : ℚ))) ∧
      0 ≤ cw ∧ 0 ≤ cv ∧ cv + sumV rest ≤ 9007199254740992 := by
    intro rest cw cv cs s hs hsub hw hvv
    have hrestmem : ∀ o ∈ rest, o ∈ all := fun o ho => hsub.subset (List.mem_append_right _ ho)
    have hcsmem : ∀ o ∈ cs, o ∈ all := fun o ho => hsub.subset (List.mem_append_left _ ho)
    have hcw0 : 0 ≤ cw := by rw [hw]; exact sumW_nonneg (fun o ho => (hwv o (hcsmem o ho)).1)
    have hcv0 : 0 ≤ cv := by rw [hvv]; exact sumV_nonneg (fun o ho => (hwv o (hcsmem o ho)).2)
    have hrest0 := sumV_nonneg (fun o ho => (hwv o (hrestmem o ho)).2)
    have htot : cv + sumV rest ≤ 9007199254740992 := by
      have := sumV_sublist_le hv hsub
      rw [sumV_append] at this
      omega
    have hfbrange := fractionalBound_range hR cap cw rest (fun o ho => hwv o (hrestmem o ho))
    have hbest0 : 0 ≤ s.bestValue := by
      rw [hs.1]; exact sumV_nonneg (fun o ho => (hwv o (hs.2.2.subset ho)).2)
    have hbest1 : s.bestValue ≤ 9007199254740992 := by
      rw [hs.1]; exact le_trans (sumV_sublist_le hv hs.2.2) hsumV
    refine ⟨?_, ?_, hcw0, hcv0, htot⟩
    · exact fractionalBound64_eq hr hcap hcw0
        (fun o ho => ⟨(hwv o (hrestmem o ho)).1, hwmax o (hrestmem o ho),
          (hwv o (hrestmem o ho)).2, hvcap o (hrestmem o ho)⟩) (by omega)
    · apply prune64_iff hr hcv0 hbest0 hbest1 hfbrange.1
      have h1 : ((cv + sumV rest : Int) : ℚ) ≤ 9007199254740992 := by exact_mod_cast htot
      push_cast at h1
      linarith [hfbrange.2]
  intro rest
  induction rest with
  | nil =>
    intro cw cv cs s hs hsub hw hvv
    obtain ⟨n1, n2, _, _, _⟩ := node [] cw cv cs s hs hsub hw hvv
    rw [dfs64_nil, dfs_nil, n1]
    simp only [n2]
  | cons o rest ih =>
    intro cw cv cs s hs hsub hw hvv
    obtain ⟨n1, n2, hcw0, hcv0, htot⟩ := node (o :: rest) cw cv cs s hs hsub hw hvv
    rw [dfs64_cons, dfs_cons, n1]
    simp only [n2]
    split
    · rfl
    · rename_i hcw
      split
      · rfl
      · split
        · rfl
        · have ho : o ∈ all := hsub.subset (by simp)
          have hcs : cs.Sublist all := (List.sublist_append_left cs (o :: rest)).trans hsub
          have hrest0 := sumV_nonneg (fun b hb =>
            (hwv b (hsub.subset (List.mem_append_right _ (List.mem_cons_of_mem _ hb)))).2)
          rw [sumV_cons] at htot
          have hwo := hwv o ho
          have hwm := hwmax o ho
          have e1 : wrap64 (cw + o.weight) = cw + o.weight := wrap64_eq (by omega) (by omega)
          have e2 : wrap64 (cv + o.value) = cv + o.value := wrap64_eq (by omega) (by omega)
          rw [e1, e2]
          have h2 : Good cap all (record cv cs { s with steps := s.steps + 1 }) :=
            good_record (good_steps _ hs) hvv (by omega) hcs
          have hsub1 : (cs ++ [o] ++ rest).Sublist all := by simpa using hsub
          have hin := ih (cw + o.weight) (cv + o.value) (cs ++ [o])
            (record cv cs { s with steps := s.steps + 1 }) h2 hsub1
            (by rw [sumW_append, hw]; simp [sumW]) (by rw [sumV_append, hvv]; simp [sumV])
          rw [hin]
          have hg := dfs_good (exactBeyond rnd) ctx cap all rest (cw + o.weight)
            (cv + o.value) (cs ++ [o]) (record cv cs { s with steps := s.steps + 1 })
            h2 hsub1 (by rw [sumW_append, hw]; simp [sumW])
            (by rw [sumV_append, hvv]; simp [sumV])
          rw [ih cw cv cs _ hg
            ((List.Sublist.append_left (List.sublist_cons_self o rest) cs).trans hsub) hw hvv]

theorem foldl_wrap64_eq :
    ∀ (l : List Order) (a : Int), (∀ o ∈ l, 0 ≤ o.weight) → 0 ≤ a →
      a + sumW l < 9223372036854775808 →
      l.foldl (fun acc o => wrap64 (acc + o.weight)) a = a + sumW l := by
  intro l
  induction l with
  | nil => intro a _ _ _; simp [sumW]
  | cons b l ih =>
    intro a h h0 h1
    have hb := h b (List.mem_cons_self _ _)
    have hl := sumW_nonneg (fun o ho => h o (List.mem_cons_of_mem _ ho))
    rw [sumW_cons] at h1
    rw [List.foldl_cons, wrap64_eq (by omega) (by omega),
      ih _ (fun o ho => h o (List.mem_cons_of_mem _ ho)) (by omega) (by omega), sumW_cons]
    ring

theorem withinRange_perm {l m : List Order} {cap : Int} (h : l.Perm m)
    (hr : WithinRange l cap) : WithinRange m cap := by
  obtain ⟨h1, h2, h3, h4, h5⟩ := hr
  refine ⟨h1, by rw [← sumV_perm h]; exact h2, fun o ho => h3 o (h.mem_iff.mpr ho),
    fun o ho => h4 o (h.mem_iff.mpr ho),
    fun a ha b hb => h5 a (h.mem_iff.mpr ha) b (h.mem_iff.mpr hb)⟩

/-- Within the range of exact machine arithmetic, the search that the machine
planner runs is the search over the integers with a rounding that is exact on
every integer. -/
theorem search64_eq_ideal {rnd : ℚ → ℚ} (hr : Float64Like rnd) (ctx : Context)
    (orders : List Order) {cap : Int} (hcap : 0 < cap)
    (hwv : ∀ o ∈ orders, 0 ≤ o.weight ∧ 0 ≤ o.value) (hrange : WithinRange orders cap) :
    dfs64 rnd ctx cap (sortCandidates64 orders) 0 0 []
        (seedState64 (sortCandidates64 orders) cap)
      = dfs (exactBeyond rnd) ctx cap (sortCandidates orders) 0 0 []
        (seedState (sortCandidates orders) cap) := by
  have hsort : sortCandidates64 orders = sortCandidates orders :=
    sortCandidates64_eq hwv hrange.2.2.2.2
  have hperm := sortCandidates_perm orders
  have hwv2 : ∀ o ∈ sortCandidates orders, 0 ≤ o.weight ∧ 0 ≤ o.value :=
    fun o ho => hwv o (hperm.mem_iff.mp ho)
  have hrange2 : WithinRange (sortCandidates orders) cap := withinRange_perm hperm.symm hrange
  have hseed : seedState64 (sortCandidates orders) cap = seedState (sortCandidates orders) cap := by
    unfold seedState64 seedState
    rw [greedySeedPlan64_eq (fun o ho => (hwv2 o ho).2) (by omega)
      (by have := hrange.1; omega) (by have := hrange2.2.1; omega)]
  rw [hsort, hseed]
  exact dfs64_eq hr ctx hwv2 hrange2 (sortCandidates orders) 0 0 []
    (seedState (sortCandidates orders) cap) (seedState_good _ (le_of_lt hcap)) (by simp)
    (by simp [sumW]) (by simp [sumV])

/-- Within the range of exact machine arithmetic, the planner in machine
arithmetic returns what the planner over the integers returns with a rounding
that is exact on every integer. -/
theorem select64_eq_ideal {rnd : ℚ → ℚ} (hr : Float64Like rnd) (ctx : Context)
    (orders : List Order) (rid : String) (cap : Int)
    (hwv : ∀ o ∈ orders, 0 ≤ o.weight ∧ 0 ≤ o.value) (hrange : WithinRange orders cap) :
    selectOrdersForDelivery64 rnd ctx orders rid cap
      = selectOrdersForDelivery (exactBeyond rnd) ctx orders rid cap := by
  rw [select64_eq, select_eq]
  by_cases htriv : cap ≤ 0 ∨ orders.length = 0
  · rw [if_pos htriv, if_pos htriv]
  · rw [if_neg htriv, if_neg htriv]
    have hcap : 0 < cap := by
      have : ¬ cap ≤ 0 := fun h => htriv (Or.inl h)
      omega
    rw [search64_eq_ideal hr ctx orders hcap hwv hrange]
    obtain ⟨_, k2, k3⟩ := search_good (exactBeyond rnd) ctx orders (le_of_lt hcap)
    have hperm := sortCandidates_perm orders
    have hfold := foldl_wrap64_eq _ 0
      (fun o ho => (hwv o (hperm.mem_iff.mp (k3.subset ho))).1) (le_refl 0)
      (by have := hrange.1; omega)
    rw [hfold, zero_add]

theorem float64Like_id : Float64Like id := ⟨fun _ _ h => h, fun _ _ _ => rfl⟩

theorem exactBeyond_id : exactBeyond id = id := by
  funext x
  unfold exactBeyond
  split <;> rfl

/-! ## The rounding of `float64` -/

theorem log2Loop_spec : ∀ (fuel n : Nat), n ≤ fuel → n ≠ 0 →
    2 ^ log2Loop fuel n ≤ n ∧ n < 2 ^ (log2Loop fuel n + 1) := by
  intro fuel
  induction fuel with
  | zero => intro n h h0; omega
  | succ fuel ih =>
    intro n h h0
    rw [log2Loop]
    split
    · rename_i h2
      obtain ⟨k1, k2⟩ := ih (n / 2) (by omega) (by omega)
      rw [pow_succ] at k2 ⊢
      rw [pow_succ, pow_succ]
      constructor <;> omega
    · simp
      omega

theorem natLog2_spec {n : Nat} (h : n ≠ 0) :
    2 ^ natLog2 n ≤ n ∧ n < 2 ^ (natLog2 n + 1) :=
  log2Loop_spec n n (le_refl n) h

theorem ilog2_spec {x : ℚ} (hx : x ≠ 0) :
    (2 : ℚ) ^ ilog2 x ≤ |x| ∧ |x| < (2 : ℚ) ^ (ilog2 x + 1) := by
  have hnum : x.num.natAbs ≠ 0 := by
    simpa using hx
  have hden : x.den ≠ 0 := x.den_nz
  obtain ⟨a1, a2⟩ := natLog2_spec hnum
  obtain ⟨b1, b2⟩ := natLog2_spec hden
  have habs : |x| = (x.num.natAbs : ℚ) / (x.den : ℚ) := by
    rw [Rat.abs_def, Rat.divInt_eq_div]
    push_cast
    rw [Nat.cast_natAbs, Int.cast_abs]
  have hD : (0 : ℚ) < (x.den : ℚ) := by exact_mod_cast x.den_pos
  have two : (2 : ℚ) ≠ 0 := by norm_num
  have a1q : (2 : ℚ) ^ natLog2 x.num.natAbs ≤ (x.num.natAbs : ℚ) := by exact_mod_cast a1
  have a2q : (x.num.natAbs : ℚ) < (2 : ℚ) ^ (natLog2 x.num.natAbs + 1) := by exact_mod_cast a2
  have b1q : (2 : ℚ) ^ natLog2 x.den ≤ (x.den : ℚ) := by exact_mod_cast b1
  have b2q : (x.den : ℚ) < (2 : ℚ) ^ (natLog2 x.den + 1) := by exact_mod_cast b2
  have pa : (0 : ℚ) < (2 : ℚ) ^ natLog2 x.num.natAbs := by positivity
  have pb : (0 : ℚ) < (2 : ℚ) ^ natLog2 x.den := by positivity
  have hk : (2 : ℚ) ^ ((natLog2 x.num.natAbs : Int) - (natLog2 x.den : Int))
      = (2 : ℚ) ^ natLog2 x.num.natAbs / (2 : ℚ) ^ natLog2 x.den := by
    rw [zpow_sub₀ two, zpow_natCast, zpow_natCast]
  unfold ilog2
  split
  · rename_i h
    refine ⟨h, ?_⟩
    rw [zpow_add_one₀ two, hk, habs, div_lt_iff₀ hD]
    rw [pow_succ] at a2q
    have : (2 : ℚ) ^ natLog2 x.num.natAbs / 2 ^ natLog2 x.den * 2 * (x.den : ℚ)
        = (2 : ℚ) ^ natLog2 x.num.natAbs * 2 * ((x.den : ℚ) / 2 ^ natLog2 x.den) := by
      field_simp
    rw [this]
    have h1 : (1 : ℚ) ≤ (x.den : ℚ) / 2 ^ natLog2 x.den := by
      rw [le_div_iff₀ pb]; linarith
    nlinarith
  · rename_i h
    have h := lt_of_not_le h
    constructor
    · have e : (2 : ℚ) ^ ((natLog2 x.num.natAbs : Int) - (natLog2 x.den : Int) - 1)
          = (2 : ℚ) ^ natLog2 x.num.natAbs / (2 : ℚ) ^ (natLog2 x.den + 1) := by
        rw [zpow_sub₀ two, hk, zpow_one, pow_succ]
        field_simp
      rw [e, habs, div_le_div_iff₀ (by positivity) hD]
      have : (0 : ℚ) ≤ (x.num.natAbs : ℚ) := by positivity
      nlinarith
    · rw [sub_add_cancel]
      exact h

theorem ilog2_mono {x y : ℚ} (hx : x ≠ 0) (hy : y ≠ 0) (h : |x| ≤ |y|) :
    ilog2 x ≤ ilog2 y := by
  by_contra hcon
  have hlt : ilog2 y + 1 ≤ ilog2 x := by omega
  have h1 := (ilog2_spec hx).1
  have h2 := (ilog2_spec hy).2
  have h3 : (2 : ℚ) ^ (ilog2 y + 1) ≤ (2 : ℚ) ^ ilog2 x :=
    zpow_le_zpow_right₀ (by norm_num) hlt
  linarith

theorem roundHalfEven_intCast (n : Int) : roundHalfEven (n : ℚ) = n := by
  unfold roundHalfEven
  rw [Int.floor_intCast]
  simp

theorem roundHalfEven_floor (q : ℚ) :
    ⌊q⌋ ≤ roundHalfEven q ∧ roundHalfEven q ≤ ⌊q⌋ + 1 := by
  unfold roundHalfEven
  split_ifs <;> constructor <;> omega

theorem roundHalfEven_mono {p q : ℚ} (h : p ≤ q) : roundHalfEven p ≤ roundHalfEven q := by
  have hfl : ⌊p⌋ ≤ ⌊q⌋ := Int.floor_mono h
  rcases lt_or_eq_of_le hfl with hlt | heq
  · have h1 := (roundHalfEven_floor p).2
    have h2 := (roundHalfEven_floor q).1
    omega
  · unfold roundHalfEven
    rw [heq]
    have hpq : p - (⌊q⌋ : ℚ) ≤ q - (⌊q⌋ : ℚ) := by linarith
    split_ifs <;> first | omega | (exfalso; linarith)

theorem le_roundHalfEven {a : Int} {q : ℚ} (h : (a : ℚ) ≤ q) : a ≤ roundHalfEven q := by
  have := roundHalfEven_mono h
  rwa [roundHalfEven_intCast] at this

theorem roundHalfEven_le {b : Int} {q : ℚ} (h : q ≤ (b : ℚ)) : roundHalfEven q ≤ b := by
  have := roundHalfEven_mono h
  rwa [roundHalfEven_intCast] at this

theorem float64_zero : float64 0 = 0 := by
  unfold float64
  rw [if_pos rfl]

theorem float64_of_ne {x : ℚ} (hx : x ≠ 0) :
    float64 x = (roundHalfEven (x / (2 : ℚ) ^ (ilog2 x - 52)) : ℚ) * (2 : ℚ) ^ (ilog2 x - 52) := by
  unfold float64
  rw [if_neg hx]

theorem two_zpow_52 (l : Int) : (2 : ℚ) ^ l = 4503599627370496 * (2 : ℚ) ^ (l - 52) := by
  rw [zpow_sub₀ (by norm_num : (2 : ℚ) ≠ 0)]
  norm_num
  field_simp

/-- A positive number and its `float64` lie in the same closed binade. -/
theorem float64_pos_range {x : ℚ} (hx : 0 < x) :
    (2 : ℚ) ^ ilog2 x ≤ float64 x ∧ float64 x ≤ (2 : ℚ) ^ (ilog2 x + 1) := by
  have hne : x ≠ 0 := ne_of_gt hx
  obtain ⟨h1, h2⟩ := ilog2_spec hne
  rw [abs_of_pos hx] at h1 h2
  have hp : (0 : ℚ) < (2 : ℚ) ^ (ilog2 x - 52) := zpow_pos (by norm_num) _
  rw [float64_of_ne hne]
  rw [zpow_add_one₀ (by norm_num : (2 : ℚ) ≠ 0)] at h2 ⊢
  rw [two_zpow_52 (ilog2 x)] at h1 h2 ⊢
  have ha : ((4503599627370496 : Int) : ℚ) ≤ x / (2 : ℚ) ^ (ilog2 x - 52) := by
    rw [le_div_iff₀ hp]
    push_cast
    exact h1
  have hb : x / (2 : ℚ) ^ (ilog2 x - 52) ≤ ((9007199254740992 : Int) : ℚ) := by
    rw [div_le_iff₀ hp]
    push_cast
    linarith
  have ka : ((4503599627370496 : Int) : ℚ) ≤ (roundHalfEven (x / (2 : ℚ) ^ (ilog2 x - 52)) : ℚ) := by
    exact_mod_cast le_roundHalfEven ha
  have kb : (roundHalfEven (x / (2 : ℚ) ^ (ilog2 x - 52)) : ℚ) ≤ ((9007199254740992 : Int) : ℚ) := by
    exact_mod_cast roundHalfEven_le hb
  push_cast at ka kb
  constructor
  · exact mul_le_mul_of_nonneg_right ka (le_of_lt hp)
  · have := mul_le_mul_of_nonneg_right kb (le_of_lt hp)
    linarith

/-- A negative number and its `float64` lie in the same closed binade. -/
theorem float64_neg_range {x : ℚ} (hx : x < 0) :
    -(2 : ℚ) ^ (ilog2 x + 1) ≤ float64 x ∧ float64 x ≤ -(2 : ℚ) ^ ilog2 x := by
  have hne : x ≠ 0 := ne_of_lt hx
  obtain ⟨h1, h2⟩ := ilog2_spec hne
  rw [abs_of_neg hx] at h1 h2
  have hp : (0 : ℚ) < (2 : ℚ) ^ (ilog2 x - 52) := zpow_pos (by norm_num) _
  rw [float64_of_ne hne]
  rw [zpow_add_one₀ (by norm_num : (2 : ℚ) ≠ 0)] at h2 ⊢
  rw [two_zpow_52 (ilog2 x)] at h1 h2 ⊢
  have ha : x / (2 : ℚ) ^ (ilog2 x - 52) ≤ ((-4503599627370496 : Int) : ℚ) := by
    rw [div_le_iff₀ hp]
    push_cast
    linarith
  have hb : ((-9007199254740992 : Int) : ℚ) ≤ x / (2 : ℚ) ^ (ilog2 x - 52) := by
    rw [le_div_iff₀ hp]
    push_cast
    linarith
  have ka : (roundHalfEven (x / (2 : ℚ) ^ (ilog2 x - 52)) : ℚ) ≤ ((-4503599627370496 : Int) : ℚ) := by
    exact_mod_cast roundHalfEven_le ha
  have kb : ((-9007199254740992 : Int) : ℚ) ≤ (roundHalfEven (x / (2 : ℚ) ^ (ilog2 x - 52)) : ℚ) := by
    exact_mod_cast le_roundHalfEven hb
  push_cast at ka kb
  constructor
  · have := mul_le_mul_of_nonneg_right kb (le_of_lt hp)
    linarith
  · have := mul_le_mul_of_nonneg_right ka (le_of_lt hp)
    linarith

theorem float64_same_binade {x y : ℚ} (hx : x ≠ 0) (hy : y ≠ 0) (hxy : x ≤ y)
    (he : ilog2 x = ilog2 y) : float64 x ≤ float64 y := by
  rw [float64_of_ne hx, float64_of_ne hy, he]
  have hp : (0 : ℚ) < (2 : ℚ) ^ (ilog2 y - 52) := zpow_pos (by norm_num) _
  apply mul_le_mul_of_nonneg_right _ (le_of_lt hp)
  have : x / (2 : ℚ) ^ (ilog2 y - 52) ≤ y / (2 : ℚ) ^ (ilog2 y - 52) :=
    div_le_div_of_nonneg_right hxy (le_of_lt hp)
  exact_mod_cast roundHalfEven_mono this

theorem float64_mono (x y : ℚ) (hxy : x ≤ y) : float64 x ≤ float64 y := by
  have hz : ∀ l : Int, (0 : ℚ) < (2 : ℚ) ^ l := fun l => zpow_pos (by norm_num) l
  rcases lt_trichotomy x 0 with hx | hx | hx
  · rcases lt_trichotomy y 0 with hy | hy | hy
    · -- both negative
      have hl : ilog2 y ≤ ilog2 x :=
        ilog2_mono (ne_of_lt hy) (ne_of_lt hx) (by rw [abs_of_neg hx, abs_of_neg hy]; linarith)
      rcases lt_or_eq_of_le hl with hlt | heq
      · have h1 := (float64_neg_range hx).2
        have h2 := (float64_neg_range hy).1
        have h3 : (2 : ℚ) ^ (ilog2 y + 1) ≤ (2 : ℚ) ^ ilog2 x :=
          zpow_le_zpow_right₀ (by norm_num) (by omega)
        linarith
      · exact float64_same_binade (ne_of_lt hx) (ne_of_lt hy) hxy heq.symm
    · rw [hy, float64_zero]
      have h1 := (float64_neg_range hx).2
      linarith [hz (ilog2 x)]
    · have h1 := (float64_neg_range hx).2
      have h2 := (float64_pos_range hy).1
      linarith [hz (ilog2 x), hz (ilog2 y)]
  · rw [hx, float64_zero]
    rcases lt_or_eq_of_le (hx ▸ hxy) with hy | hy
    · have h2 := (float64_pos_range hy).1
      linarith [hz (ilog2 y)]
    · rw [← hy, float64_zero]
  · have hy : 0 < y := lt_of_lt_of_le hx hxy
    have hl : ilog2 x ≤ ilog2 y :=
      ilog2_mono (ne_of_gt hx) (ne_of_gt hy) (by rw [abs_of_pos hx, abs_of_pos hy]; exact hxy)
    rcases lt_or_eq_of_le hl with hlt | heq
    · have h1 := (float64_pos_range hx).2
      have h2 := (float64_pos_range hy).1
      have h3 : (2 : ℚ) ^ (ilog2 x + 1) ≤ (2 : ℚ) ^ ilog2 y :=
        zpow_le_zpow_right₀ (by norm_num) (by omega)
      linarith
    · exact float64_same_binade (ne_of_gt hx) (ne_of_gt hy) hxy heq

/-- An integer multiple of the unit in the last place is a `float64`. -/
theorem float64_of_multiple {x : ℚ} (hx : x ≠ 0) (m : Int)
    (h : x = (m : ℚ) * (2 : ℚ) ^ (ilog2 x - 52)) : float64 x = x := by
  have hp : (0 : ℚ) < (2 : ℚ) ^ (ilog2 x - 52) := zpow_pos (by norm_num) _
  rw [float64_of_ne hx]
  have : x / (2 : ℚ) ^ (ilog2 x - 52) = (m : ℚ) := by
    rw [div_eq_iff (ne_of_gt hp)]
    exact h
  rw [this, roundHalfEven_intCast]
  exact h.symm

theorem float64_exact (n : Int) (h0 : -9007199254740992 ≤ n) (h1 : n ≤ 9007199254740992) :
    float64 (n : ℚ) = (n : ℚ) := by
  by_cases hn : n = 0
  · rw [hn]; simpa using float64_zero
  have hne : (n : ℚ) ≠ 0 := by exact_mod_cast hn
  obtain ⟨s1, s2⟩ := ilog2_spec hne
  have habs1 : (1 : ℚ) ≤ |(n : ℚ)| := by
    have : 1 ≤ |n| := Int.one_le_abs hn
    exact_mod_cast this
  have habs2 : |(n : ℚ)| ≤ 9007199254740992 := by
    have : |n| ≤ 9007199254740992 := abs_le.mpr ⟨h0, h1⟩
    exact_mod_cast this
  -- the exponent is between 0 and 53
  have hl0 : 0 ≤ ilog2 (n : ℚ) := by
    by_contra hcon
    have : (2 : ℚ) ^ (ilog2 (n : ℚ) + 1) ≤ (2 : ℚ) ^ (0 : Int) :=
      zpow_le_zpow_right₀ (by norm_num) (by omega)
    rw [zpow_zero] at this
    linarith
  have hl53 : ilog2 (n : ℚ) ≤ 53 := by
    by_contra hcon
    have : (2 : ℚ) ^ (54 : Int) ≤ (2 : ℚ) ^ ilog2 (n : ℚ) :=
      zpow_le_zpow_right₀ (by norm_num) (by omega)
    have e : (2 : ℚ) ^ (54 : Int) = 18014398509481984 := by norm_num
    linarith
  rcases lt_or_eq_of_le hl53 with hlt | heq
  · -- the unit in the last place is at most 1
    obtain ⟨k, hk⟩ : ∃ k : Nat, ilog2 (n : ℚ) - 52 = -(k : Int) :=
      ⟨(52 - ilog2 (n : ℚ)).toNat, by omega⟩
    apply float64_of_multiple hne (n * 2 ^ k)
    rw [hk, zpow_neg, zpow_natCast]
    push_cast
    field_simp
  · -- the magnitude is 2^53
    have e : (2 : ℚ) ^ (53 : Int) = 9007199254740992 := by norm_num
    rw [heq, e] at s1
    have habs : |(n : ℚ)| = 9007199254740992 := le_antisymm habs2 s1
    apply float64_of_multiple hne (if 0 ≤ n then 4503599627370496 else -4503599627370496)
    rw [heq]
    norm_num
    split
    · rename_i hpos
      have hq : (0 : ℚ) ≤ (n : ℚ) := by exact_mod_cast hpos
      rw [abs_of_nonneg hq] at habs
      rw [habs]
    · rename_i hneg
      have hq : (n : ℚ) < 0 := by
        have : n < 0 := by omega
        exact_mod_cast this
      rw [abs_of_neg hq] at habs
      have : (n : ℚ) = -9007199254740992 := by linarith
      rw [this]

/-- The rounding of `float64` is monotone and exact on the integers of
magnitude at most `2^53`. -/
theorem float64_like : Float64Like float64 := ⟨float64_mono, float64_exact⟩

/-! ## Polling the deadline signal in the machine search -/

/-- The step counter never decreases. -/
theorem dfs64_steps_mono (rnd : ℚ → ℚ) (ctx : Context) (cap : Int) :
    ∀ (rest : List Order) (cw cv : Int) (cs : List Order) (s : Search),
      s.steps ≤ (dfs64 rnd ctx cap rest cw cv cs s).2.steps := by
  intro rest
  induction rest with
  | nil =>
    intro cw cv cs s
    rw [dfs64_nil]
    split_ifs
    · exact le_refl _
    · exact Nat.le_succ _
    · exact Nat.le_succ _
    · rw [record_steps]; exact Nat.le_succ _
  | cons o rest ih =>
    intro cw cv cs s
    rw [dfs64_cons]
    have h2 := ih (wrap64 (cw + o.weight)) (wrap64 (cv + o.value)) (cs ++ [o])
      (record cv cs { s with steps := s.steps + 1 })
    rw [record_steps] at h2
    simp only at h2
    split_ifs
    · exact le_refl _
    · exact Nat.le_succ _
    · exact Nat.le_succ _
    · dsimp only
      omega
    · have h3 := ih cw cv cs (dfs64 rnd ctx cap rest (wrap64 (cw + o.weight)) (wrap64 (cv + o.value)) (cs ++ [o])
        (record cv cs { s with steps := s.steps + 1 })).2
      omega

/-- Under a deadline signal that never fires the search is not cancelled. -/
theorem dfs64_never_cancelled (rnd : ℚ → ℚ) (e : String) (cap : Int) :
    ∀ (rest : List Order) (cw cv : Int) (cs : List Order) (s : Search),
      (dfs64 rnd ⟨fun _ => false, e⟩ cap rest cw cv cs s).1 = false := by
  intro rest
  induction rest with
  | nil =>
    intro cw cv cs s
    rw [dfs64_nil]
    split_ifs with h1 h2 <;> first | rfl | simp at h2
  | cons o rest ih =>
    intro cw cv cs s
    rw [dfs64_cons]
    split_ifs with h1 h2 h3 h4
    · rfl
    · simp at h2
    · rfl
    · rw [ih] at h4; simp at h4
    · exact ih _ _ _ _

/-- The search reads the deadline signal only at step counts that are
multiples of `checkEvery`: two signals that agree there give the same
search. -/
theorem dfs64_polls_multiples (rnd : ℚ → ℚ) (ctx1 ctx2 : Context) (cap : Int)
    (hagree : ∀ n, n % checkEvery = 0 → ctx1.done n = ctx2.done n) :
    ∀ (rest : List Order) (cw cv : Int) (cs : List Order) (s : Search),
      dfs64 rnd ctx1 cap rest cw cv cs s = dfs64 rnd ctx2 cap rest cw cv cs s := by
  have hpoll : ∀ n : Nat, (checkEvery > 0 ∧ n % checkEvery = 0 ∧ ctx1.done n = true) ↔
      (checkEvery > 0 ∧ n % checkEvery = 0 ∧ ctx2.done n = true) := by
    intro n
    constructor
    · rintro ⟨h1, h2, h3⟩; exact ⟨h1, h2, by rw [← hagree n h2]; exact h3⟩
    · rintro ⟨h1, h2, h3⟩; exact ⟨h1, h2, by rw [hagree n h2]; exact h3⟩
  intro rest
  induction rest with
  | nil =>
    intro cw cv cs s
    rw [dfs64_nil, dfs64_nil]
    simp only [hpoll]
  | cons o rest ih =>
    intro cw cv cs s
    rw [dfs64_cons, dfs64_cons]
    simp only [hpoll, ih]

/-- A search that, run under a signal that never fires, ends with a step
counter below `checkEvery` runs the same under every signal. -/
theorem dfs64_below_checkEvery (rnd : ℚ → ℚ) (ctx : Context) (e : String) (cap : Int) :
    ∀ (rest : List Order) (cw cv : Int) (cs : List Order) (s : Search),
      (dfs64 rnd ⟨fun _ => false, e⟩ cap rest cw cv cs s).2.steps < checkEvery →
      dfs64 rnd ctx cap rest cw cv cs s = dfs64 rnd ⟨fun _ => false, e⟩ cap rest cw cv cs s := by
  intro rest
  induction rest with
  | nil =>
    intro cw cv cs s hlt
    rw [dfs64_nil] at hlt
    rw [dfs64_nil, dfs64_nil]
    by_cases h1 : cw > cap
    · simp only [h1, if_true]
    · simp only [h1, if_false] at hlt ⊢
      have hn : ¬ (checkEvery > 0 ∧ (s.steps + 1) % checkEvery = 0 ∧
          (⟨fun _ => false, e⟩ : Context).done (s.steps + 1) = true) := by simp
      rw [if_neg hn] at hlt ⊢
      have hstep : s.steps + 1 < checkEvery := by
        split_ifs at hlt
        · exact hlt
        · rw [record_steps] at hlt; exact hlt
      have hc : ¬ (checkEvery > 0 ∧ (s.steps + 1) % checkEvery = 0 ∧
          ctx.done (s.steps + 1) = true) := by
        rintro ⟨_, h2, _⟩
        rw [Nat.mod_eq_of_lt hstep] at h2
        omega
      rw [if_neg hc]
  | cons o rest ih =>
    intro cw cv cs s hlt
    rw [dfs64_cons] at hlt
    rw [dfs64_cons, dfs64_cons]
    by_cases h1 : cw > cap
    · simp only [h1, if_true]
    · simp only [h1, if_false] at hlt ⊢
      have hn : ¬ (checkEvery > 0 ∧ (s.steps + 1) % checkEvery = 0 ∧
          (⟨fun _ => false, e⟩ : Context).done (s.steps + 1) = true) := by simp
      rw [if_neg hn] at hlt ⊢
      have hin := dfs64_never_cancelled rnd e cap rest (wrap64 (cw + o.weight)) (wrap64 (cv + o.value))
        (cs ++ [o]) (record cv cs { s with steps := s.steps + 1 })
      have hmono1 := dfs64_steps_mono rnd ⟨fun _ => false, e⟩ cap rest (wrap64 (cw + o.weight))
        (wrap64 (cv + o.value)) (cs ++ [o]) (record cv cs { s with steps := s.steps + 1 })
      have hmono2 := dfs64_steps_mono rnd ⟨fun _ => false, e⟩ cap rest cw cv cs
        (dfs64 rnd ⟨fun _ => false, e⟩ cap rest (wrap64 (cw + o.weight)) (wrap64 (cv + o.value)) (cs ++ [o])
          (record cv cs { s with steps := s.steps + 1 })).2
      rw [record_steps] at hmono1
      simp only at hmono1
      by_cases hpr : rnd (rnd (cv : ℚ) + fractionalBound64 rnd cap (o :: rest) cw)
          ≤ rnd (s.bestValue : ℚ)
      · simp only [hpr, if_true] at hlt ⊢
        have hc : ¬ (checkEvery > 0 ∧ (s.steps + 1) % checkEvery = 0 ∧
            ctx.done (s.steps + 1) = true) := by
          rintro ⟨_, h2, _⟩
          rw [Nat.mod_eq_of_lt hlt] at h2
          omega
        rw [if_neg hc]
      · simp only [hpr, if_false, hin, Bool.false_eq_true] at hlt ⊢
        have hstep : s.steps + 1 < checkEvery := by omega
        have hc : ¬ (checkEvery > 0 ∧ (s.steps + 1) % checkEvery = 0 ∧
            ctx.done (s.steps + 1) = true) := by
          rintro ⟨_, h2, _⟩
          rw [Nat.mod_eq_of_lt hstep] at h2
          omega
        rw [if_neg hc]
        have e1 := ih (wrap64 (cw + o.weight)) (wrap64 (cv + o.value)) (cs ++ [o])
          (record cv cs { s with steps := s.steps + 1 }) (by omega)
        rw [e1]
        simp only [hin, Bool.false_eq_true, if_false]
        exact ih cw cv cs _ hlt

theorem select64_congr_dfs (rnd : ℚ → ℚ) (ctx1 ctx2 : Context) (orders : List Order)
    (rid : String) (cap : Int) (herr : ctx1.err = ctx2.err)
    (h : dfs64 rnd ctx1 cap (sortCandidates64 orders) 0 0 [] (seedState64 (sortCandidates64 orders) cap)
      = dfs64 rnd ctx2 cap (sortCandidates64 orders) 0 0 []
        (seedState64 (sortCandidates64 orders) cap)) :
    selectOrdersForDelivery64 rnd ctx1 orders rid cap
      = selectOrdersForDelivery64 rnd ctx2 orders rid cap := by
  rw [select64_eq, select64_eq, h, herr]

/-- A search that is not cancelled does not depend on the deadline signal. -/
theorem dfs64_ctx_irrelevant (rnd : ℚ → ℚ) (ctx1 ctx2 : Context) (cap : Int) :
    ∀ (rest : List Order) (cw cv : Int) (cs : List Order) (s : Search),
      (dfs64 rnd ctx1 cap rest cw cv cs s).1 = false →
      (dfs64 rnd ctx2 cap rest cw cv cs s).1 = false →
      dfs64 rnd ctx1 cap rest cw cv cs s = dfs64 rnd ctx2 cap rest cw cv cs s := by
  intro rest
  induction rest with
  | nil =>
    intro cw cv cs s h1 h2
    rw [dfs64_nil] at h1 h2 ⊢
    rw [dfs64_nil]
    split_ifs at h1 h2 ⊢ <;> rfl
  | cons o rest ih =>
    intro cw cv cs s h1 h2
    rw [dfs64_cons] at h1 h2 ⊢
    rw [dfs64_cons]
    by_cases hcw : cw > cap
    · simp [hcw]
    · simp only [hcw, if_false] at h1 h2 ⊢
      by_cases hc1 : checkEvery > 0 ∧ (s.steps + 1) % checkEvery = 0 ∧
          ctx1.done (s.steps + 1) = true
      · simp [hc1] at h1
      · by_cases hc2 : checkEvery > 0 ∧ (s.steps + 1) % checkEvery = 0 ∧
            ctx2.done (s.steps + 1) = true
        · simp [hc2] at h2
        · simp only [hc1, hc2, if_false] at h1 h2 ⊢
          by_cases hpr : rnd (rnd (cv : ℚ) + fractionalBound64 rnd cap (o :: rest) cw)
              ≤ rnd (s.bestValue : ℚ)
          · simp [hpr]
          · simp only [hpr, if_false] at h1 h2 ⊢
            by_cases hi1 : (dfs64 rnd ctx1 cap rest (wrap64 (cw + o.weight)) (wrap64 (cv + o.value)) (cs ++ [o])
                (record cv cs { s with steps := s.steps + 1 })).1 = true
            · simp [hi1] at h1
            · by_cases hi2 : (dfs64 rnd ctx2 cap rest (wrap64 (cw + o.weight)) (wrap64 (cv + o.value))
                  (cs ++ [o]) (record cv cs { s with steps := s.steps + 1 })).1 = true
              · simp [hi2] at h2
              · have e := ih (wrap64 (cw + o.weight)) (wrap64 (cv + o.value)) (cs ++ [o])
                  (record cv cs { s with steps := s.steps + 1 })
                  (by simpa using hi1) (by simpa using hi2)
                simp only [hi1, hi2, if_false] at h1 h2 ⊢
                rw [e] at h1 ⊢
                exact ih cw cv cs _ h1 h2

/-- The search polls at every multiple of `checkEvery` that its counter
reaches: when the signal answers that it has fired at such a step count, one
that the undisturbed search reaches, the search is cancelled. -/
theorem dfs64_cancelled_at_poll (rnd : ℚ → ℚ) (ctx : Context) (e : String) (cap : Int)
    (m : Nat) (hm : m % checkEvery = 0) (hdone : ctx.done m = true) :
    ∀ (rest : List Order) (cw cv : Int) (cs : List Order) (s : Search),
      s.steps < m →
      m ≤ (dfs64 rnd ⟨fun _ => false, e⟩ cap rest cw cv cs s).2.steps →
      (dfs64 rnd ctx cap rest cw cv cs s).1 = true := by
  have hn : ∀ n : Nat, ¬ (checkEvery > 0 ∧ n % checkEvery = 0 ∧
      (⟨fun _ => false, e⟩ : Context).done n = true) := by simp
  have hfire : ∀ n : Nat, n = m → (checkEvery > 0 ∧ n % checkEvery = 0 ∧ ctx.done n = true) := by
    intro n hnm
    rw [hnm]
    exact ⟨by decide, hm, hdone⟩
  intro rest
  induction rest with
  | nil =>
    intro cw cv cs s hlt hle
    rw [dfs64_nil] at hle ⊢
    by_cases h1 : cw > cap
    · simp only [h1, if_true] at hle
      omega
    · simp only [h1, if_false] at hle ⊢
      rw [if_neg (hn _)] at hle
      have hstep : m = s.steps + 1 := by
        split_ifs at hle
        · simp only at hle; omega
        · rw [record_steps] at hle; simp only at hle; omega
      rw [if_pos (hfire _ hstep.symm)]
  | cons o rest ih =>
    intro cw cv cs s hlt hle
    rw [dfs64_cons] at hle ⊢
    by_cases h1 : cw > cap
    · simp only [h1, if_true] at hle
      omega
    · simp only [h1, if_false] at hle ⊢
      rw [if_neg (hn _)] at hle
      by_cases hc : checkEvery > 0 ∧ (s.steps + 1) % checkEvery = 0 ∧
          ctx.done (s.steps + 1) = true
      · rw [if_pos hc]
      · rw [if_neg hc]
        have hne : s.steps + 1 ≠ m := fun h => hc (hfire _ h)
        by_cases hpr : rnd (rnd (cv : ℚ) + fractionalBound64 rnd cap (o :: rest) cw)
            ≤ rnd (s.bestValue : ℚ)
        · simp only [hpr, if_true] at hle
          omega
        · have hin := dfs64_never_cancelled rnd e cap rest (wrap64 (cw + o.weight))
            (wrap64 (cv + o.value)) (cs ++ [o]) (record cv cs { s with steps := s.steps + 1 })
          simp only [hpr, if_false, hin, Bool.false_eq_true] at hle ⊢
          by_cases hi : (dfs64 rnd ctx cap rest (wrap64 (cw + o.weight)) (wrap64 (cv + o.value))
              (cs ++ [o]) (record cv cs { s with steps := s.steps + 1 })).1 = true
          · rw [if_pos hi]
          · rw [if_neg hi]
            have e1 := dfs64_ctx_irrelevant rnd ctx ⟨fun _ => false, e⟩ cap rest
              (wrap64 (cw + o.weight)) (wrap64 (cv + o.value)) (cs ++ [o])
              (record cv cs { s with steps := s.steps + 1 }) (by simpa using hi) hin
            rw [e1]
            apply ih cw cv cs _ _ hle
            by_contra hcon
            apply hi
            apply ih _ _ _ _ _ (by omega)
            rw [record_steps]
            simp only
            omega

theorem seedState64_steps (candidates : List Order) (cap : Int) :
    (seedState64 candidates cap).steps = 0 := by
  unfold seedState64
  split <;> rfl

/-- The planner reports cancellation when the signal answers that it has
fired at a positive multiple of `checkEvery` that the counter of the
undisturbed search reaches. -/
theorem select64_cancelled_at_poll (rnd : ℚ → ℚ) (ctx : Context) (orders : List Order)
    (rid : String) (cap : Int) (htriv : ¬ (cap ≤ 0 ∨ orders.length = 0))
    (m : Nat) (hm : m % checkEvery = 0) (hpos : 0 < m) (hdone : ctx.done m = true)
    (hle : m ≤ (dfs64 rnd ⟨fun _ => false, ctx.err⟩ cap (sortCandidates64 orders) 0 0 []
      (seedState64 (sortCandidates64 orders) cap)).2.steps) :
    selectOrdersForDelivery64 rnd ctx orders rid cap = (emptyPlan, some ctx.err) := by
  have h := dfs64_cancelled_at_poll rnd ctx ctx.err cap m hm hdone (sortCandidates64 orders)
    0 0 [] (seedState64 (sortCandidates64 orders) cap)
    (by rw [seedState64_steps]; exact hpos) hle
  rw [select64_eq, if_neg htriv, if_pos h]

/-! ## The weight of the machine plan -/

theorem sumAbsW_cons (o : Order) (l : List Order) :
    sumAbsW (o :: l) = |o.weight| + sumAbsW l := by
  simp [sumAbsW]

theorem sumAbsW_nonneg (l : List Order) : 0 ≤ sumAbsW l := by
  induction l with
  | nil => simp [sumAbsW]
  | cons o l ih =>
    rw [sumAbsW_cons]
    have := abs_nonneg o.weight
    omega

theorem sumAbsW_perm {l m : List Order} (h : l.Perm m) : sumAbsW l = sumAbsW m :=
  (h.map (fun o : Order => |o.weight|)).sum_eq

/-- The summed weight of a sub-collection is bounded in magnitude by the
summed magnitude of all weights. -/
theorem abs_sumW_le {S l : List Order} (h : S.Sublist l) : |sumW S| ≤ sumAbsW l := by
  induction h with
  | slnil => simp [sumW, sumAbsW]
  | cons a _ ih =>
    rw [sumAbsW_cons]
    have := abs_nonneg a.weight
    omega
  | @cons₂ l1 _ a _ ih =>
    rw [sumAbsW_cons, sumW_cons]
    have := abs_add a.weight (sumW l1)
    omega

theorem wrap64_sumW {S all : List Order} (h : S.Sublist all)
    (hall : sumAbsW all < 9223372036854775808) : wrap64 (sumW S) = sumW S := by
  have h1 := abs_sumW_le h
  have h2 := abs_le.mp (le_trans h1 (le_refl _))
  exact wrap64_eq (by omega) (by omega)

/-- The orders selected by the greedy walk in machine arithmetic are a
subsequence of the input whose summed weight is within the capacity. -/
theorem greedyLoop64_fits :
    ∀ (os : List Order) (remaining value : Int) (selected : List Order),
      0 ≤ remaining → remaining < 9223372036854775808 →
      ∃ t : List Order, t.Sublist os ∧
        (greedyLoop64 os remaining value selected).2 = selected ++ t ∧
        sumW t ≤ remaining := by
  intro os
  induction os with
  | nil =>
    intro r v sel _ _
    exact ⟨[], List.Sublist.slnil, by simp [greedyLoop64], by simpa [sumW]⟩
  | cons o os ih =>
    intro r v sel h0 h1
    rw [greedyLoop64]
    split
    · obtain ⟨t, hs, he, hw⟩ := ih r (wrap64 (v + o.value)) (sel ++ [o]) h0 h1
      refine ⟨o :: t, hs.cons₂ o, ?_, ?_⟩
      · rw [he]; simp
      · rw [sumW_cons]; omega
    · split
      · have hr : wrap64 (r - o.weight) = r - o.weight := wrap64_eq (by omega) (by omega)
        rw [hr]
        obtain ⟨t, hs, he, hw⟩ := ih (r - o.weight) (wrap64 (v + o.value)) (sel ++ [o])
          (by omega) (by omega)
        refine ⟨o :: t, hs.cons₂ o, ?_, ?_⟩
        · rw [he]; simp
        · rw [sumW_cons]; omega
      · obtain ⟨t, hs, he, hw⟩ := ih r v sel h0 h1
        exact ⟨t, hs.cons o, he, hw⟩

theorem seedState64_fits (candidates : List Order) {cap : Int} (h0 : 0 ≤ cap)
    (h1 : cap < 9223372036854775808) :
    sumW (seedState64 candidates cap).bestSet ≤ cap ∧
      (seedState64 candidates cap).bestSet.Sublist candidates := by
  obtain ⟨t, hs, he, hw⟩ := greedyLoop64_fits candidates cap 0 [] h0 h1
  unfold seedState64
  split
  · unfold greedySeedPlan64
    simp only
    rw [he]
    simpa using ⟨hw, hs⟩
  · exact ⟨by simpa [sumW] using h0, List.nil_sublist _⟩

theorem fits_record {cap : Int} {all cs : List Order} {s : Search} {cv : Int}
    (h : sumW s.bestSet ≤ cap ∧ s.bestSet.Sublist all) (hw : sumW cs ≤ cap)
    (hs : cs.Sublist all) :
    sumW (record cv cs s).bestSet ≤ cap ∧ (record cv cs s).bestSet.Sublist all := by
  unfold record
  split
  · exact ⟨hw, hs⟩
  · exact h

/-- While no sum of weights leaves the 64-bit range, every set recorded by
the machine search fits the capacity. -/
theorem dfs64_fits (rnd : ℚ → ℚ) (ctx : Context) (cap : Int) (all : List Order)
    (hall : sumAbsW all < 9223372036854775808) :
    ∀ (rest : List Order) (cw cv : Int) (cs : List Order) (s : Search),
      (sumW s.bestSet ≤ cap ∧ s.bestSet.Sublist all) → (cs ++ rest).Sublist all →
      cw = sumW cs →
      sumW (dfs64 rnd ctx cap rest cw cv cs s).2.bestSet ≤ cap ∧
        (dfs64 rnd ctx cap rest cw cv cs s).2.bestSet.Sublist all := by
  intro rest
  induction rest with
  | nil =>
    intro cw cv cs s hs hsub hw
    rw [dfs64_nil]
    split
    · exact hs
    · split
      · exact hs
      · split
        · exact hs
        · exact fits_record hs (by omega) (by simpa using hsub)
  | cons o rest ih =>
    intro cw cv cs s hs hsub hw
    rw [dfs64_cons]
    split
    · exact hs
    · split
      · exact hs
      · split
        · exact hs
        · have hcs : cs.Sublist all := (List.sublist_append_left cs (o :: rest)).trans hsub
          have h2 : sumW (record cv cs { s with steps := s.steps + 1 }).bestSet ≤ cap ∧
              (record cv cs { s with steps := s.steps + 1 }).bestSet.Sublist all :=
            fits_record hs (by omega) hcs
          have hsub1 : (cs ++ [o] ++ rest).Sublist all := by simpa using hsub
          have hco : (cs ++ [o]).Sublist all :=
            (List.sublist_append_left (cs ++ [o]) rest).trans hsub1
          have hcw : wrap64 (cw + o.weight) = sumW (cs ++ [o]) := by
            have e : cw + o.weight = sumW (cs ++ [o]) := by
              rw [sumW_append, hw]; simp [sumW]
            rw [e]
            exact wrap64_sumW hco hall
          have hin := ih (wrap64 (cw + o.weight)) (wrap64 (cv + o.value)) (cs ++ [o])
            (record cv cs { s with steps := s.steps + 1 }) h2 hsub1 hcw
          split
          · exact hin
          · exact ih _ _ _ _ hin
              ((List.Sublist.append_left (List.sublist_cons_self o rest) cs).trans hsub) hw

theorem foldl_wrap64_sumW {all : List Order} (hall : sumAbsW all < 9223372036854775808) :
    ∀ (l pre : List Order), (pre ++ l).Sublist all →
      l.foldl (fun acc o => wrap64 (acc + o.weight)) (sumW pre) = sumW (pre ++ l) := by
  intro l
  induction l with
  | nil => intro pre _; simp
  | cons b l ih =>
    intro pre h
    have h1 : (pre ++ [b] ++ l).Sublist all := by simpa using h
    have h2 : (pre ++ [b]).Sublist all := (List.sublist_append_left (pre ++ [b]) l).trans h1
    have e : sumW pre + b.weight = sumW (pre ++ [b]) := by
      rw [sumW_append]; simp [sumW]
    rw [List.foldl_cons, e, wrap64_sumW h2 hall, ih (pre ++ [b]) h1]
    simp

/-- The plan of the machine planner, when no sum of weights leaves the 64-bit
range: the recorded weight is the summed weight of the orders and is within
the capacity. -/
theorem select64_fits (rnd : ℚ → ℚ) (ctx : Context) (orders : List Order) (rid : String)
    {cap : Int} (h0 : 0 ≤ cap) (h1 : cap < 9223372036854775808)
    (hall : sumAbsW orders < 9223372036854775808) :
    (selectOrdersForDelivery64 rnd ctx orders rid cap).1.totalWeight
        = sumW (selectOrdersForDelivery64 rnd ctx orders rid cap).1.orders ∧
      sumW (selectOrdersForDelivery64 rnd ctx orders rid cap).1.orders ≤ cap := by
  rw [select64_eq]
  split_ifs with h2 h3
  · exact ⟨rfl, by simpa [sumW] using h0⟩
  · exact ⟨rfl, by simpa [sumW, emptyPlan] using h0⟩
  · have hperm : (sortCandidates64 orders).Perm orders := List.perm_insertionSort _ _
    have hall2 : sumAbsW (sortCandidates64 orders) < 9223372036854775808 := by
      rw [sumAbsW_perm hperm]; exact hall
    obtain ⟨k1, k2⟩ := dfs64_fits rnd ctx cap (sortCandidates64 orders) hall2
      (sortCandidates64 orders) 0 0 [] (seedState64 (sortCandidates64 orders) cap)
      (seedState64_fits _ h0 h1) (by simp) (by simp [sumW])
    refine ⟨?_, k1⟩
    have := foldl_wrap64_sumW hall2 _ [] (by simpa using k2)
    simpa [sumW] using this

/-! ## What does not depend on the arithmetic -/

/-- The orders selected by the greedy walk in machine arithmetic are a
subsequence of the input, and the value returned is the 64-bit sum of their
values. -/
theorem greedyLoop64_spec :
    ∀ (os : List Order) (remaining value : Int) (selected : List Order),
      ∃ t : List Order, t.Sublist os ∧
        greedyLoop64 os remaining value selected
          = (t.foldl (fun acc o => wrap64 (acc + o.value)) value, selected ++ t) := by
  intro os
  induction os with
  | nil =>
    intro r v sel
    exact ⟨[], List.Sublist.slnil, by simp [greedyLoop64]⟩
  | cons o os ih =>
    intro r v sel
    rw [greedyLoop64]
    split
    · obtain ⟨t, hs, he⟩ := ih r (wrap64 (v + o.value)) (sel ++ [o])
      exact ⟨o :: t, hs.cons₂ o, by rw [he]; simp⟩
    · split
      · obtain ⟨t, hs, he⟩ := ih (wrap64 (r - o.weight)) (wrap64 (v + o.value)) (sel ++ [o])
        exact ⟨o :: t, hs.cons₂ o, by rw [he]; simp⟩
      · obtain ⟨t, hs, he⟩ := ih r v sel
        exact ⟨t, hs.cons o, he⟩

/-- Every set recorded by the machine search is a subsequence of the
candidates, and the recorded value is the 64-bit sum of its values. -/
theorem dfs64_recorded (rnd : ℚ → ℚ) (ctx : Context) (cap : Int) (all : List Order) :
    ∀ (rest : List Order) (cw cv : Int) (cs : List Order) (s : Search),
      (s.bestSet.Sublist all ∧
        s.bestValue = s.bestSet.foldl (fun acc o => wrap64 (acc + o.value)) 0) →
      (cs ++ rest).Sublist all →
      cv = cs.foldl (fun acc o => wrap64 (acc + o.value)) 0 →
      (dfs64 rnd ctx cap rest cw cv cs s).2.bestSet.Sublist all ∧
        (dfs64 rnd ctx cap rest cw cv cs s).2.bestValue
          = (dfs64 rnd ctx cap rest cw cv cs s).2.bestSet.foldl
              (fun acc o => wrap64 (acc + o.value)) 0 := by
  have hrec : ∀ (cv : Int) (cs : List Order) (s : Search),
      (s.bestSet.Sublist all ∧
        s.bestValue = s.bestSet.foldl (fun acc o => wrap64 (acc + o.value)) 0) →
      cs.Sublist all → cv = cs.foldl (fun acc o => wrap64 (acc + o.value)) 0 →
      ((record cv cs s).bestSet.Sublist all ∧
        (record cv cs s).bestValue
          = (record cv cs s).bestSet.foldl (fun acc o => wrap64 (acc + o.value)) 0) := by
    intro cv cs s hs hcs hcv
    unfold record
    split
    · exact ⟨hcs, hcv⟩
    · exact hs
  intro rest
  induction rest with
  | nil =>
    intro cw cv cs s hs hsub hv
    rw [dfs64_nil]
    split
    · exact hs
    · split
      · exact hs
      · split
        · exact hs
        · exact hrec cv cs _ hs (by simpa using hsub) hv
  | cons o rest ih =>
    intro cw cv cs s hs hsub hv
    rw [dfs64_cons]
    split
    · exact hs
    · split
      · exact hs
      · split
        · exact hs
        · have hcs : cs.Sublist all := (List.sublist_append_left cs (o :: rest)).trans hsub
          have h2 := hrec cv cs { s with steps := s.steps + 1 } hs hcs hv
          have hsub1 : (cs ++ [o] ++ rest).Sublist all := by simpa using hsub
          have hin := ih (wrap64 (cw + o.weight)) (wrap64 (cv + o.value)) (cs ++ [o])
            (record cv cs { s with steps := s.steps + 1 }) h2 hsub1
            (by rw [List.foldl_append, ← hv]; rfl)
          split
          · exact hin
          · exact ih _ _ _ _ hin
              ((List.Sublist.append_left (List.sublist_cons_self o rest) cs).trans hsub) hv

/-- The plan of the planner in machine arithmetic, for every input: a trivial
call returns the empty plan of the robot, a cancelled call the zero plan with
the error of the deadline; the orders of a plan are a subsequence of the
sorted candidates, which are a permutation of the input; `TotalValue` is the
64-bit sum of the values and `TotalWeight` the 64-bit sum of the weights of
the plan's orders; and two calls that both complete return the same,
whatever their signals answered. -/
theorem select64_structure (rnd : ℚ → ℚ) (ctx : Context) (orders : List Order) (rid : String)
    (cap : Int) :
    (cap ≤ 0 ∨ orders = [] → selectOrdersForDelivery64 rnd ctx orders rid cap
      = ({ robotID := rid, totalWeight := 0, totalValue := 0, orders := [] }, none)) ∧
    ((selectOrdersForDelivery64 rnd ctx orders rid cap).2 ≠ none →
      selectOrdersForDelivery64 rnd ctx orders rid cap = (emptyPlan, some ctx.err)) ∧
    (selectOrdersForDelivery64 rnd ctx orders rid cap).1.orders.Sublist
      (sortCandidates64 orders) ∧
    (sortCandidates64 orders).Perm orders ∧
    (selectOrdersForDelivery64 rnd ctx orders rid cap).1.totalValue
      = (selectOrdersForDelivery64 rnd ctx orders rid cap).1.orders.foldl
          (fun acc o => wrap64 (acc + o.value)) 0 ∧
    (selectOrdersForDelivery64 rnd ctx orders rid cap).1.totalWeight
      = (selectOrdersForDelivery64 rnd ctx orders rid cap).1.orders.foldl
          (fun acc o => wrap64 (acc + o.weight)) 0 ∧
    (∀ ctx2 : Context, (selectOrdersForDelivery64 rnd ctx orders rid cap).2 = none →
      (selectOrdersForDelivery64 rnd ctx2 orders rid cap).2 = none →
      selectOrdersForDelivery64 rnd ctx2 orders rid cap
        = selectOrdersForDelivery64 rnd ctx orders rid cap) := by
  have hseed : (seedState64 (sortCandidates64 orders) cap).bestSet.Sublist
        (sortCandidates64 orders) ∧
      (seedState64 (sortCandidates64 orders) cap).bestValue
        = (seedState64 (sortCandidates64 orders) cap).bestSet.foldl
            (fun acc o => wrap64 (acc + o.value)) 0 := by
    obtain ⟨t, hs, he⟩ := greedyLoop64_spec (sortCandidates64 orders) cap 0 []
    unfold seedState64
    split
    · unfold greedySeedPlan64
      simp only
      rw [he]
      exact ⟨by simpa using hs, by simp⟩
    · exact ⟨List.nil_sublist _, rfl⟩
  have hrec := fun c : Context => dfs64_recorded rnd c cap (sortCandidates64 orders)
    (sortCandidates64 orders) 0 0 [] (seedState64 (sortCandidates64 orders) cap) hseed
    (by simp) rfl
  refine ⟨?_, ?_, ?_, List.perm_insertionSort _ _, ?_, ?_, ?_⟩
  · intro h
    rw [select64_eq, if_pos]
    rcases h with h | h
    · exact Or.inl h
    · exact Or.inr (by rw [h]; rfl)
  · intro hc
    rw [select64_eq] at hc ⊢
    split_ifs at hc ⊢ with h1 h2
    · simp at hc
    · rfl
    · simp at hc
  · rw [select64_eq]
    split_ifs
    · exact List.nil_sublist _
    · exact List.nil_sublist _
    · exact (hrec ctx).1
  · rw [select64_eq]
    split_ifs
    · rfl
    · rfl
    · exact (hrec ctx).2
  · rw [select64_eq]
    split_ifs <;> rfl
  · intro ctx2 h1 h2
    rw [select64_eq] at h1 h2 ⊢
    rw [select64_eq]
    by_cases htriv : cap ≤ 0 ∨ orders.length = 0
    · rw [if_pos htriv, if_pos htriv]
    · rw [if_neg htriv] at h1 h2 ⊢
      rw [if_neg htriv]
      by_cases d1 : (dfs64 rnd ctx cap (sortCandidates64 orders) 0 0 []
          (seedState64 (sortCandidates64 orders) cap)).1 = true
      · rw [if_pos d1] at h1; simp at h1
      · by_cases d2 : (dfs64 rnd ctx2 cap (sortCandidates64 orders) 0 0 []
            (seedState64 (sortCandidates64 orders) cap)).1 = true
        · rw [if_pos d2] at h2; simp at h2
        · have e := dfs64_ctx_irrelevant rnd ctx2 ctx cap (sortCandidates64 orders) 0 0 []
            (seedState64 (sortCandidates64 orders) cap) (by simpa using d2) (by simpa using d1)
          rw [if_neg d1, if_neg d2, e]

theorem sumV_heavyOrders (n : Nat) : sumV (heavyOrders n) = n := by
  induction n with
  | zero => rfl
  | succ n ih =>
    have e : heavyOrders (n + 1) = heavyOrders n ++ [⟨(n : Int), 2, 1⟩] := by
      unfold heavyOrders
      rw [List.range_succ, List.map_append]
      rfl
    rw [e, sumV_append, ih]
    simp [sumV]

theorem mem_heavyOrders {n : Nat} {o : Order} (h : o ∈ heavyOrders n) :
    o.weight = 2 ∧ o.value = 1 := by
  unfold heavyOrders at h
  obtain ⟨i, _, rfl⟩ := List.mem_map.mp h
  exact ⟨rfl, rfl⟩

/-- On `heavyOrders n` with capacity 1 and `n` from `checkEvery` up to `2^53`,
the counter of the undisturbed machine search reaches `checkEvery`. -/
theorem heavy_search64_reaches_poll (ctx : Context) (n : Nat) (hn : checkEvery ≤ n)
    (hn2 : n ≤ 9007199254740992) :
    16384 ≤ (dfs64 id ⟨fun _ => false, ctx.err⟩ 1 (sortCandidates64 (heavyOrders n)) 0 0 []
      (seedState64 (sortCandidates64 (heavyOrders n)) 1)).2.steps := by
  by_contra hlt
  generalize ctx.err = e at hlt
  have hwv : ∀ o ∈ heavyOrders n, 0 ≤ o.weight ∧ 0 ≤ o.value := by
    intro o ho
    obtain ⟨h1, h2⟩ := mem_heavyOrders ho
    omega
  have hrange : WithinRange (heavyOrders n) 1 := by
    refine ⟨by decide, ?_, ?_, ?_, ?_⟩
    · rw [sumV_heavyOrders]; exact_mod_cast hn2
    · intro o ho
      rw [(mem_heavyOrders ho).1]; decide
    · intro o ho
      rw [(mem_heavyOrders ho).2]; decide
    · intro a ha b hb
      rw [(mem_heavyOrders ha).2, (mem_heavyOrders hb).1]; decide
  have hsame := dfs64_below_checkEvery id ⟨fun _ => true, e⟩ e 1
    (sortCandidates64 (heavyOrders n)) 0 0 [] (seedState64 (sortCandidates64 (heavyOrders n)) 1)
    (by unfold checkEvery; omega)
  have hnever := dfs64_never_cancelled id e 1 (sortCandidates64 (heavyOrders n)) 0 0 []
    (seedState64 (sortCandidates64 (heavyOrders n)) 1)
  have hcanc := heavy_search_cancelled ⟨fun _ => true, e⟩ (fun _ => rfl) n hn
  rw [← exactBeyond_id, ← search64_eq_ideal float64Like_id ⟨fun _ => true, e⟩ (heavyOrders n)
    (by decide) hwv hrange, hsame, hnever] at hcanc
  exact absurd hcanc (by decide)

/-! ## The claims -/

/-- C1 (as stated) fails on the code in three ways, each at candidates of
non-negative weight and value and a non-negative capacity, with a planner
that completes without cancellation.  At capacity 0 the guard returns value 0
although the zero-weight order of value 3 fits.  With orders (w2, v2^62) and
(w4, v1024) at capacity 4, the comparator's product `2^62 * 4` wraps to 0, the
second order is sorted first and the plan is worth 1024, while the first order
alone fits and is worth `2^62`.  With orders (w6, v2^53), (w5, v2^52) and
(w5, v2^52+1) at capacity 10, the bound `2^53 + 1` of the node without the
first order rounds to `2^53` as a `float64`, the node is pruned and the plan
is worth `2^53`, while the last two orders fit and are worth `2^53 + 1`. -/
theorem knapsack_optimum_missed :
    (selectOrdersForDelivery64 float64 ⟨fun _ => false, "deadline"⟩ [⟨1, 0, 3⟩] "robot" 0
        = (⟨"robot", 0, 0, []⟩, none) ∧
      knapsackOptimum [⟨1, 0, 3⟩] 0 = 3) ∧
    (selectOrdersForDelivery64 float64 ⟨fun _ => false, "deadline"⟩
        [⟨1, 2, 4611686018427387904⟩, ⟨2, 4, 1024⟩] "robot" 4
        = (⟨"robot", 4, 1024, [⟨2, 4, 1024⟩]⟩, none) ∧
      knapsackOptimum [⟨1, 2, 4611686018427387904⟩, ⟨2, 4, 1024⟩] 4 = 4611686018427387904) ∧
    (selectOrdersForDelivery64 float64 ⟨fun _ => false, "deadline"⟩
        [⟨1, 6, 9007199254740992⟩, ⟨2, 5, 4503599627370496⟩, ⟨3, 5, 4503599627370497⟩]
        "robot" 10
        = (⟨"robot", 6, 9007199254740992, [⟨1, 6, 9007199254740992⟩]⟩, none) ∧
      knapsackOptimum
        [⟨1, 6, 9007199254740992⟩, ⟨2, 5, 4503599627370496⟩, ⟨3, 5, 4503599627370497⟩] 10
        = 9007199254740993) := by
  decide!

/-- C1 (amended): for candidates with non-negative weights and values whose
magnitudes are within the range of exact machine arithmetic, and a capacity
that is positive, or is 0 while no zero-weight candidate has a positive value,
a plan returned without cancellation has `TotalValue` equal to the
0/1-knapsack optimum over the candidates.  The planner is the one in 64-bit
integer arithmetic; `rnd` is `float64` or any rounding with its two
properties. -/
theorem totalValue_eq_knapsackOptimum {rnd : ℚ → ℚ} (hr : Float64Like rnd) (ctx : Context)
    (orders : List Order) (rid : String) (cap : Int)
    (hw : ∀ o ∈ orders, 0 ≤ o.weight) (hv : ∀ o ∈ orders, 0 ≤ o.value)
    (hrange : WithinRange orders cap)
    (hcap : 0 < cap ∨ (cap = 0 ∧ ∀ o ∈ orders, o.weight = 0 → o.value = 0))
    (hnc : (selectOrdersForDelivery64 rnd ctx orders rid cap).2 = none) :
    (selectOrdersForDelivery64 rnd ctx orders rid cap).1.totalValue
      = knapsackOptimum orders cap := by
  rw [select64_eq_ideal hr ctx orders rid cap (fun o ho => ⟨hw o ho, hv o ho⟩) hrange] at hnc ⊢
  exact integer_plan_value_optimal (exactBeyond_rounding hr) ctx orders rid cap hw hv hcap hnc

/-- Witness of C1 (amended) at the classic instance of the specification, in
`float64` arithmetic and under a signal that has fired. -/
theorem totalValue_eq_knapsackOptimum_witness :
    (selectOrdersForDelivery64 float64 ⟨fun _ => true, "deadline"⟩
        [⟨1, 2, 3⟩, ⟨2, 3, 4⟩, ⟨3, 4, 5⟩, ⟨4, 5, 6⟩] "robot" 5).1.totalValue
      = knapsackOptimum [⟨1, 2, 3⟩, ⟨2, 3, 4⟩, ⟨3, 4, 5⟩, ⟨4, 5, 6⟩] 5 :=
  totalValue_eq_knapsackOptimum float64_like ⟨fun _ => true, "deadline"⟩
    [⟨1, 2, 3⟩, ⟨2, 3, 4⟩, ⟨3, 4, 5⟩, ⟨4, 5, 6⟩] "robot" 5 (by decide) (by decide)
    (by decide) (Or.inl (by decide)) (by decide!)

/-- C2 (as stated) fails on the code, also with the bound in exact
arithmetic: with capacity 4 and the orders (w2, v2^62) and (w4, v1024) the
search finishes without cancellation with the plan of order 2 alone, worth
1024, while order 1 alone is a sub-collection of the input of weight 2 and
value `2^62`.  The comparator's product `2^62 * 4` wraps to 0 in 64 bits, so
order 2 is sorted first, the greedy seed takes it, and the bound of the root,
computed on the wrongly sorted candidates, prunes the search. -/
theorem exact_bound_plan_not_maximal :
    (∀ o ∈ [(⟨1, 2, 4611686018427387904⟩ : Order), ⟨2, 4, 1024⟩], 0 ≤ o.weight ∧ 0 ≤ o.value) ∧
      selectOrdersForDelivery64 id ⟨fun _ => false, "deadline"⟩
        [⟨1, 2, 4611686018427387904⟩, ⟨2, 4, 1024⟩] "robot" 4
        = (⟨"robot", 4, 1024, [⟨2, 4, 1024⟩]⟩, none) ∧
      [(⟨1, 2, 4611686018427387904⟩ : Order)].Sublist
        [⟨1, 2, 4611686018427387904⟩, ⟨2, 4, 1024⟩] ∧
      sumW [⟨1, 2, 4611686018427387904⟩] ≤ 4 ∧
      sumV [⟨1, 2, 4611686018427387904⟩]
        > (selectOrdersForDelivery64 id ⟨fun _ => false, "deadline"⟩
          [⟨1, 2, 4611686018427387904⟩, ⟨2, 4, 1024⟩] "robot" 4).1.totalValue := by
  decide!

/-- C2 (amended): for capacity at least 1 and a non-empty list of orders with
non-negative weights and values whose magnitudes are within the range of
exact machine arithmetic, when the search finishes without cancellation no
sub-collection of the input that fits the capacity is worth more than the
plan's `TotalValue`, and the plan's own orders are a sub-collection of the
input that reaches that value within the capacity.  Exact arithmetic of the
bound is `rnd = id`; the statement holds for `float64` as well. -/
theorem plan_is_maximal {rnd : ℚ → ℚ} (hr : Float64Like rnd) (ctx : Context)
    (orders : List Order) (rid : String) (cap : Int) (hcap : 1 ≤ cap) (hne : orders ≠ [])
    (hw : ∀ o ∈ orders, 0 ≤ o.weight) (hv : ∀ o ∈ orders, 0 ≤ o.value)
    (hrange : WithinRange orders cap)
    (hnc : (selectOrdersForDelivery64 rnd ctx orders rid cap).2 = none) :
    (∀ S : List Order, S.Sublist orders → sumW S ≤ cap →
        sumV S ≤ (selectOrdersForDelivery64 rnd ctx orders rid cap).1.totalValue) ∧
      sumV (selectOrdersForDelivery64 rnd ctx orders rid cap).1.orders
        = (selectOrdersForDelivery64 rnd ctx orders rid cap).1.totalValue ∧
      sumW (selectOrdersForDelivery64 rnd ctx orders rid cap).1.orders ≤ cap ∧
      ∃ S : List Order, S.Sublist orders ∧
        S.Perm (selectOrdersForDelivery64 rnd ctx orders rid cap).1.orders := by
  rw [select64_eq_ideal hr ctx orders rid cap (fun o ho => ⟨hw o ho, hv o ho⟩) hrange] at hnc ⊢
  exact integer_plan_maximal (exactBeyond_rounding hr) ctx orders rid cap hcap hne hw hv hnc

/-- Witness of C2 (amended) at the classic instance with exact arithmetic:
capacity 5 and orders (w2,v3), (w3,v4), (w4,v5), (w5,v6) give value 7 and
weight 5 with orders 1 and 2, and no sub-collection within the capacity is
worth more. -/
theorem plan_is_maximal_witness :
    selectOrdersForDelivery64 id ⟨fun _ => true, "deadline"⟩
        [⟨1, 2, 3⟩, ⟨2, 3, 4⟩, ⟨3, 4, 5⟩, ⟨4, 5, 6⟩] "robot" 5
      = (⟨"robot", 5, 7, [⟨1, 2, 3⟩, ⟨2, 3, 4⟩]⟩, none) ∧
    ∀ S : List Order, S.Sublist [⟨1, 2, 3⟩, ⟨2, 3, 4⟩, ⟨3, 4, 5⟩, ⟨4, 5, 6⟩] → sumW S ≤ 5 →
      sumV S ≤ (selectOrdersForDelivery64 id ⟨fun _ => true, "deadline"⟩
        [⟨1, 2, 3⟩, ⟨2, 3, 4⟩, ⟨3, 4, 5⟩, ⟨4, 5, 6⟩] "robot" 5).1.totalValue :=
  ⟨by decide!,
    (plan_is_maximal float64Like_id ⟨fun _ => true, "deadline"⟩
      [⟨1, 2, 3⟩, ⟨2, 3, 4⟩, ⟨3, 4, 5⟩, ⟨4, 5, 6⟩] "robot" 5 (by decide) (by decide)
      (by decide) (by decide) (by decide) (by decide!)).1⟩

/-- C3 (as stated) fails on the code when a sum of weights leaves the 64-bit
range.  Three orders of weight `-2^62` and value 1 with capacity 1 are all
taken by the greedy seed; their weights sum to `-3 * 2^62`, which wraps, and
the plan records `TotalWeight = 2^62`, above the capacity.  Two orders of
weight `2^62` and value 1 with capacity `3 * 2^61` are both taken by the
search, because the sum `2^63` wraps to `-2^63`, which passes the capacity
check; the plan records `TotalWeight = -2^63`, while its orders weigh `2^63`,
more than the capacity. -/
theorem wrapped_weight_breaks_capacity :
    (selectOrdersForDelivery64 float64 ⟨fun _ => false, "deadline"⟩
        [⟨1, -4611686018427387904, 1⟩, ⟨2, -4611686018427387904, 1⟩,
          ⟨3, -4611686018427387904, 1⟩] "robot" 1
        = (⟨"robot", 4611686018427387904, 3,
            [⟨1, -4611686018427387904, 1⟩, ⟨2, -4611686018427387904, 1⟩,
              ⟨3, -4611686018427387904, 1⟩]⟩, none) ∧
      (4611686018427387904 : Int) > 1 ∧
      sumW [⟨1, -4611686018427387904, 1⟩, ⟨2, -4611686018427387904, 1⟩,
        ⟨3, -4611686018427387904, 1⟩] ≠ 4611686018427387904) ∧
    (selectOrdersForDelivery64 float64 ⟨fun _ => false, "deadline"⟩
        [⟨1, 4611686018427387904, 1⟩, ⟨2, 4611686018427387904, 1⟩] "robot" 6917529027641081856
        = (⟨"robot", -9223372036854775808, 2,
            [⟨1, 4611686018427387904, 1⟩, ⟨2, 4611686018427387904, 1⟩]⟩, none) ∧
      sumW [⟨1, 4611686018427387904, 1⟩, ⟨2, 4611686018427387904, 1⟩] ≠ -9223372036854775808 ∧
      sumW [⟨1, 4611686018427387904, 1⟩, ⟨2, 4611686018427387904, 1⟩] > 6917529027641081856) := by
  decide!

/-- C3 (amended): for every candidate list whose weights have magnitudes that
sum to less than `2^63`, and every capacity from 0 to below `2^63` (the
non-negative values of a Go `int`), the plan returned by the planner (without
cancellation, and also the zero plan that accompanies a cancellation) has
`TotalWeight` equal to the summed weight of its orders, and `TotalWeight` is
at most the capacity.  Values and the rounding of the bound are arbitrary. -/
theorem totalWeight_within_capacity (rnd : ℚ → ℚ) (ctx : Context) (orders : List Order)
    (rid : String) (cap : Int) (hcap : 0 ≤ cap) (hcap64 : cap < 9223372036854775808)
    (hsum : sumAbsW orders < 9223372036854775808) :
    (selectOrdersForDelivery64 rnd ctx orders rid cap).1.totalWeight
        = sumW (selectOrdersForDelivery64 rnd ctx orders rid cap).1.orders ∧
      (selectOrdersForDelivery64 rnd ctx orders rid cap).1.totalWeight ≤ cap := by
  obtain ⟨g1, g2⟩ := select64_fits rnd ctx orders rid hcap hcap64 hsum
  exact ⟨g1, by rw [g1]; exact g2⟩

/-- Witness of C3 (amended) on the density-versus-fit instance with an order
of negative weight added: the plan holds orders 4, 1 and 2 and records their
summed weight 5, within the capacity 7. -/
theorem totalWeight_within_capacity_witness :
    selectOrdersForDelivery64 float64 ⟨fun _ => false, "deadline"⟩
        [⟨1, 3, 6⟩, ⟨2, 4, 7⟩, ⟨3, 5, 8⟩, ⟨4, -2, 1⟩] "robot" 7
      = (⟨"robot", 5, 14, [⟨4, -2, 1⟩, ⟨1, 3, 6⟩, ⟨2, 4, 7⟩]⟩, none) ∧
    (selectOrdersForDelivery64 float64 ⟨fun _ => false, "deadline"⟩
        [⟨1, 3, 6⟩, ⟨2, 4, 7⟩, ⟨3, 5, 8⟩, ⟨4, -2, 1⟩] "robot" 7).1.totalWeight ≤ 7 :=
  ⟨by decide!,
    (totalWeight_within_capacity float64 ⟨fun _ => false, "deadline"⟩
      [⟨1, 3, 6⟩, ⟨2, 4, 7⟩, ⟨3, 5, 8⟩, ⟨4, -2, 1⟩] "robot" 7 (by decide) (by decide)
      (by decide)).2⟩

/-- C5: for every input the orders of the returned plan are a subsequence of
the density-sorted copy of the input, which is a permutation of the input:
every plan entry is an input order, no input entry is used more often than it
occurs, and the entries appear in sorted-candidate order. -/
theorem plan_orders_subsequence (rnd : ℚ → ℚ) (ctx : Context) (orders : List Order)
    (rid : String) (cap : Int) :
    (selectOrdersForDelivery rnd ctx orders rid cap).1.orders.Sublist (sortCandidates orders) ∧
      (sortCandidates orders).Perm orders ∧
      (∀ o ∈ (selectOrdersForDelivery rnd ctx orders rid cap).1.orders, o ∈ orders) ∧
      ∀ o : Order, (selectOrdersForDelivery rnd ctx orders rid cap).1.orders.count o
        ≤ orders.count o := by
  obtain ⟨_, _, _, g4⟩ := select_good rnd ctx orders rid cap
  have hperm := sortCandidates_perm orders
  refine ⟨g4, hperm, fun o ho => hperm.mem_iff.mp (g4.subset ho), fun o => ?_⟩
  rw [← hperm.count_eq o]
  exact g4.count_le o

/-- C6 (as stated) fails on the code in two ways.  With capacity 5 the single
candidate of weight 0 and value 0 is not in the plan: the seed of value 0 is
not adopted and the search records nothing.  With capacity 1 and three
candidates of weight 0 and value `2^62`, the value of the greedy seed
`3 * 2^62` wraps to `-2^62`, the seed is not adopted, and the search records
order 1 alone, because the values of two and of three orders wrap to `-2^63`
and `-2^62`; the plan has `TotalValue = 2^62` and leaves the zero-weight orders
2 and 3 out. -/
theorem zero_weight_orders_left_out :
    (selectOrdersForDelivery64 float64 ⟨fun _ => false, "deadline"⟩ [⟨1, 0, 0⟩] "robot" 5
        = (⟨"robot", 0, 0, []⟩, none) ∧
      (⟨1, 0, 0⟩ : Order) ∉
        (selectOrdersForDelivery64 float64 ⟨fun _ => false, "deadline"⟩
          [⟨1, 0, 0⟩] "robot" 5).1.orders) ∧
    (selectOrdersForDelivery64 float64 ⟨fun _ => false, "deadline"⟩
        [⟨1, 0, 4611686018427387904⟩, ⟨2, 0, 4611686018427387904⟩,
          ⟨3, 0, 4611686018427387904⟩] "robot" 1
        = (⟨"robot", 0, 4611686018427387904, [⟨1, 0, 4611686018427387904⟩]⟩, none) ∧
      (⟨2, 0, 4611686018427387904⟩ : Order) ∉
        (selectOrdersForDelivery64 float64 ⟨fun _ => false, "deadline"⟩
          [⟨1, 0, 4611686018427387904⟩, ⟨2, 0, 4611686018427387904⟩,
            ⟨3, 0, 4611686018427387904⟩] "robot" 1).1.orders) := by
  decide!

/-- C6 (amended): for positive capacity and candidates with non-negative
weights and values whose magnitudes are within the range of exact machine
arithmetic, when the planner completes without cancellation with a positive
`TotalValue`, every zero-weight candidate is in the returned plan, as often as
it occurs among the candidates. -/
theorem zero_weight_orders_taken {rnd : ℚ → ℚ} (hr : Float64Like rnd) (ctx : Context)
    (orders : List Order) (rid : String) (cap : Int) (hcap : 0 < cap)
    (hw : ∀ o ∈ orders, 0 ≤ o.weight) (hv : ∀ o ∈ orders, 0 ≤ o.value)
    (hrange : WithinRange orders cap)
    (hnc : (selectOrdersForDelivery64 rnd ctx orders rid cap).2 = none)
    (hpos : 0 < (selectOrdersForDelivery64 rnd ctx orders rid cap).1.totalValue) :
    ∀ o ∈ orders, o.weight = 0 →
      o ∈ (selectOrdersForDelivery64 rnd ctx orders rid cap).1.orders ∧
      (selectOrdersForDelivery64 rnd ctx orders rid cap).1.orders.count o = orders.count o := by
  rw [select64_eq_ideal hr ctx orders rid cap (fun o ho => ⟨hw o ho, hv o ho⟩) hrange]
    at hnc hpos ⊢
  exact integer_plan_takes_zero_weight (exactBeyond_rounding hr) ctx orders rid cap hcap hw hv
    hnc hpos

/-- Witness of C6 (amended) on the zero-weight windfall instance of the
specification with a second zero-weight order, of value 0: that order is in
the plan. -/
theorem zero_weight_orders_taken_witness :
    (⟨3, 0, 0⟩ : Order) ∈ (selectOrdersForDelivery64 float64 ⟨fun _ => false, "deadline"⟩
        [⟨1, 0, 3⟩, ⟨2, 5, 4⟩, ⟨3, 0, 0⟩] "robot" 3).1.orders ∧
      (selectOrdersForDelivery64 float64 ⟨fun _ => false, "deadline"⟩
        [⟨1, 0, 3⟩, ⟨2, 5, 4⟩, ⟨3, 0, 0⟩] "robot" 3).1.orders.count ⟨3, 0, 0⟩
        = [(⟨1, 0, 3⟩ : Order), ⟨2, 5, 4⟩, ⟨3, 0, 0⟩].count ⟨3, 0, 0⟩ :=
  zero_weight_orders_taken float64_like ⟨fun _ => false, "deadline"⟩
    [⟨1, 0, 3⟩, ⟨2, 5, 4⟩, ⟨3, 0, 0⟩] "robot" 3 (by decide) (by decide) (by decide)
    (by decide) (by decide!) (by decide!) ⟨3, 0, 0⟩ (by decide) (by decide)

/-- C7: for every robot id, orders and deadline signal, if the capacity is at
most 0 or the order list is empty the planner returns, without error, the plan
with that robot id, zero totals and no orders. -/
theorem trivial_case_empty_plan (rnd : ℚ → ℚ) (ctx : Context) (orders : List Order)
    (rid : String) (cap : Int) (h : cap ≤ 0 ∨ orders = []) :
    selectOrdersForDelivery rnd ctx orders rid cap
      = ({ robotID := rid, totalWeight := 0, totalValue := 0, orders := [] }, none) := by
  apply select_trivial
  rcases h with h | h
  · exact Or.inl h
  · exact Or.inr (by rw [h]; rfl)

/-- Witness of C7 at the two boundary scenarios of the specification: no
orders with capacity 10, and one order (w1, v5) with capacity 0, both with a
deadline signal that has already fired. -/
theorem trivial_case_empty_plan_witness :
    selectOrdersForDelivery id ⟨fun _ => true, "deadline"⟩ [] "robot" 10
        = (⟨"robot", 0, 0, []⟩, none) ∧
      selectOrdersForDelivery id ⟨fun _ => true, "deadline"⟩ [⟨1, 1, 5⟩] "robot" 0
        = (⟨"robot", 0, 0, []⟩, none) :=
  ⟨trivial_case_empty_plan id ⟨fun _ => true, "deadline"⟩ [] "robot" 10 (Or.inr rfl),
    trivial_case_empty_plan id ⟨fun _ => true, "deadline"⟩ [⟨1, 1, 5⟩] "robot" 0
      (Or.inl (by decide))⟩

/-- C8: for identical orders, robot id and capacity, two invocations of the
planner that both complete without cancellation return the same plan (same
totals, same orders in the same order), whatever their deadline signals
answered. -/
theorem completed_plan_ignores_signal (rnd : ℚ → ℚ) (ctx1 ctx2 : Context)
    (orders : List Order) (rid : String) (cap : Int)
    (h1 : (selectOrdersForDelivery rnd ctx1 orders rid cap).2 = none)
    (h2 : (selectOrdersForDelivery rnd ctx2 orders rid cap).2 = none) :
    selectOrdersForDelivery rnd ctx1 orders rid cap
      = selectOrdersForDelivery rnd ctx2 orders rid cap := by
  by_cases htriv : cap ≤ 0 ∨ orders.length = 0
  · rw [select_trivial rnd ctx1 orders rid cap htriv, select_trivial rnd ctx2 orders rid cap htriv]
  · obtain ⟨d1, p1⟩ := select_searched rnd ctx1 orders rid cap htriv h1
    obtain ⟨d2, p2⟩ := select_searched rnd ctx2 orders rid cap htriv h2
    have e := dfs_ctx_irrelevant rnd ctx1 ctx2 cap (sortCandidates orders) 0 0 []
      (seedState (sortCandidates orders) cap) d1 d2
    apply Prod.ext
    · rw [p1, p2, e]
    · rw [h1, h2]

/-- Witness of C8 on the density-versus-fit instance of the specification,
once with a signal that has fired from the start and once with a signal that
never fires. -/
theorem completed_plan_ignores_signal_witness :
    selectOrdersForDelivery id ⟨fun _ => true, "deadline"⟩
        [⟨1, 3, 6⟩, ⟨2, 4, 7⟩, ⟨3, 5, 8⟩] "robot" 7
      = selectOrdersForDelivery id ⟨fun _ => false, "canceled"⟩
        [⟨1, 3, 6⟩, ⟨2, 4, 7⟩, ⟨3, 5, 8⟩] "robot" 7 :=
  completed_plan_ignores_signal id ⟨fun _ => true, "deadline"⟩ ⟨fun _ => false, "canceled"⟩
    [⟨1, 3, 6⟩, ⟨2, 4, 7⟩, ⟨3, 5, 8⟩] "robot" 7 (by decide!) (by decide!)

/-- C9: when `GenerateDeliveryPlan` returns a plan, the statements it has
issued are exactly one `UpdateStatuses` with status 'delivering' and the plan's
order ids in plan order when the plan has orders, and none when it has none;
every order of the plan is 'delivering' afterwards, and the rows of the store
are the former rows with exactly the plan's ids set to 'delivering'. -/
theorem generate_claims_the_plan (rnd : ℚ → ℚ) (ctx : Context) (store store1 : Store)
    (rid : String) (cap : Int) (plan : DeliveryPlan)
    (h : GenerateDeliveryPlan rnd ctx store rid cap = (store1, some plan, none)) :
    store1.updates = store.updates ++
        (if plan.orders = [] then [] else [⟨"delivering", plan.orders.map Order.orderID⟩]) ∧
      store1.rows = store.rows.map (fun r =>
        if r.order.orderID ∈ plan.orders.map Order.orderID then
          { r with shippedStatus := "delivering" } else r) ∧
      (∀ o ∈ plan.orders, ∃ r ∈ store1.rows, r.order = o ∧ r.shippedStatus = "delivering") ∧
      (∀ r ∈ store1.rows, r.order.orderID ∈ plan.orders.map Order.orderID →
        r.shippedStatus = "delivering") := by
  obtain ⟨hsel, hs1, hu⟩ := generate_some h
  have hrows : store1.rows = store.rows.map (fun r =>
      if r.order.orderID ∈ plan.orders.map Order.orderID then
        { r with shippedStatus := "delivering" } else r) ∧
      store1.updates = store.updates ++
        (if plan.orders = [] then [] else [⟨"delivering", plan.orders.map Order.orderID⟩]) := by
    by_cases hnil : plan.orders = []
    · rw [hnil] at hs1
      rw [List.map_nil, UpdateStatuses_nil] at hs1
      rw [hs1, hnil]
      simp
    · have hne : plan.orders.map Order.orderID ≠ [] := by simpa using hnil
      cases hx : store.execErr with
      | some e =>
        rw [UpdateStatuses_failed "delivering" hne hx] at hu
        simp at hu
      | none =>
        rw [UpdateStatuses_done "delivering" hne hx] at hs1
        rw [hs1, if_neg hnil]
        exact ⟨rfl, rfl⟩
  refine ⟨hrows.2, hrows.1, ?_, ?_⟩
  · intro o ho
    have hplan : (selectOrdersForDelivery rnd ctx (GetShippingOrders store).1 rid cap).1
        = plan := by rw [hsel]
    have hin : o ∈ (GetShippingOrders store).1 := by
      have hsub := (select_good rnd ctx (GetShippingOrders store).1 rid cap).2.2.2
      rw [hplan] at hsub
      exact (sortCandidates_perm _).mem_iff.mp (hsub.subset ho)
    obtain ⟨r, hr, hro, _⟩ := mem_getShippingOrders hin
    refine ⟨{ r with shippedStatus := "delivering" }, ?_, hro, rfl⟩
    rw [hrows.1, List.mem_map]
    refine ⟨r, hr, ?_⟩
    have : r.order.orderID ∈ plan.orders.map Order.orderID := by
      rw [hro]; exact List.mem_map_of_mem _ ho
    rw [if_pos this]
  · intro r hr hid
    rw [hrows.1, List.mem_map] at hr
    obtain ⟨r0, _, hr0⟩ := hr
    split at hr0
    · rw [← hr0]
    · rename_i hnot
      rw [← hr0] at hid
      exact absurd hid hnot

/-- Witness of C9: a store holding the four shipping orders of the classic
knapsack scenario and one completed order; the plan takes orders 1 and 2, one
UPDATE is issued for ids 1, 2 and only these two rows change. -/
theorem generate_claims_the_plan_witness :
    GenerateDeliveryPlan id ⟨fun _ => false, "deadline"⟩
        ⟨[⟨⟨1, 2, 3⟩, "shipping"⟩, ⟨⟨2, 3, 4⟩, "shipping"⟩, ⟨⟨3, 4, 5⟩, "shipping"⟩,
          ⟨⟨4, 5, 6⟩, "shipping"⟩, ⟨⟨5, 1, 9⟩, "completed"⟩], [], none, none, none, none⟩
        "robot" 5
      = (⟨[⟨⟨1, 2, 3⟩, "delivering"⟩, ⟨⟨2, 3, 4⟩, "delivering"⟩, ⟨⟨3, 4, 5⟩, "shipping"⟩,
          ⟨⟨4, 5, 6⟩, "shipping"⟩, ⟨⟨5, 1, 9⟩, "completed"⟩],
          [⟨"delivering", [1, 2]⟩], none, none, none, none⟩,
        some ⟨"robot", 5, 7, [⟨1, 2, 3⟩, ⟨2, 3, 4⟩]⟩, none) ∧
    (⟨[⟨⟨1, 2, 3⟩, "delivering"⟩, ⟨⟨2, 3, 4⟩, "delivering"⟩, ⟨⟨3, 4, 5⟩, "shipping"⟩,
        ⟨⟨4, 5, 6⟩, "shipping"⟩, ⟨⟨5, 1, 9⟩, "completed"⟩],
        [⟨"delivering", [1, 2]⟩], none, none, none, none⟩ : Store).updates
      = ([] : List UpdateStmt) ++
        (if (⟨"robot", 5, 7, [⟨1, 2, 3⟩, ⟨2, 3, 4⟩]⟩ : DeliveryPlan).orders = [] then []
          else [⟨"delivering",
            (⟨"robot", 5, 7, [⟨1, 2, 3⟩, ⟨2, 3, 4⟩]⟩ : DeliveryPlan).orders.map Order.orderID⟩]) :=
  ⟨by decide!,
    (generate_claims_the_plan id ⟨fun _ => false, "deadline"⟩
      ⟨[⟨⟨1, 2, 3⟩, "shipping"⟩, ⟨⟨2, 3, 4⟩, "shipping"⟩, ⟨⟨3, 4, 5⟩, "shipping"⟩,
        ⟨⟨4, 5, 6⟩, "shipping"⟩, ⟨⟨5, 1, 9⟩, "completed"⟩], [], none, none, none, none⟩
      ⟨[⟨⟨1, 2, 3⟩, "delivering"⟩, ⟨⟨2, 3, 4⟩, "delivering"⟩, ⟨⟨3, 4, 5⟩, "shipping"⟩,
        ⟨⟨4, 5, 6⟩, "shipping"⟩, ⟨⟨5, 1, 9⟩, "completed"⟩],
        [⟨"delivering", [1, 2]⟩], none, none, none, none⟩
      "robot" 5 ⟨"robot", 5, 7, [⟨1, 2, 3⟩, ⟨2, 3, 4⟩]⟩ (by decide!)).1⟩

/-- C10: whenever the search is cancelled, the planner returns the error of
the deadline together with the zero plan (no orders, zero totals; the best
set so far, greedy seed included, is dropped), and `GenerateDeliveryPlan`,
having read these orders in its transaction, returns no plan and that error
and leaves the store as it was: no `UpdateStatuses` statement is issued and no
row changes. -/
theorem cancelled_search_discards_plan (rnd : ℚ → ℚ) (ctx : Context) (orders : List Order)
    (rid : String) (cap : Int) (hcap : 0 < cap) (hne : orders ≠ [])
    (hc : (dfs rnd ctx cap (sortCandidates orders) 0 0 []
      (seedState (sortCandidates orders) cap)).1 = true) :
    selectOrdersForDelivery rnd ctx orders rid cap
        = ({ robotID := "", totalWeight := 0, totalValue := 0, orders := [] }, some ctx.err) ∧
      ∀ store : Store, store.beginErr = none → store.selectErr = none →
        (GetShippingOrders store).1 = orders →
        GenerateDeliveryPlan rnd ctx store rid cap = (store, none, some ctx.err) := by
  have hsel := select_of_cancelled_search rnd ctx orders rid cap hcap hne hc
  refine ⟨hsel, ?_⟩
  intro store hb hq ho
  exact generate_of_failed_select rnd ctx store rid cap ctx.err hb hq (by rw [ho]; exact hsel)

/-- Witness of C10: 16,384 shipping orders of weight 2 and value 1, capacity
1, and a deadline signal that has fired: the search is cancelled at its
16,384th entry, the planner returns the zero plan with the error of the
deadline, and `GenerateDeliveryPlan` returns no plan and leaves the store as
it was. -/
theorem cancelled_search_discards_plan_witness :
    selectOrdersForDelivery id ⟨fun _ => true, "deadline exceeded"⟩ (heavyOrders 16384)
        "robot" 1
      = ({ robotID := "", totalWeight := 0, totalValue := 0, orders := [] },
          some "deadline exceeded") ∧
    GenerateDeliveryPlan id ⟨fun _ => true, "deadline exceeded"⟩
        ⟨(heavyOrders 16384).map (fun o => ⟨o, "shipping"⟩), [], none, none, none, none⟩
        "robot" 1
      = (⟨(heavyOrders 16384).map (fun o => ⟨o, "shipping"⟩), [], none, none, none, none⟩,
          none, some "deadline exceeded") :=
  have h := cancelled_search_discards_plan id ⟨fun _ => true, "deadline exceeded"⟩
    (heavyOrders 16384) "robot" 1 (by decide)
    (by
      intro h
      have hl := congrArg List.length h
      rw [heavyOrders, List.length_map, List.length_range] at hl
      exact absurd hl (by decide))
    (heavy_search_cancelled ⟨fun _ => true, "deadline exceeded"⟩ (fun _ => rfl) 16384
      (by decide))
  ⟨h.1, h.2 _ rfl rfl (getShippingOrders_all_shipping _ _)⟩

/-- C11 (as stated) fails: `UpdateOrderStatus` with the status 'bogus', which
is neither 'delivering' nor 'completed', returns no error, has issued one
UPDATE statement and has written 'bogus' into the row. -/
theorem unknown_status_is_written :
    UpdateOrderStatus ⟨fun _ => false, "deadline"⟩
        ⟨[⟨⟨1, 2, 3⟩, "shipping"⟩], [], none, none, none, none⟩ 1 "bogus"
      = (⟨[⟨⟨1, 2, 3⟩, "bogus"⟩], [⟨"bogus", [1]⟩], none, none, none, none⟩, none) := by
  decide

/-- C11 (amended): for every order id and every status string, one of the
lifecycle states or not, `UpdateOrderStatus` does not validate the status: it
issues exactly one UPDATE statement with that status for that id and returns
the answer of the store; when the statement succeeds the rows with that id
carry the status. -/
theorem updateOrderStatus_not_validated (ctx : Context) (store : Store) (orderID : Int)
    (newStatus : String) :
    (UpdateOrderStatus ctx store orderID newStatus).1.updates
        = store.updates ++ [⟨newStatus, [orderID]⟩] ∧
      (UpdateOrderStatus ctx store orderID newStatus).2 = store.execErr ∧
      (store.execErr = none →
        (UpdateOrderStatus ctx store orderID newStatus).1.rows = store.rows.map (fun r =>
          if r.order.orderID = orderID then { r with shippedStatus := newStatus } else r)) := by
  unfold UpdateOrderStatus WithTimeout
  cases hx : store.execErr with
  | some e =>
    rw [UpdateStatuses_failed newStatus (List.cons_ne_nil _ _) hx]
    exact ⟨rfl, rfl, fun h => by simp at h⟩
  | none =>
    rw [UpdateStatuses_done newStatus (List.cons_ne_nil _ _) hx]
    refine ⟨rfl, rfl, fun _ => ?_⟩
    simp only [List.mem_singleton]

/-- C12 (as stated) fails: `UpdateOrderStatus` returns a delivering order to
'shipping', and moves a completed order to 'delivering'; in both sequences of
one call a status change other than shipping to delivering and delivering to
completed occurs. -/
theorem status_update_breaks_lifecycle :
    (runCalls ⟨[⟨⟨1, 2, 3⟩, "delivering"⟩], [], none, none, none, none⟩
        [Call.updateOrderStatus ⟨fun _ => false, "deadline"⟩ 1 "shipping"]).rows
      = [⟨⟨1, 2, 3⟩, "shipping"⟩] ∧
    (runCalls ⟨[⟨⟨1, 2, 3⟩, "completed"⟩], [], none, none, none, none⟩
        [Call.updateOrderStatus ⟨fun _ => false, "deadline"⟩ 1 "delivering"]).rows
      = [⟨⟨1, 2, 3⟩, "delivering"⟩] := by
  decide

/-- C12 (amended): over every sequence of `UpdateOrderStatus`, `UpdateStatuses`
and `GenerateDeliveryPlan` calls (and failures of the driver) in which no
status update is given the status 'shipping', every row keeps its order and a
row whose status is not 'shipping' never has status 'shipping' again; and
`GenerateDeliveryPlan`, on a store with unique order ids, changes a row only
from 'shipping' to 'delivering'. -/
theorem lifecycle_without_shipping_writes (store : Store) :
    (∀ calls : List Call, (∀ c ∈ calls, ¬ writesShipping c) →
      List.Forall₂ (fun r r1 => r1.order = r.order ∧
          (r.shippedStatus ≠ "shipping" → r1.shippedStatus ≠ "shipping"))
        store.rows (runCalls store calls).rows) ∧
    (∀ (rnd : ℚ → ℚ) (ctx : Context) (rid : String) (cap : Int),
      (store.rows.map (fun r => r.order.orderID)).Nodup →
      List.Forall₂ (fun r r1 => r1 = r ∨
          (r.shippedStatus = "shipping" ∧ r1 = { r with shippedStatus := "delivering" }))
        store.rows (GenerateDeliveryPlan rnd ctx store rid cap).1.rows) :=
  ⟨fun calls h => runCalls_keeps_left calls store h,
    fun rnd ctx rid cap h => generate_only_claims rnd ctx store rid cap h⟩

/-- C13: for every request, the ORDER BY clause that `ListOrders` builds names
a column of the allowlist p.name, o.created_at, o.shipped_status,
o.arrived_at, o.order_id (a sort field outside the recognised names gives
o.order_id), so that the clause is one of ten fixed texts and no text of the
request enters it; the direction is DESC exactly when the upper-cased sort
order is "DESC" and ASC otherwise; behind a column other than o.order_id the
clause has o.order_id as second key in the same direction, and no second key
behind o.order_id; the clause is the one in the data query. -/
theorem listOrders_order_by (toUpper : String → String) (userID : Int) (req : ListRequest) :
    ordersSortField req
        ∈ ["p.name", "o.created_at", "o.shipped_status", "o.arrived_at", "o.order_id"] ∧
      (req.sortField ∉ ["name", "product_name", "created_at", "shipped_status", "arrived_at"] →
        ordersSortField req = "o.order_id") ∧
      (sortOrder toUpper req = "DESC" ↔ toUpper req.sortOrder = "DESC") ∧
      (sortOrder toUpper req = "ASC" ↔ toUpper req.sortOrder ≠ "DESC") ∧
      ordersOrderBy toUpper req
        = " ORDER BY " ++ ordersSortField req ++ " " ++ sortOrder toUpper req
          ++ (if ordersSortField req = "o.order_id" then ""
              else ", o.order_id " ++ sortOrder toUpper req) ∧
      ordersOrderBy toUpper req ∈
        [" ORDER BY p.name ASC, o.order_id ASC", " ORDER BY p.name DESC, o.order_id DESC",
         " ORDER BY o.created_at ASC, o.order_id ASC",
         " ORDER BY o.created_at DESC, o.order_id DESC",
         " ORDER BY o.shipped_status ASC, o.order_id ASC",
         " ORDER BY o.shipped_status DESC, o.order_id DESC",
         " ORDER BY o.arrived_at ASC, o.order_id ASC",
         " ORDER BY o.arrived_at DESC, o.order_id DESC",
         " ORDER BY o.order_id ASC", " ORDER BY o.order_id DESC"] ∧
      ∃ front : String, (ListOrders toUpper userID req).2.text
        = front ++ ordersOrderBy toUpper req ++ " LIMIT ? OFFSET ?" := by
  have hdir := sortOrder_cases toUpper req
  have hcol := ordersSortField_cases req
  refine ⟨?_, ?_, ?_, ?_, ?_, ?_, ⟨_, rfl⟩⟩
  · rcases hcol with ⟨_, h⟩ | ⟨_, h⟩ | ⟨_, h⟩ | ⟨_, h⟩ | ⟨_, h⟩ <;> rw [h] <;> decide
  · intro hnot
    rcases hcol with ⟨h0, _⟩ | ⟨h0, _⟩ | ⟨h0, _⟩ | ⟨h0, _⟩ | ⟨_, h⟩
    · exfalso; apply hnot; rcases h0 with h0 | h0 <;> rw [h0] <;> decide
    · exfalso; apply hnot; rw [h0]; decide
    · exfalso; apply hnot; rw [h0]; decide
    · exfalso; apply hnot; rw [h0]; decide
    · exact h
  · rcases hdir with ⟨h1, h2⟩ | ⟨h1, h2⟩
    · exact ⟨fun _ => h1, fun _ => h2⟩
    · rw [h2]; exact ⟨fun h => absurd h (by decide), fun h => absurd h h1⟩
  · rcases hdir with ⟨h1, h2⟩ | ⟨h1, h2⟩
    · rw [h2]; exact ⟨fun h => absurd h (by decide), fun h => absurd h1 h⟩
    · exact ⟨fun _ => h1, fun _ => h2⟩
  · unfold ordersOrderBy
    split
    · rw [String.append_empty]
    · simp only [String.append_assoc]
  · unfold ordersOrderBy
    rcases hcol with ⟨_, h⟩ | ⟨_, h⟩ | ⟨_, h⟩ | ⟨_, h⟩ | ⟨_, h⟩ <;>
      rcases hdir with ⟨_, h2⟩ | ⟨_, h2⟩ <;> rw [h, h2] <;> decide

/-- C14: for every request, the ORDER BY clause that `ListProducts` builds
names a column among name, value, weight, product_id (a sort field outside
name, value, weight gives product_id), so that the clause is one of eight
fixed texts; the direction is DESC exactly when the upper-cased sort order is
"DESC" and ASC otherwise; behind a column other than product_id the clause has
product_id as second key, always ascending, whatever the direction; the
clause is the one in the data query. -/
theorem listProducts_order_by (toUpper toLower : String → String) (userID : Int)
    (req : ListRequest) :
    productsSortField req ∈ ["name", "value", "weight", "product_id"] ∧
      (req.sortField ∉ ["name", "value", "weight"] → productsSortField req = "product_id") ∧
      (sortOrder toUpper req = "DESC" ↔ toUpper req.sortOrder = "DESC") ∧
      (sortOrder toUpper req = "ASC" ↔ toUpper req.sortOrder ≠ "DESC") ∧
      productsOrderBy toUpper req
        = " ORDER BY " ++ productsSortField req ++ " " ++ sortOrder toUpper req
          ++ (if productsSortField req = "product_id" then "" else ", product_id ASC") ∧
      productsOrderBy toUpper req ∈
        [" ORDER BY name ASC, product_id ASC", " ORDER BY name DESC, product_id ASC",
         " ORDER BY value ASC, product_id ASC", " ORDER BY value DESC, product_id ASC",
         " ORDER BY weight ASC, product_id ASC", " ORDER BY weight DESC, product_id ASC",
         " ORDER BY product_id ASC", " ORDER BY product_id DESC"] ∧
      ∃ front : String, (ListProducts toUpper toLower userID req).2.text
        = front ++ productsOrderBy toUpper req ++ " LIMIT ? OFFSET ?" := by
  have hdir := sortOrder_cases toUpper req
  have hcol := productsSortField_cases req
  refine ⟨?_, ?_, ?_, ?_, ?_, ?_, ⟨_, rfl⟩⟩
  · rcases hcol with ⟨_, h⟩ | ⟨_, h⟩ | ⟨_, h⟩ | ⟨_, h⟩ <;> rw [h] <;> decide
  · intro hnot
    rcases hcol with ⟨h0, _⟩ | ⟨h0, _⟩ | ⟨h0, _⟩ | ⟨_, h⟩
    · exfalso; apply hnot; rw [h0]; decide
    · exfalso; apply hnot; rw [h0]; decide
    · exfalso; apply hnot; rw [h0]; decide
    · exact h
  · rcases hdir with ⟨h1, h2⟩ | ⟨h1, h2⟩
    · exact ⟨fun _ => h1, fun _ => h2⟩
    · rw [h2]; exact ⟨fun h => absurd h (by decide), fun h => absurd h h1⟩
  · rcases hdir with ⟨h1, h2⟩ | ⟨h1, h2⟩
    · rw [h2]; exact ⟨fun h => absurd h (by decide), fun h => absurd h1 h⟩
    · exact ⟨fun _ => h1, fun _ => h2⟩
  · unfold productsOrderBy
    split
    · rw [String.append_empty]
    · rfl
  · unfold productsOrderBy
    rcases hcol with ⟨_, h⟩ | ⟨_, h⟩ | ⟨_, h⟩ | ⟨_, h⟩ <;>
      rcases hdir with ⟨_, h2⟩ | ⟨_, h2⟩ <;> rw [h, h2] <;> decide

/-- C15: for every user id and request, the count query and the data query of
`ListOrders` carry the same filter text from WHERE on and the same filter
arguments behind the user id (none when the search text is empty, the search
text followed by % for type "prefix", the search text between two % otherwise),
and so do those of `ListProducts` (with the pattern given twice, for name and
for description, and the type compared in lower case); in both the arguments
of the data query are those of the count query followed by the page size and
the offset, and the count query contains no ORDER BY, LIMIT or OFFSET. -/
theorem list_queries_share_filter (toUpper toLower : String → String) (userID : Int)
    (req : ListRequest) :
    ((ListOrders toUpper userID req).1.text
        = "\n        SELECT COUNT(*) as total\n        FROM orders o\n        JOIN products p ON o.product_id = p.product_id\n        "
          ++ ordersWhereText req ∧
      (ListOrders toUpper userID req).2.text
        = "\n        SELECT o.order_id, o.product_id, o.shipped_status, o.created_at, o.arrived_at, p.name as product_name\n        FROM orders o\n        JOIN products p ON o.product_id = p.product_id\n        "
          ++ ordersWhereText req ++ ordersOrderBy toUpper req ++ " LIMIT ? OFFSET ?" ∧
      (ListOrders toUpper userID req).1.args = [Arg.int userID] ++ ordersFilterArgs req ∧
      (ListOrders toUpper userID req).2.args
        = (ListOrders toUpper userID req).1.args ++ [Arg.int req.pageSize, Arg.int req.offset] ∧
      ¬ occursIn "ORDER BY" (ListOrders toUpper userID req).1.text ∧
      ¬ occursIn "LIMIT" (ListOrders toUpper userID req).1.text ∧
      ¬ occursIn "OFFSET" (ListOrders toUpper userID req).1.text) ∧
    ((ListProducts toUpper toLower userID req).1.text
        = "SELECT COUNT(*) FROM products" ++ (productsWhere toLower req).text ∧
      (ListProducts toUpper toLower userID req).2.text
        = "\n\t\tSELECT product_id, name, value, weight, image, description\n\t\tFROM products\n\t"
          ++ (productsWhere toLower req).text ++ productsOrderBy toUpper req
          ++ " LIMIT ? OFFSET ?" ∧
      (productsWhere toLower req).text
        = (if req.search = "" then "" else " WHERE (name LIKE ? OR description LIKE ?)") ∧
      (ListProducts toUpper toLower userID req).1.args = productsFilterArgs toLower req ∧
      (ListProducts toUpper toLower userID req).2.args
        = (ListProducts toUpper toLower userID req).1.args
          ++ [Arg.int req.pageSize, Arg.int req.offset] ∧
      ¬ occursIn "ORDER BY" (ListProducts toUpper toLower userID req).1.text ∧
      ¬ occursIn "LIMIT" (ListProducts toUpper toLower userID req).1.text ∧
      ¬ occursIn "OFFSET" (ListProducts toUpper toLower userID req).1.text) := by
  constructor
  · have hno := ordersCount_no_sort userID req
    refine ⟨?_, ?_, ?_, ?_, hno.1, hno.2.1, hno.2.2⟩
    · show (ordersCountQuery userID req).text = _
      rw [ordersCountQuery_eq]
    · show (ordersDataQuery toUpper userID req).text = _
      rw [ordersDataQuery_eq]
    · show (ordersCountQuery userID req).args = _
      rw [ordersCountQuery_eq]
    · show (ordersDataQuery toUpper userID req).args = (ordersCountQuery userID req).args ++ _
      rw [ordersDataQuery_eq, ordersCountQuery_eq]
  · have hw := productsWhere_cases toLower req
    refine ⟨rfl, rfl, ?_, ?_, rfl, ?_⟩
    · rcases hw with ⟨hs, h⟩ | ⟨hs, h⟩
      · rw [h, if_pos hs]
      · rw [h, if_neg hs]
    · show (productsWhere toLower req).args = _
      rcases hw with ⟨hs, h⟩ | ⟨hs, h⟩
      · rw [h]; unfold productsFilterArgs; rw [if_pos hs]
      · rw [h]
    · show ¬ occursIn "ORDER BY" ("SELECT COUNT(*) FROM products" ++ (productsWhere toLower req).text) ∧
        ¬ occursIn "LIMIT" ("SELECT COUNT(*) FROM products" ++ (productsWhere toLower req).text) ∧
        ¬ occursIn "OFFSET" ("SELECT COUNT(*) FROM products" ++ (productsWhere toLower req).text)
      rcases hw with ⟨_, h⟩ | ⟨_, h⟩ <;> rw [h] <;> dsimp only <;> decide!

/-- C17: for every candidate list sorted by the comparator, with non-negative
weights and values, split at an index into `pre` and `rest`, and every weight
`curWeight` of a sub-collection of `pre` that is within the capacity,
`fractionalBound` on `rest` and `curWeight` is at least the summed value of
every sub-collection of `rest` whose summed weight is at most
`capacity - curWeight`; this includes the early return 0 at
`curWeight = capacity`.  The closure exists only behind the guard
`robotCapacity > 0`.  Exact arithmetic is `rnd = id`; the statement holds for
every monotone rounding that is exact on integers. -/
theorem fractionalBound_admissible {rnd : ℚ → ℚ} (hr : Rounding rnd) (cap : Int)
    (hcap : 0 < cap) (pre rest cs S : List Order)
    (hw : ∀ o ∈ pre ++ rest, 0 ≤ o.weight) (hv : ∀ o ∈ pre ++ rest, 0 ≤ o.value)
    (hsorted : (pre ++ rest).Pairwise notAfter)
    (hcs : cs.Sublist pre) (_hcw : sumW cs ≤ cap)
    (hS : S.Sublist rest) (hfit : sumW S ≤ cap - sumW cs) :
    (sumV S : ℚ) ≤ fractionalBound rnd cap rest (sumW cs) := by
  have hwr : ∀ o ∈ rest, 0 ≤ o.weight := fun o ho => hw o (List.mem_append_right _ ho)
  have hvr : ∀ o ∈ rest, 0 ≤ o.value := fun o ho => hv o (List.mem_append_right _ ho)
  have hwp : ∀ o ∈ pre, 0 ≤ o.weight := fun o ho => hw o (List.mem_append_left _ ho)
  have hpr : rest.Pairwise notAfter := (List.pairwise_append.mp hsorted).2.1
  have hz : 0 < sumW cs → ∀ o ∈ rest, 0 < o.weight := by
    intro hpos o ho
    obtain ⟨a, ha, hapos⟩ := exists_pos_of_sumW_pos (fun b hb => hwp b (hcs.subset hb)) hpos
    exact notAfter_pos_of_pos (hwr o ho)
      ((List.pairwise_append.mp hsorted).2.2 a (hcs.subset ha) o ho) hapos
  exact fractionalBound_ge hr hcap hwr hvr hpr hz hS (by omega)

/-- Witness of C17 in exact arithmetic on the classic instance: after taking
order 1 (weight 2) the bound on the remaining three orders with capacity 5 is
at least the value 4 of order 2, which fits the remaining capacity 3. -/
theorem fractionalBound_admissible_witness :
    ((sumV [⟨2, 3, 4⟩] : Int) : ℚ)
      ≤ fractionalBound id 5 [⟨2, 3, 4⟩, ⟨3, 4, 5⟩, ⟨4, 5, 6⟩] (sumW [⟨1, 2, 3⟩]) :=
  fractionalBound_admissible rounding_id 5 (by decide) [⟨1, 2, 3⟩]
    [⟨2, 3, 4⟩, ⟨3, 4, 5⟩, ⟨4, 5, 6⟩] [⟨1, 2, 3⟩] [⟨2, 3, 4⟩] (by decide) (by decide)
    (by decide) (List.Sublist.refl _) (by decide)
    (List.Sublist.cons₂ _ (List.nil_sublist _)) (by decide)

/-- C18 (as stated) fails on the code: for the orders (w2, v2^62) and
(w4, v1024), of non-negative weight and value, the comparator puts order 2
strictly before order 1, because the product `2^62 * 4` wraps to 0 in 64 bits
and `1024 * 2 > 0`; the sorted candidates are order 2, order 1, although
order 2, which now precedes, has the smaller value per weight
(`1024 * 2 < 2^62 * 4`). -/
theorem wrapped_products_break_density_order :
    (∀ o ∈ [(⟨1, 2, 4611686018427387904⟩ : Order), ⟨2, 4, 1024⟩], 0 ≤ o.weight ∧ 0 ≤ o.value) ∧
      less64 ⟨2, 4, 1024⟩ ⟨1, 2, 4611686018427387904⟩ = true ∧
      sortCandidates64 [⟨1, 2, 4611686018427387904⟩, ⟨2, 4, 1024⟩]
        = [⟨2, 4, 1024⟩, ⟨1, 2, 4611686018427387904⟩] ∧
      ¬ ((⟨1, 2, 4611686018427387904⟩ : Order).value * (⟨2, 4, 1024⟩ : Order).weight
          ≤ (⟨2, 4, 1024⟩ : Order).value * (⟨1, 2, 4611686018427387904⟩ : Order).weight) := by
  decide

/-- C18 (amended): for orders with non-negative weights and values in which
every product of a value with a weight is below `2^63`, the comparator is a
strict weak ordering on them (irreflexive, transitive, incomparability
transitive), and the sorted candidates are a permutation of the input in
which no order of positive weight precedes one of weight zero, zero-weight
orders are in non-increasing value, positive-weight orders are in
non-increasing value per weight (`v_j * w_i ≤ v_i * w_j` for `i` before `j`),
and an order that precedes another in the input and is not placed after it by
the comparator still precedes it (stability; in particular for two orders
that the comparator does not separate). -/
theorem sort_is_stable_density_order (orders : List Order)
    (hwv : ∀ o ∈ orders, 0 ≤ o.weight ∧ 0 ≤ o.value)
    (hprod : ∀ a ∈ orders, ∀ b ∈ orders, a.value * b.weight < 9223372036854775808) :
    ((∀ a ∈ orders, less64 a a = false) ∧
      (∀ a ∈ orders, ∀ b ∈ orders, ∀ c ∈ orders,
        less64 a b = true → less64 b c = true → less64 a c = true) ∧
      (∀ a ∈ orders, ∀ b ∈ orders, ∀ c ∈ orders,
        less64 a b = false ∧ less64 b a = false → less64 b c = false ∧ less64 c b = false →
          less64 a c = false ∧ less64 c a = false)) ∧
      (sortCandidates64 orders).Perm orders ∧
      (sortCandidates64 orders).Pairwise (fun a b =>
        (0 < a.weight → 0 < b.weight) ∧
        (a.weight = 0 → b.weight = 0 → b.value ≤ a.value) ∧
        (0 < a.weight → 0 < b.weight → b.value * a.weight ≤ a.value * b.weight)) ∧
      (∀ a b : Order, [a, b].Sublist orders → less64 b a = false →
        [a, b].Sublist (sortCandidates64 orders)) := by
  have hw : ∀ o ∈ orders, 0 ≤ o.weight := fun o ho => (hwv o ho).1
  have hless : ∀ a ∈ orders, ∀ b ∈ orders, less64 a b = less a b := by
    intro a ha b hb
    have h1 : 0 ≤ a.value * b.weight := Int.mul_nonneg (hwv a ha).2 (hwv b hb).1
    have h2 : 0 ≤ b.value * a.weight := Int.mul_nonneg (hwv b hb).2 (hwv a ha).1
    exact less64_eq_less ⟨by omega, hprod a ha b hb⟩ ⟨by omega, hprod b hb a ha⟩
  have hsort := sortCandidates64_eq hwv hprod
  have hperm := sortCandidates_perm orders
  rw [hsort]
  refine ⟨⟨fun a ha => by rw [hless a ha a ha]; exact less_irrefl a, ?_, ?_⟩, hperm, ?_, ?_⟩
  · intro a ha b hb c hc
    rw [hless a ha b hb, hless b hb c hc, hless a ha c hc]
    exact less_trans (hw a ha) (hw b hb) (hw c hc)
  · intro a ha b hb c hc
    rw [hless a ha b hb, hless b hb a ha, hless b hb c hc, hless c hc b hb, hless a ha c hc,
      hless c hc a ha]
    exact incomparable_trans (hw a ha) (hw b hb) (hw c hc)
  · have hsorted := sortCandidates_sorted orders hw
    have hmem : ∀ o ∈ sortCandidates orders, 0 ≤ o.weight :=
      fun o ho => hw o (hperm.mem_iff.mp ho)
    refine List.Pairwise.imp_of_mem ?_ hsorted
    intro a b _ hb hab
    exact ⟨fun hpos => notAfter_pos_of_pos (hmem b hb) hab hpos,
      fun h1 h2 => notAfter_zero_value hab h1 h2,
      fun h1 h2 => notAfter_density hab h1 h2⟩
  · intro a b hsub hnot
    have ha : a ∈ orders := hsub.subset (by simp)
    have hb : b ∈ orders := hsub.subset (by simp)
    rw [hless b hb a ha] at hnot
    exact List.pair_sublist_insertionSort hnot hsub

/-- Witness of C18 (amended): orders 1 and 3 have the same density 2 and keep
their input order, behind the zero-weight order 4 and before order 2 of
density 3/2. -/
theorem sort_is_stable_density_order_witness :
    sortCandidates64 [⟨1, 1, 2⟩, ⟨2, 2, 3⟩, ⟨3, 2, 4⟩, ⟨4, 0, 1⟩]
        = [⟨4, 0, 1⟩, ⟨1, 1, 2⟩, ⟨3, 2, 4⟩, ⟨2, 2, 3⟩] ∧
      [(⟨1, 1, 2⟩ : Order), ⟨3, 2, 4⟩].Sublist
        (sortCandidates64 [⟨1, 1, 2⟩, ⟨2, 2, 3⟩, ⟨3, 2, 4⟩, ⟨4, 0, 1⟩]) :=
  ⟨by decide,
    (sort_is_stable_density_order [⟨1, 1, 2⟩, ⟨2, 2, 3⟩, ⟨3, 2, 4⟩, ⟨4, 0, 1⟩]
      (by decide) (by decide)).2.2.2 ⟨1, 1, 2⟩ ⟨3, 2, 4⟩
      (List.Sublist.cons₂ _ (List.Sublist.cons _ (List.Sublist.cons₂ _ (List.nil_sublist _))))
      (by decide)⟩

/-- C20 (as stated) fails in its word "optimal": with capacity 4, the orders
(w2, v2^62) and (w4, v1024) and a deadline signal that has fired before the
search starts, the search makes one counted entry, the planner reports no
cancellation and returns the plan of order 2 alone, worth 1024, although
order 1 alone fits the capacity and is worth `2^62`. -/
theorem unpolled_plan_not_optimal :
    (dfs64 float64 ⟨fun _ => false, "deadline"⟩ 4
        (sortCandidates64 [⟨1, 2, 4611686018427387904⟩, ⟨2, 4, 1024⟩]) 0 0 []
        (seedState64 (sortCandidates64 [⟨1, 2, 4611686018427387904⟩, ⟨2, 4, 1024⟩]) 4)).2.steps
        = 1 ∧
      selectOrdersForDelivery64 float64 ⟨fun _ => true, "deadline"⟩
        [⟨1, 2, 4611686018427387904⟩, ⟨2, 4, 1024⟩] "robot" 4
        = (⟨"robot", 4, 1024, [⟨2, 4, 1024⟩]⟩, none) ∧
      [(⟨1, 2, 4611686018427387904⟩ : Order)].Sublist
        [⟨1, 2, 4611686018427387904⟩, ⟨2, 4, 1024⟩] ∧
      sumW [⟨1, 2, 4611686018427387904⟩] ≤ 4 ∧
      sumV [⟨1, 2, 4611686018427387904⟩] > 1024 := by
  decide!

/-- C20 (amended): the search reads the deadline signal at the step counts
that are multiples of 16,384 and at no other: two signals that agree at the
multiples give the same result of the planner, and when the signal answers
that it has fired at a positive multiple that the counter of the undisturbed
search reaches, the planner reports cancellation.  Therefore, when the search,
left alone, makes fewer than 16,384 counted entries, the planner reports no
cancellation under any signal, also one that has fired before the search
started, and returns the plan of the undisturbed search; that plan is optimal
for positive capacity and candidates of non-negative weight and value whose
magnitudes are within the range of exact machine arithmetic.  The counter
counts the entries that pass the capacity check, so it is at most the number
of recursion entries. -/
theorem polls_at_multiples_of_checkEvery (rnd : ℚ → ℚ) (ctx : Context)
    (orders : List Order) (rid : String) (cap : Int) :
    (∀ ctx2 : Context, ctx2.err = ctx.err →
        (∀ n, n % 16384 = 0 → ctx2.done n = ctx.done n) →
        selectOrdersForDelivery64 rnd ctx2 orders rid cap
          = selectOrdersForDelivery64 rnd ctx orders rid cap) ∧
      (∀ m : Nat, m % 16384 = 0 → 0 < m → ctx.done m = true →
        0 < cap → orders ≠ [] →
        m ≤ (dfs64 rnd ⟨fun _ => false, ctx.err⟩ cap (sortCandidates64 orders) 0 0 []
          (seedState64 (sortCandidates64 orders) cap)).2.steps →
        selectOrdersForDelivery64 rnd ctx orders rid cap = (emptyPlan, some ctx.err)) ∧
      ((dfs64 rnd ⟨fun _ => false, ctx.err⟩ cap (sortCandidates64 orders) 0 0 []
          (seedState64 (sortCandidates64 orders) cap)).2.steps < 16384 →
        (selectOrdersForDelivery64 rnd ctx orders rid cap).2 = none ∧
        selectOrdersForDelivery64 rnd ctx orders rid cap
          = selectOrdersForDelivery64 rnd ⟨fun _ => false, ctx.err⟩ orders rid cap ∧
        (Float64Like rnd → 0 < cap → (∀ o ∈ orders, 0 ≤ o.weight ∧ 0 ≤ o.value) →
          WithinRange orders cap →
          ∀ S : List Order, S.Sublist orders → sumW S ≤ cap →
            sumV S ≤ (selectOrdersForDelivery64 rnd ctx orders rid cap).1.totalValue)) := by
  refine ⟨?_, ?_, ?_⟩
  · intro ctx2 herr hagree
    exact select64_congr_dfs rnd ctx2 ctx orders rid cap herr
      (dfs64_polls_multiples rnd ctx2 ctx cap hagree _ _ _ _ _)
  · intro m hm hpos hdone hcap hne hle
    have htriv : ¬ (cap ≤ 0 ∨ orders.length = 0) := by
      intro h
      rcases h with h | h
      · omega
      · exact hne (List.length_eq_zero.mp h)
    exact select64_cancelled_at_poll rnd ctx orders rid cap htriv m hm hpos hdone hle
  · intro hsteps
    have hsame := dfs64_below_checkEvery rnd ctx ctx.err cap (sortCandidates64 orders) 0 0 []
      (seedState64 (sortCandidates64 orders) cap) hsteps
    have hnever := dfs64_never_cancelled rnd ctx.err cap (sortCandidates64 orders) 0 0 []
      (seedState64 (sortCandidates64 orders) cap)
    have hsel := select64_congr_dfs rnd ctx ⟨fun _ => false, ctx.err⟩ orders rid cap rfl hsame
    have hnone : (selectOrdersForDelivery64 rnd ctx orders rid cap).2 = none := by
      rw [hsel, select64_eq]
      split_ifs with h1 h2
      · rfl
      · rw [hnever] at h2; simp at h2
      · rfl
    refine ⟨hnone, hsel, ?_⟩
    intro hr hcap hwv hrange S hS hfit
    by_cases hne : orders = []
    · subst hne
      rw [List.sublist_nil.mp hS, select64_eq]
      simp [sumV]
    · have e := select64_eq_ideal hr ctx orders rid cap hwv hrange
      have hnone2 := hnone
      rw [e] at hnone2 ⊢
      exact (integer_plan_maximal (exactBeyond_rounding hr) ctx orders rid cap (by omega) hne
        (fun o ho => (hwv o ho).1) (fun o ho => (hwv o ho).2) hnone2).1 S hS hfit

/-- Witness of C20 (amended).  On the density-versus-fit instance, under a
deadline signal that has fired before the search starts, the undisturbed
search makes 1 counted entry and the plan of value 13 is returned.  On 16,384
orders of weight 2 and value 1 with capacity 1 the counter of the undisturbed
search reaches 16,384, and under a signal that has fired the planner reports
the cancellation. -/
theorem polls_at_multiples_of_checkEvery_witness :
    ((selectOrdersForDelivery64 float64 ⟨fun _ => true, "deadline"⟩
        [⟨1, 3, 6⟩, ⟨2, 4, 7⟩, ⟨3, 5, 8⟩] "robot" 7).2 = none ∧
      selectOrdersForDelivery64 float64 ⟨fun _ => true, "deadline"⟩
        [⟨1, 3, 6⟩, ⟨2, 4, 7⟩, ⟨3, 5, 8⟩] "robot" 7
        = (⟨"robot", 7, 13, [⟨1, 3, 6⟩, ⟨2, 4, 7⟩]⟩, none)) ∧
    selectOrdersForDelivery64 id ⟨fun _ => true, "deadline exceeded"⟩ (heavyOrders 16384)
        "robot" 1
      = (emptyPlan, some "deadline exceeded") :=
  ⟨⟨((polls_at_multiples_of_checkEvery float64 ⟨fun _ => true, "deadline"⟩
      [⟨1, 3, 6⟩, ⟨2, 4, 7⟩, ⟨3, 5, 8⟩] "robot" 7).2.2 (by decide!)).1,
    by decide!⟩,
    (polls_at_multiples_of_checkEvery id ⟨fun _ => true, "deadline exceeded"⟩
      (heavyOrders 16384) "robot" 1).2.1 16384 (by decide) (by decide) rfl (by decide)
      (by
        intro h
        have hl := congrArg List.length h
        rw [heavyOrders, List.length_map, List.length_range] at hl
        exact absurd hl (by decide))
      (heavy_search64_reaches_poll ⟨fun _ => true, "deadline exceeded"⟩ 16384 (by decide)
        (by norm_num))⟩

end Robot
